import Mathlib

/-!
Verification of the graph-IR rewrite passes of this repository.

The source under scrutiny is the C++ translation unit containing
`CreateAutodiffSubgraphs` (differentiable-subgraph extraction) and
`RemoveInplaceOpsForONNX` (in-place-mutation removal with alias tracking).
The development shallowly embeds:

* the block-structured IR substrate (nodes, values, nested blocks) as an
  arena keyed by integer handles, with a block identified by its path of
  `(owning node, block index)` steps from the root block;
* `InplaceConverter::ValueTracker` (`registerSetValue`,
  `findAliasForValueAtNode`, `correctAliasReferenceForInputs`);
* the per-node rewrites `PrepareCopyForONNX`, `PrepareIndexPutForONNX`,
  `PrepareInplaceOpsInBlocksForONNX`, `PrepareListPopForONNX`,
  `PrepareListDeleteForONNX`, `PrepareListAppendAndInsertForONNX`,
  `PrepareListSetItemForONNX`, the driver
  `convertInplaceOpsAndTrackAlias`, and `PrepareForRemoveMutations`;
* `mergeNodes`, `make_dependency_graph`, `find_differentiable_groups`,
  `reorder_according_to_dag`, `merge_differentiable_groups` and
  `CreateAutodiffSubgraphsPK`.

Where the translation unit only declares a collaborator (the IR member
functions such as `Node::isBefore`, the `DynamicDAG` container, or
`MutationRemover::inplaceOpVariant`), the definition here is modelled from
the specification document and carries a doc comment saying so.
-/

namespace RNJit

/-- Operator kinds appearing in the two passes.  `atenK s` stands for a
generic `aten::<s>` operator (the in-place tensor-arithmetic family is the
sub-family whose name ends in the `'_'` marker). -/
inductive OpKind where
  | appendK
  | insertK
  | popK
  | deleteK
  | setItemK
  | copyK
  | indexPutK
  | indexPutInplaceK
  | getItemK
  | cloneK
  | expandAsK
  | selectK
  | sliceK
  | listTK
  | atenK (name : String)
  | constantK
  | listConstructK
  | placeholderK
  | ifK
  | loopK
  | paramK
  deriving DecidableEq, Repr

/-- A block is identified by its path from the root block: each step is the
pair of the owning control-flow node and the index of the block among that
node's blocks.  The root block is the empty path. -/
abbrev BPath := List (Nat × Nat)

/-- Arena view of a graph: every per-node / per-value / per-block attribute
is a finitely-supported function from integer handles, mirroring the spec's
"arena of nodes/values indexed by stable integer handles" data model.
`freshV` is the next unallocated value handle. -/
structure GraphSt where
  valNode : Nat → Nat
  nodeKind : Nat → OpKind
  nodeBlock : Nat → BPath
  nodePos : Nat → Nat
  nodeIns : Nat → List Nat
  nodeOuts : Nat → List Nat
  nodeNumBlocks : Nat → Nat
  blockIns : BPath → List Nat
  blockOuts : BPath → List Nat
  blockParamNode : BPath → Nat
  freshV : Nat

/-- Length of the longest common prefix of two block paths; the deepest
block enclosing both of two nodes is the common prefix of their paths. -/
def comPrefixLen : BPath → BPath → Nat
  | x :: xs, y :: ys => if x = y then comPrefixLen xs ys + 1 else 0
  | _, _ => 0

/-- Representative of node `n` inside the ancestor block at depth `k` of
its owning-block path: `n` itself when the path has length `k`, otherwise
the control-flow node recorded at depth `k` of the path. -/
def repNodeAt (g : GraphSt) (n : Nat) (k : Nat) : Nat :=
  let p := g.nodeBlock n
  if k = p.length then n else ((p.get? k).getD (n, 0)).fst

/-- Modelled from the spec: `Node::isBefore` of the IR substrate (declared
but not defined in this translation unit).  Both nodes are resolved to
their representatives in the deepest common block and those positions are
compared; two nodes neither of which precedes the other (e.g. in sibling
`If` branches) compare `false` in both directions. -/
def isBefore (g : GraphSt) (a b : Nat) : Bool :=
  let k := comPrefixLen (g.nodeBlock a) (g.nodeBlock b)
  g.nodePos (repNodeAt g a k) < g.nodePos (repNodeAt g b k)

/-- Walk of the `isAncestor` lambda with the explicit step counter that in
the source is implicit in the finiteness of the owning-node chain: each
step replaces `b` by its parent block (`dropLast` of the path). -/
def isAncestorWalk (a : BPath) : BPath → Nat → Bool
  | b, 0 => a == b
  | b, steps + 1 =>
    if b.isEmpty then a.isEmpty else (a == b) || isAncestorWalk a b.dropLast steps

/-- Translation of the `isAncestor` lambda used by `registerSetValue` and
`findAliasForValueAtNode`: walk from `b` up the owning-node chain; `a` is
an ancestor when it is met on the way, or equals the root.  The chain has
exactly `b.length` proper ancestors. -/
def isAncestor (a b : BPath) : Bool :=
  isAncestorWalk a b b.length

/-- Update (or add) the binding of key `k` in an association list. -/
def setAssoc {α : Type} (k : Nat) (v : α) : List (Nat × α) → List (Nat × α)
  | [] => [(k, v)]
  | (k', v') :: rest => if k' = k then (k, v) :: rest else (k', v') :: setAssoc k v rest

/-- Translation of `InplaceConverter::ValueTracker::aliasComp`: order two
alias values by their producing nodes via `isBefore`, breaking the
incomparable case by the value handle (`Value::unique`). -/
def aliasComp (g : GraphSt) (a b : Nat) : Bool :=
  let nA := g.valNode a
  let nB := g.valNode b
  if nA = nB then false
  else
    let ab := isBefore g nA nB
    let ba := isBefore g nB nA
    if ab = ba then a < b else ab

/-- Insertion into the `std::set` ordered by `aliasComp`: keep the list
sorted, and do nothing when an equivalent element is already present. -/
def insertAlias (g : GraphSt) (v : Nat) : List Nat → List Nat
  | [] => [v]
  | x :: xs =>
    if aliasComp g v x then v :: x :: xs
    else if aliasComp g x v then x :: insertAlias g v xs
    else x :: xs

/-- State of `InplaceConverter::ValueTracker`: the map from every alias to
its root value, and the per-root alias set sorted by `aliasComp`. -/
structure VT where
  aliasToValue : List (Nat × Nat)
  valueToSortedAliases : List (Nat × List Nat)

/-- Translation of `ValueTracker::findAliasForValueAtNode`: an untracked
value is returned unchanged; otherwise the last alias of the root whose
producing node is before `n` and whose owning block is an ancestor of
`n`'s block is returned.  `none` models the `TORCH_INTERNAL_ASSERT`
failures (missing sorted-alias entry, or no visible alias found). -/
def findAliasForValueAtNode (g : GraphSt) (vt : VT) (v : Nat) (n : Nat) : Option Nat :=
  match vt.aliasToValue.lookup v with
  | none => some v
  | some rootV =>
    match vt.valueToSortedAliases.lookup rootV with
    | none => none
    | some aliases =>
      aliases.foldl
        (fun acc al =>
          if isBefore g (g.valNode al) n
              && isAncestor (g.nodeBlock (g.valNode al)) (g.nodeBlock n) then
            some al
          else acc)
        none

/-- Apply a fallible function to every element of a list, failing when any
single application fails. -/
def mapAll {α β : Type} (f : α → Option β) : List α → Option (List β)
  | [] => some []
  | x :: xs =>
    match f x, mapAll f xs with
    | some y, some ys => some (y :: ys)
    | _, _ => none

/-- Translation of `ValueTracker::correctAliasReferenceForInputs`: rewrite
every input of node `n` to the latest visible alias; `none` propagates an
assertion failure from `findAliasForValueAtNode`. -/
def correctAliasReferenceForInputs (g : GraphSt) (vt : VT) (n : Nat) : Option GraphSt :=
  match mapAll (fun v => findAliasForValueAtNode g vt v n) (g.nodeIns n) with
  | none => none
  | some ins' => some { g with nodeIns := fun m => if m = n then ins' else g.nodeIns m }

/-- Translation of `ValueTracker::registerSetValue`.  The `Nat` fuel bounds
the recursion through enclosing blocks (in the source the recursion is
bounded by the block-nesting depth of the graph); `none` is returned when
the fuel runs out or an internal assertion
(`TORCH_INTERNAL_ASSERT(nullptr != owning_blocknode)`) fails. -/
def registerSetValue (g : GraphSt) (vt : VT) (oldV newV : Nat) : Nat → Option (GraphSt × VT)
  | 0 => none
  | fuel + 1 =>
    let n := g.valNode newV
    let owningBlock := g.nodeBlock n
    let vt1 :=
      if (vt.aliasToValue.lookup oldV).isNone then
        { aliasToValue := setAssoc oldV oldV vt.aliasToValue,
          valueToSortedAliases := setAssoc oldV [oldV] vt.valueToSortedAliases }
      else vt
    let rootV := (vt1.aliasToValue.lookup oldV).getD oldV
    let vt2 : VT :=
      { aliasToValue := setAssoc newV rootV vt1.aliasToValue,
        valueToSortedAliases :=
          setAssoc rootV
            (insertAlias g newV ((vt1.valueToSortedAliases.lookup rootV).getD []))
            vt1.valueToSortedAliases }
    if owningBlock = [] then some (g, vt2)
    else
      match owningBlock.getLast? with
      | none => none
      | some (owningBlocknode, _) =>
        let nk := g.nodeKind owningBlocknode
        if nk ≠ OpKind.loopK ∧ nk ≠ OpKind.ifK then some (g, vt2)
        else
          let sortedAlias := (vt2.valueToSortedAliases.lookup rootV).getD []
          let registered := (g.blockOuts owningBlock).any (fun out => sortedAlias.contains out)
          if registered then some (g, vt2)
          else if nk = OpKind.loopK then
            let g1 := { g with blockOuts := fun b =>
              if b = owningBlock then g.blockOuts owningBlock ++ [newV] else g.blockOuts b }
            let newBlockIn := g1.freshV
            let g2 := { g1 with
              blockIns := fun b =>
                if b = owningBlock then g1.blockIns owningBlock ++ [newBlockIn] else g1.blockIns b,
              valNode := fun v =>
                if v = newBlockIn then g1.blockParamNode owningBlock else g1.valNode v,
              freshV := g1.freshV + 1 }
            let vt3 : VT :=
              { aliasToValue := setAssoc newBlockIn rootV vt2.aliasToValue,
                valueToSortedAliases :=
                  setAssoc rootV (insertAlias g2 newBlockIn sortedAlias)
                    vt2.valueToSortedAliases }
            let g3 := { g2 with nodeIns := fun m =>
              if m = owningBlocknode then g2.nodeIns owningBlocknode ++ [rootV] else g2.nodeIns m }
            let newBlocknodeOut := g3.freshV
            let g4 := { g3 with
              nodeOuts := fun m =>
                if m = owningBlocknode then g3.nodeOuts owningBlocknode ++ [newBlocknodeOut]
                else g3.nodeOuts m,
              valNode := fun v =>
                if v = newBlocknodeOut then owningBlocknode else g3.valNode v,
              freshV := g3.freshV + 1 }
            registerSetValue g4 vt3 rootV newBlocknodeOut fuel
          else
            let fromOuter := sortedAlias.any (fun al =>
              isAncestor (g.nodeBlock (g.valNode al)) (g.nodeBlock owningBlocknode))
            if fromOuter then
              let parentPath := g.nodeBlock owningBlocknode
              let subPaths := (List.range (g.nodeNumBlocks owningBlocknode)).map
                (fun j => parentPath ++ [(owningBlocknode, j)])
              let g1 := { g with blockOuts := fun b =>
                (if b ∈ subPaths then
                  (if b = owningBlock then g.blockOuts b ++ [newV] else g.blockOuts b ++ [rootV])
                else g.blockOuts b) }
              let newBlocknodeOut := g1.freshV
              let g2 := { g1 with
                nodeOuts := fun m =>
                  if m = owningBlocknode then g1.nodeOuts owningBlocknode ++ [newBlocknodeOut]
                  else g1.nodeOuts m,
                valNode := fun v =>
                  if v = newBlocknodeOut then owningBlocknode else g1.valNode v,
                freshV := g1.freshV + 1 }
              registerSetValue g2 vt2 rootV newBlocknodeOut fuel
            else some (g, vt2)

/-- Value type kinds, as inspected by `addDummyClone`
(`orig_data->type()->kind()`). -/
inductive TyKind where
  | listT
  | tensorT
  | intT
  | floatT
  | boolT
  | otherT
  deriving DecidableEq, Repr

/-- Unqualified operator-schema name of a kind (`Node::schema().name()`
without the namespace). -/
def kindName : OpKind → String
  | .appendK => "append"
  | .insertK => "insert"
  | .popK => "pop"
  | .deleteK => "Delete"
  | .setItemK => "_set_item"
  | .copyK => "copy_"
  | .indexPutK => "index_put"
  | .indexPutInplaceK => "index_put_"
  | .getItemK => "__getitem__"
  | .cloneK => "clone"
  | .expandAsK => "expand_as"
  | .selectK => "select"
  | .sliceK => "slice"
  | .listTK => "list"
  | .atenK s => s
  | .constantK => "Constant"
  | .listConstructK => "ListConstruct"
  | .placeholderK => "Placeholder"
  | .ifK => "If"
  | .loopK => "Loop"
  | .paramK => "Param"

/-- Whether a kind lives in the `aten` namespace (`kind().is_aten()`). -/
def isAten : OpKind → Bool
  | .constantK | .listConstructK | .placeholderK | .ifK | .loopK | .paramK => false
  | _ => true

/-- Check of the in-place marker, `name.at(name.size() - 1) == '_'`. -/
def endsWithMarker (s : String) : Bool :=
  s.data.getLast? == some '_'

/-- Schema name with the in-place marker stripped,
`name.substr(0, name.size() - 1)`. -/
def stripMarker (s : String) : String :=
  ⟨s.data.dropLast⟩

/-- Modelled from the spec: `MutationRemover::inplaceOpVariant` (declared in
`remove_mutation.h`, not part of this translation unit).  The spec's §4.5
and §9 describe the recognition as "checking if an operator's name ends in
a mutation marker" for `aten` operators; the source additionally requires
the marker-stripped name to exist as a pure operator schema, which rules
out the dunder names (`__getitem__`) — modelled here by requiring the
stripped name not to end in the marker itself. -/
def inplaceOpVariant (k : OpKind) : Bool :=
  (isAten k && endsWithMarker (kindName k)) && !endsWithMarker (stripMarker (kindName k))

/-- Kind obtained by stripping the trailing in-place marker from the schema
name (`Symbol::fromQualString(new_schema)`). -/
def strippedKind (k : OpKind) : OpKind :=
  .atenK (stripMarker (kindName k))

/-- A node of a flat (root-block) graph: handle, kind, input values and
output values in order. -/
structure FNode where
  nid : Nat
  kind : OpKind
  ins : List Nat
  outs : List Nat
  deriving DecidableEq, Repr

/-- First input (`node->input(0)`) of a flat node. -/
def FNode.in0 (n : FNode) : Nat := n.ins.headD 0

/-- First output (`node->output()`) of a flat node. -/
def FNode.out0 (n : FNode) : Nat := n.outs.headD 0

/-- A flat graph: the root block's input values, its node list in
topological order, the return-node inputs, the value-type assignment, and
the next fresh value/node handles. -/
structure FGraph where
  gins : List Nat
  nodes : List FNode
  rets : List Nat
  vty : Nat → TyKind
  freshV : Nat
  freshN : Nat

/-- Record the effect of one `replaceAllUsesWith(old, new)` on a pending
substitution: existing targets equal to `old` are forwarded to `new`, and
the pair `(old, new)` is appended. -/
def addSubst (sub : List (Nat × Nat)) (oldV newV : Nat) : List (Nat × Nat) :=
  (sub.map (fun kv => (kv.1, if kv.2 = oldV then newV else kv.2))) ++ [(oldV, newV)]

/-- Value reached through a pending substitution. -/
def substV (sub : List (Nat × Nat)) (v : Nat) : Nat :=
  (sub.lookup v).getD v

/-- Result of one per-node rewrite: the nodes that replace the original
node (in block order), the `replaceAllUsesWith` pairs performed, the
`(orig_data, new_out)` pair to register with the tracker (if any), and the
advanced fresh value/node counters. -/
structure PrepResult where
  emitted : List FNode
  replaced : List (Nat × Nat)
  reg : Option (Nat × Nat)
  fv : Nat
  fn : Nat

/-- Modelled from the spec for the encapsulation step:
`PrepareIndexPutForONNX` (source lines 419-425) destroys the `index_put`
node and stands up the node produced by `EncapsulatePatternIntoSubblock`
(an external collaborator); per spec §4.5 the pattern is replaced by the
equivalent pure operator.  The placeholder keeps the `index_put` inputs and
gets one fresh output; the returned pair is
`(placeholder->input(0), placeholder->output())`. -/
def PrepareIndexPutForONNX (n : FNode) (fv fn : Nat) : PrepResult :=
  let vPH := fv
  let ph : FNode := ⟨fn, .placeholderK, n.ins, [vPH]⟩
  ⟨[ph], [(n.out0, vPH)], some (n.in0, vPH), fv + 1, fn + 1⟩

/-- Translation of `PrepareCopyForONNX`: replace `aten::copy_` by an empty
`ListConstruct` (the empty indices list), an `aten::expand_as` broadcast of
the source, and an `aten::index_put_` that is immediately encapsulated by
`PrepareIndexPutForONNX`; the `copy_` node is destroyed. -/
def PrepareCopyForONNX (n : FNode) (fv fn : Nat) : PrepResult :=
  let vDL := fv
  let dummyList : FNode := ⟨fn, .listConstructK, [], [vDL]⟩
  let vExp := fv + 1
  let expandNode : FNode := ⟨fn + 1, .expandAsK, [n.ins.getD 1 0, n.ins.getD 0 0], [vExp]⟩
  let vIP := fv + 2
  let ipNode : FNode := ⟨fn + 2, .indexPutInplaceK, [n.ins.getD 0 0, vDL, vExp, n.ins.getD 2 0], [vIP]⟩
  let r := PrepareIndexPutForONNX ipNode (fv + 3) (fn + 3)
  ⟨dummyList :: expandNode :: r.emitted, (n.out0, vIP) :: r.replaced, r.reg, r.fv, r.fn⟩

/-- Translation of `PrepareInplaceOpsInBlocksForONNX`: for an `aten` node
whose schema name ends in the `'_'` marker, create the pure node named by
stripping the marker with the same inputs, replace all uses, and destroy
the in-place node; when input 0 is produced by `aten::select` or
`aten::slice`, additionally synthesize the read-modify-write `copy_`
(lowered by `PrepareCopyForONNX`).  `inKind0` is the kind of the node
producing input 0 (`node->inputs().at(0)->node()`), `none` for a graph
input. -/
def PrepareInplaceOpsInBlocksForONNX (n : FNode) (inKind0 : Option OpKind) (fv fn : Nat) :
    PrepResult :=
  if ¬ isAten n.kind then ⟨[n], [], none, fv, fn⟩
  else if ¬ endsWithMarker (kindName n.kind) then ⟨[n], [], none, fv, fn⟩
  else
    let vNew := fv
    let newNode : FNode := ⟨fn, strippedKind n.kind, n.ins, [vNew]⟩
    if inKind0 = some .selectK ∨ inKind0 = some .sliceK then
      let vFalse := fv + 1
      let falseNode : FNode := ⟨fn + 1, .constantK, [], [vFalse]⟩
      let newCopy : FNode := ⟨fn + 2, .copyK, [n.in0, vNew, vFalse], [fv + 2]⟩
      let r := PrepareCopyForONNX newCopy (fv + 3) (fn + 3)
      ⟨falseNode :: newNode :: r.emitted, (n.out0, vNew) :: r.replaced, r.reg, r.fv, r.fn⟩
    else
      ⟨[newNode], [(n.out0, vNew)], some (n.in0, vNew), fv + 1, fn + 1⟩

/-- Translation of `PrepareListPopForONNX`: insert an `aten::__getitem__`
with the same inputs before the `pop`, redirect all uses of the popped
element to it, and keep the `pop` node whose (retyped) output now stands
for the updated list. -/
def PrepareListPopForONNX (n : FNode) (fv fn : Nat) : PrepResult :=
  let vG := fv
  let getitemNode : FNode := ⟨fn, .getItemK, n.ins, [vG]⟩
  ⟨[getitemNode, n], [(n.out0, vG)], some (n.in0, n.out0), fv + 1, fn + 1⟩

/-- Translation of `PrepareListDeleteForONNX`: add an output carrying the
updated list. -/
def PrepareListDeleteForONNX (n : FNode) (fv fn : Nat) : PrepResult :=
  let n' := { n with outs := n.outs ++ [fv] }
  ⟨[n'], [], some (n'.in0, n'.outs.getLastD 0), fv + 1, fn⟩

/-- Translation of `PrepareListAppendAndInsertForONNX`: add an output for
the updated list when the node has none. -/
def PrepareListAppendAndInsertForONNX (n : FNode) (fv fn : Nat) : PrepResult :=
  if n.outs = [] then
    let n' := { n with outs := [fv] }
    ⟨[n'], [], some (n'.in0, n'.out0), fv + 1, fn⟩
  else
    ⟨[n], [], some (n.in0, n.out0), fv, fn⟩

/-- Translation of `PrepareListSetItemForONNX`: the pair of the written
list and the node's existing output. -/
def PrepareListSetItemForONNX (n : FNode) (fv fn : Nat) : PrepResult :=
  ⟨[n], [], some (n.in0, n.out0), fv, fn⟩

/-- Kind of the node producing value `v` among the emitted nodes, `none`
for a graph input. -/
def producerKind (nodes : List FNode) (v : Nat) : Option OpKind :=
  (nodes.find? (fun m => v ∈ m.outs)).map (·.kind)

/-- State of the walk of `convertInplaceOpsAndTrackAlias` over a block:
nodes emitted so far, pending use-replacements, the ordered log of
`registerSetValue` calls, and the fresh counters. -/
structure ConvSt where
  outNodes : List FNode
  sub : List (Nat × Nat)
  regLog : List (Nat × Nat)
  fv : Nat
  fn : Nat

/-- Fold `replaceAllUsesWith` pairs into the pending substitution. -/
def addReplaced (sub : List (Nat × Nat)) : List (Nat × Nat) → List (Nat × Nat)
  | [] => sub
  | (o, w) :: rest => addReplaced (addSubst sub o w) rest

/-- One step of `convertInplaceOpsAndTrackAlias` (source lines 986-1027)
restricted to a flat block: the node's inputs are first resolved through
the pending `replaceAllUsesWith` substitution (in the source the use lists
are rewritten eagerly), then the node is dispatched exactly as in the
source.  `If`/`Loop` nodes, whose bodies the source recurses into, do not
occur in the flat fragment and pass through. -/
def convertStep (st : ConvSt) (n0 : FNode) : ConvSt :=
  let n : FNode := { n0 with ins := n0.ins.map (substV st.sub) }
  let pass : ConvSt := { st with outNodes := st.outNodes ++ [n] }
  if n.kind = .ifK ∨ n.kind = .loopK then pass
  else
    let dispatch : Option (PrepResult × Bool) :=
      if n.kind = .copyK then some (PrepareCopyForONNX n st.fv st.fn, true)
      else if n.kind = .indexPutK ∨ n.kind = .indexPutInplaceK then
        some (PrepareIndexPutForONNX n st.fv st.fn, n.kind = .indexPutInplaceK)
      else if n.kind = .insertK ∨ n.kind = .appendK then
        some (PrepareListAppendAndInsertForONNX n st.fv st.fn, true)
      else if inplaceOpVariant n.kind then
        some (PrepareInplaceOpsInBlocksForONNX n (producerKind st.outNodes n.in0) st.fv st.fn,
          true)
      else if n.kind = .popK then some (PrepareListPopForONNX n st.fv st.fn, true)
      else if n.kind = .deleteK then some (PrepareListDeleteForONNX n st.fv st.fn, true)
      else if n.kind = .setItemK then some (PrepareListSetItemForONNX n st.fv st.fn, true)
      else none
    match dispatch with
    | none => pass
    | some (r, doReg) =>
      { outNodes := st.outNodes ++ r.emitted,
        sub := addReplaced st.sub r.replaced,
        regLog := st.regLog ++ (if doReg then r.reg.toList else []),
        fv := r.fv,
        fn := r.fn }

/-- Walk of `convertInplaceOpsAndTrackAlias` over a flat graph, returning
the rewritten graph together with the ordered `registerSetValue` log. -/
def convertInplaceOpsAndTrackAlias (g : FGraph) : FGraph × List (Nat × Nat) :=
  let st := g.nodes.foldl convertStep ⟨[], [], [], g.freshV, g.freshN⟩
  ({ gins := g.gins,
     nodes := st.outNodes,
     rets := g.rets.map (substV st.sub),
     vty := g.vty,
     freshV := st.fv,
     freshN := st.fn }, st.regLog)

/-- Arena view of a flat graph: node positions follow the node-list order
(the root-block param node is handle 0 at position 0, and the return node
is the fresh handle `g.freshN` placed after every node). -/
def FGraph.toSt (g : FGraph) : GraphSt :=
  { valNode := fun v =>
      match g.nodes.find? (fun m => v ∈ m.outs) with
      | some m => m.nid
      | none => 0,
    nodeKind := fun m =>
      match g.nodes.find? (fun k => k.nid = m) with
      | some k => k.kind
      | none => .paramK,
    nodeBlock := fun _ => [],
    nodePos := fun m =>
      if m = g.freshN then g.nodes.length + 1
      else
        match g.nodes.findIdx? (fun k => k.nid = m) with
        | some i => i + 1
        | none => 0,
    nodeIns := fun m =>
      match g.nodes.find? (fun k => k.nid = m) with
      | some k => k.ins
      | none => [],
    nodeOuts := fun m =>
      match g.nodes.find? (fun k => k.nid = m) with
      | some k => k.outs
      | none => [],
    nodeNumBlocks := fun _ => 0,
    blockIns := fun _ => g.gins,
    blockOuts := fun _ => g.rets,
    blockParamNode := fun _ => 0,
    freshV := g.freshV }

/-- Replay of the `registerSetValue` calls recorded during conversion.  In
the source the tracker is updated while the graph is rewritten; since the
relative order of nodes never changes afterwards and the `std::set`
comparator is only consulted at insertion, replaying the same calls in the
same order against the final graph builds the same tracker state. -/
def buildTracker (g : GraphSt) (log : List (Nat × Nat)) : Option VT :=
  log.foldl
    (fun acc p =>
      match acc with
      | none => none
      | some vt => (registerSetValue g vt p.1 p.2 1).map Prod.snd)
    (some ⟨[], []⟩)

/-- Translation of `InplaceConverter::correctAliasReferences` on a flat
graph: rewrite every node's inputs, and the return node's inputs, to the
latest visible alias. -/
def correctAliasReferencesF (g : FGraph) (vt : VT) : Option FGraph :=
  let st := g.toSt
  let step := fun (n : FNode) =>
    (mapAll (fun v => findAliasForValueAtNode st vt v n.nid) n.ins).map
      (fun ins' => { n with ins := ins' })
  match mapAll step g.nodes with
  | none => none
  | some nodes' =>
    match mapAll (fun v => findAliasForValueAtNode st vt v g.freshN) g.rets with
    | none => none
    | some rets' => some { g with nodes := nodes', rets := rets' }

/-- The mutation-removal pipeline on a flat graph, as run by
`convertMutationForONNX` after the attribute phase: convert the in-place
operators while logging the alias registrations, build the tracker, and
correct every alias reference. -/
def convertMutationPipeline (g : FGraph) : Option FGraph :=
  let pr := convertInplaceOpsAndTrackAlias g
  match buildTracker pr.1.toSt pr.2 with
  | none => none
  | some vt => correctAliasReferencesF pr.1 vt

/-- The in-place operator kinds recognized by the conversion dispatch of
`convertInplaceOpsAndTrackAlias`: list append/insert/pop/delete/set-item,
tensor copy, in-place index-put, and the generic `'_'`-marker family. -/
def recognizedInplaceKind (k : OpKind) : Bool :=
  k = .appendK || k = .insertK || k = .popK || k = .deleteK || k = .setItemK ||
  k = .copyK || k = .indexPutInplaceK || inplaceOpVariant k

/-- Node `i` of a write chain: an in-place `aten` operator writing either
the original value `0` (`style i = false`, reads through the stale name)
or the previous write's output `2*i` (`style i = true`, reads through the
rebound name), with second operand `2*i + 1` and output `2*i + 2`. -/
def chainNode (names : Nat → String) (style : Nat → Bool) (i : Nat) : FNode :=
  ⟨i + 1, .atenK (names i), [if style i then 2 * i else 0, 2 * i + 1], [2 * i + 2]⟩

/-- A flat graph performing `n` sequential in-place writes on the
graph-input value `0` and returning it. -/
def chainGraph (n : Nat) (names : Nat → String) (style : Nat → Bool) : FGraph :=
  { gins := 0 :: (List.range n).map (fun i => 2 * i + 1),
    nodes := (List.range n).map (chainNode names style),
    rets := [0],
    vty := fun _ => .tensorT,
    freshV := 2 * n + 2,
    freshN := 2 * n + 2 }

/-- The pure node that the conversion phase leaves in place of
`chainNode i` (fresh handles start at `F`). -/
def chainPureNode (names : Nat → String) (style : Nat → Bool) (F i : Nat) : FNode :=
  ⟨F + i, .atenK (stripMarker (names i)),
    [if style i then F + i - 1 else 0, 2 * i + 1], [F + i]⟩

/-- The fully corrected node: input 0 rebound to the latest alias before
the node (the previous write's pure output). -/
def chainFinalNode (names : Nat → String) (style : Nat → Bool) (F i : Nat) : FNode :=
  ⟨F + i, .atenK (stripMarker (names i)),
    [if i = 0 then 0 else F + i - 1, 2 * i + 1], [F + i]⟩

/-- The flat graph produced by the conversion phase
(`convertInplaceOpsAndTrackAlias`) on `chainGraph`: every write node is
replaced by its pure variant, the return still names the stale value `0`,
and both fresh counters have advanced by `n`. -/
def chainConvGraph (n : Nat) (names : Nat → String) (style : Nat → Bool) : FGraph :=
  { gins := 0 :: (List.range n).map (fun i => 2 * i + 1),
    nodes := (List.range n).map (chainPureNode names style (2 * n + 2)),
    rets := [0],
    vty := fun _ => TyKind.tensorT,
    freshV := 2 * n + 2 + n,
    freshN := 2 * n + 2 + n }

/-- Alias-to-root map after replaying the first `k` registrations of the
chain's log: the original value `0` is its own root, and each pure output
`F + i` is an alias of root `0`. -/
def chainATV (F k : Nat) : List (Nat × Nat) :=
  (0, 0) :: (List.range k).map (fun i => (F + i, 0))

/-- Sorted-alias table after replaying the first `k` registrations of the
chain's log: root `0` owns the aliases `0, F, F+1, ...` in program order. -/
def chainVSA (F k : Nat) : List (Nat × List Nat) :=
  [(0, 0 :: (List.range k).map (fun i => F + i))]

/-- Translation of `addDummyClone` at its call site in
`PrepareForRemoveMutations` (`insertBefore = false`, reference the return
node, so the new nodes are prepended to the block): a `ListType` value gets
an `aten::list` node; tensor/int/float/bool values get a `prim::Constant`
none node and an `aten::clone`; any other type yields no node (`nullptr`,
tripping the caller's `TORCH_INTERNAL_ASSERT`).  Returns the prepended
nodes, the clone's output value and the advanced counters. -/
def addDummyClone (vty : Nat → TyKind) (origData fv fn : Nat) :
    Option (List FNode × Nat × Nat × Nat) :=
  match vty origData with
  | .listT => some ([⟨fn, .listTK, [origData], [fv]⟩], fv, fv + 1, fn + 1)
  | .tensorT | .intT | .floatT | .boolT =>
    some ([⟨fn, .constantK, [], [fv]⟩, ⟨fn + 1, .cloneK, [origData, fv], [fv + 1]⟩],
      fv + 1, fv + 2, fn + 2)
  | .otherT => none

/-- Position of the first node that is an in-place-op variant still using
value `i` as an input. -/
def findMutatingUse (nodes : List FNode) (i : Nat) : Option Nat :=
  nodes.findIdx? (fun m => inplaceOpVariant m.kind && m.ins.contains i)

/-- Mutation state threaded through `PrepareForRemoveMutations`: the node
list, the return-node inputs, the fresh counters, and the emitted warnings
as `(node handle, input value)` pairs. -/
structure PrepMutSt where
  nodes : List FNode
  rets : List Nat
  fv : Nat
  fn : Nat
  warns : List (Nat × Nat)

/-- Handling of one block input by `PrepareForRemoveMutations` (source
lines 568-589): while some in-place-op-variant node still uses the input,
prepend a dummy clone, replace that node's first matching input slot with
the clone's output, replace every use of the input after that node
(including the return node's) with the clone's output, and record the
warning.  The fuel bounds the number of uses processed. -/
def prepareInputMutations (vty : Nat → TyKind) (i : Nat) :
    Nat → PrepMutSt → Option PrepMutSt
  | 0, st => some st
  | fuel + 1, st =>
    match findMutatingUse st.nodes i with
    | none => some st
    | some p =>
      let m := (st.nodes.get? p).getD ⟨0, .paramK, [], []⟩
      match addDummyClone vty i st.fv st.fn with
      | none => none
      | some (clones, cloneOut, fv', fn') =>
        let idx := m.ins.indexOf i
        let m' := { m with ins := m.ins.set idx cloneOut }
        let newNodes := clones ++ st.nodes.take p ++ [m'] ++
          ((st.nodes.drop (p + 1)).map
            (fun k => { k with ins := k.ins.map (fun v => if v = i then cloneOut else v) }))
        let newRets := st.rets.map (fun v => if v = i then cloneOut else v)
        prepareInputMutations vty i fuel ⟨newNodes, newRets, fv', fn', st.warns ++ [(m.nid, i)]⟩

/-- Translation of `PrepareForRemoveMutations` on a flat graph: every graph
input that is used by an in-place-op-variant node is cloned as above.
Returns the rewritten graph and the warnings emitted. -/
def PrepareForRemoveMutations (g : FGraph) : Option (FGraph × List (Nat × Nat)) :=
  let fuel := (g.nodes.map (fun n => n.ins.length)).sum + 1
  let final := g.gins.foldl
    (fun acc i =>
      match acc with
      | none => none
      | some st => prepareInputMutations g.vty i fuel st)
    (some ⟨g.nodes, g.rets, g.freshV, g.freshN, []⟩)
  match final with
  | none => none
  | some st =>
    some ({ g with nodes := st.nodes, rets := st.rets, freshV := st.fv, freshN := st.fn },
      st.warns)

/-- Example flat graph for `x.add_(y); z = mul(x, 2)`: graph inputs `x = 0`
and `y = 1`, the in-place `add_` producing value 2, the constant `2`
(value 3) and the `mul` reading the stale `x` (value 0). -/
def exAddMulGraph : FGraph :=
  { gins := [0, 1],
    nodes := [⟨1, .atenK "add_", [0, 1], [2]⟩, ⟨2, .constantK, [], [3]⟩,
      ⟨3, .atenK "mul", [0, 3], [4]⟩],
    rets := [4], vty := fun _ => .tensorT, freshV := 10, freshN := 10 }

/-- Example flat graph made of a single recognized in-place operator:
`append(l, x)` on the graph-input list `l = 0` with `x = 1`. -/
def exAppendGraph : FGraph :=
  { gins := [0, 1], nodes := [⟨1, .appendK, [0, 1], []⟩], rets := [0],
    vty := fun _ => .listT, freshV := 10, freshN := 10 }

/-- Example graph: a root block with node 1 (produces value 10, position
1), a `Loop` node 2 (position 2) whose body `[(2, 0)]` has param node 3 and
a write node 4 (produces value 11), and a later root node 5 (position 3).
Used to witness the tracker theorems. -/
def exLoopGraph : GraphSt :=
  { valNode := fun v => if v = 10 then 1 else if v = 11 then 4 else 0,
    nodeKind := fun n => if n = 2 then OpKind.loopK else OpKind.constantK,
    nodeBlock := fun n => if n = 3 ∨ n = 4 then [(2, 0)] else [],
    nodePos := fun n =>
      if n = 1 then 1 else if n = 2 then 2 else if n = 3 then 0
      else if n = 4 then 1 else if n = 5 then 3 else 0,
    nodeIns := fun _ => [], nodeOuts := fun _ => [],
    nodeNumBlocks := fun n => if n = 2 then 1 else 0,
    blockIns := fun _ => [], blockOuts := fun _ => [],
    blockParamNode := fun b => if b = [(2, 0)] then 3 else 0, freshV := 20 }

/-- Example graph: a root block with node 1 (produces value 10, position
1), an `If` node 2 (position 2) with two branches; branch `[(2, 0)]` holds
the write node 4 (produces value 11, position 1).  Used to witness the
`If`-threading theorem. -/
def exIfGraph : GraphSt :=
  { valNode := fun v => if v = 10 then 1 else if v = 11 then 4 else 0,
    nodeKind := fun n => if n = 2 then OpKind.ifK else OpKind.constantK,
    nodeBlock := fun n => if n = 4 then [(2, 0)] else [],
    nodePos := fun n =>
      if n = 1 then 1 else if n = 2 then 2 else if n = 4 then 1 else 0,
    nodeIns := fun _ => [], nodeOuts := fun _ => [],
    nodeNumBlocks := fun n => if n = 2 then 2 else 0,
    blockIns := fun _ => [], blockOuts := fun _ => [],
    blockParamNode := fun b => if b = [(2, 0)] then 3 else 0, freshV := 20 }

/-- Modelled from the spec (`dynamic_dag.h` is declared but not part of
this translation unit): the per-vertex data of a `DynamicDAG` vertex read
by the merge policy — the topological ordinal, the absorbed original nodes
(`rdata`), the in-edge producer ordinals and the out-edge count. -/
structure DVert where
  ord : Nat
  rdata : List FNode
  inEdges : List Nat
  outEdgeCount : Nat

/-- Modelled from the spec: the DAG as its `maybe_vertices` array indexed
by ordinal; `none` marks an ordinal whose vertex was absorbed by an edge
contraction. -/
structure DDag where
  verts : List (Option DVert)

/-- `dep_graph.maybe_vertices().at(ord)` followed by `dep_graph.at(ord)`. -/
def DDag.vertAt (d : DDag) (o : Nat) : Option DVert :=
  match d.verts.get? o with
  | some ov => ov
  | none => none

/-- Translation of `shouldConsiderForMerge`: a vertex already holding two
or more nodes is always eligible; a singleton vertex is eligible when its
node is not a `prim::Constant` and is differentiable
(`isDifferentiable` lives in a different translation unit and is
abstracted into the `diff` parameter).  The source asserts
`rdata.size() == 1` in the non-group case; the impossible empty case is
mapped to `false`. -/
def shouldConsiderForMerge (diff : FNode → Bool) (rdata : List FNode) : Bool :=
  if 2 ≤ rdata.length then true
  else
    match rdata with
    | [node] => if node.kind = OpKind.constantK then false else diff node
    | _ => false

/-- Insertion step of the ordinal sort. -/
def insertOrd (x : Nat) : List Nat → List Nat
  | [] => [x]
  | y :: ys => if x ≤ y then x :: y :: ys else y :: insertOrd x ys

/-- `dep_graph.sort(in_edges)`: stable sort of the producer ordinals into
ascending topological order. -/
def sortOrds : List Nat → List Nat
  | [] => []
  | x :: xs => insertOrd x (sortOrds xs)

/-- Translation of the inner producer loop of `find_differentiable_groups`
(the `for (auto it = in_edges.rbegin(); ...)` walk): producers are visited
in reverse topological order; a producer is skipped (`continue`) by the
distance threshold, by the out-degree threshold, or by eligibility;
otherwise `contractEdge` is attempted (the `DynamicDAG` implementation
lives in the missing header and is abstracted into the `contract`
parameter, `none` standing for `false`).  The first successful contraction
`break`s.  Alongside the source's result the translation returns the
ordered list of `(producer ordinal, consumer ordinal)` pairs on which
contraction was actually attempted. -/
def fdgInner (contract : DDag → Nat → Nat → Option DDag) (diff : FNode → Bool)
    (dth oth : Nat) (dag : DDag) (consOrd : Nat) :
    List Nat → Option DDag × List (Nat × Nat)
  | [] => (none, [])
  | p :: rest =>
    match DDag.vertAt dag p with
    | none => fdgInner contract diff dth oth dag consOrd rest
    | some producer =>
      if dth < consOrd - producer.ord then
        fdgInner contract diff dth oth dag consOrd rest
      else if oth < producer.outEdgeCount then
        fdgInner contract diff dth oth dag consOrd rest
      else if ¬ shouldConsiderForMerge diff producer.rdata then
        fdgInner contract diff dth oth dag consOrd rest
      else
        match contract dag producer.ord consOrd with
        | some dag' => (some dag', [(producer.ord, consOrd)])
        | none =>
          let r := fdgInner contract diff dth oth dag consOrd rest
          (r.1, (producer.ord, consOrd) :: r.2)

/-- Translation of the outer `while (ord >= 0)` loop of
`find_differentiable_groups`.  `ordP` encodes `ord + 1`, so `0` is the
terminated state `ord < 0`; the fuel bounds the iteration count (in the
source, termination follows from every successful contraction strictly
decreasing the number of live vertices).  Besides the final DAG, the
translation records the loop trace as `(ord, changed)` pairs. -/
def fdgOuter (contract : DDag → Nat → Nat → Option DDag) (diff : FNode → Bool)
    (dth oth : Nat) : DDag → Nat → Nat → Option (DDag × List (Nat × Bool))
  | _, _, 0 => none
  | dag, 0, _ + 1 => some (dag, [])
  | dag, o + 1, fuel + 1 =>
    match DDag.vertAt dag o with
    | none =>
      (fdgOuter contract diff dth oth dag o fuel).map
        (fun r => (r.1, (o, false) :: r.2))
    | some consumer =>
      if ¬ shouldConsiderForMerge diff consumer.rdata then
        (fdgOuter contract diff dth oth dag o fuel).map
          (fun r => (r.1, (o, false) :: r.2))
      else
        match fdgInner contract diff dth oth dag o
            (sortOrds consumer.inEdges).reverse with
        | (some dag', _) =>
          (fdgOuter contract diff dth oth dag' (o + 1) fuel).map
            (fun r => (r.1, (o, true) :: r.2))
        | (none, _) =>
          (fdgOuter contract diff dth oth dag o fuel).map
            (fun r => (r.1, (o, false) :: r.2))

/-- Translation of `find_differentiable_groups` with its default thresholds
(distance 64, producer out-degree 16), started at the highest ordinal.
The fuel `n*n + n + 1` covers `n` ordinal decrements plus at most one
stay-in-place re-examination per successful contraction (each of which
absorbs one of the at most `n` vertices at the ordinal under scrutiny). -/
def find_differentiable_groups (contract : DDag → Nat → Nat → Option DDag)
    (diff : FNode → Bool) (dag : DDag) : Option (DDag × List (Nat × Bool)) :=
  fdgOuter contract diff 64 16 dag dag.verts.length
    (dag.verts.length * dag.verts.length + dag.verts.length + 1)

/-- Translation of `make_dependency_graph` on a flat (root) block: one
vertex per node in block order (the ordinal is the list index), an edge
from a node to every later node that consumes one of its outputs.  On a
flat block the use-owner walk of the source finds the using node itself.
The in/out edge sets of the missing `DynamicDAG` are modelled as the
producer-ordinal list and the out-edge count. -/
def make_dependency_graph (g : FGraph) : DDag :=
  { verts := (List.range g.nodes.length).map (fun i =>
      some { ord := i,
             rdata := [g.nodes.getD i ⟨0, OpKind.paramK, [], []⟩],
             inEdges := (List.range g.nodes.length).filter (fun j =>
               (g.nodes.getD j ⟨0, OpKind.paramK, [], []⟩).outs.any (fun o =>
                 (g.nodes.getD i ⟨0, OpKind.paramK, [], []⟩).ins.contains o)),
             outEdgeCount := ((List.range g.nodes.length).filter (fun j =>
               (g.nodes.getD i ⟨0, OpKind.paramK, [], []⟩).outs.any (fun o =>
                 (g.nodes.getD j ⟨0, OpKind.paramK, [], []⟩).ins.contains o))).length }) }

/-- Translation of `reorder_according_to_dag`: every live vertex's nodes
are moved, in reverse `rdata` order, to just before the block's return
node; the resulting block order is their concatenation in ordinal order. -/
def reorder_according_to_dag (dag : DDag) : List FNode :=
  dag.verts.flatMap (fun ov =>
    match ov with
    | none => []
    | some v => v.rdata.reverse)

/-- State threaded through the translation of `mergeNodes`: the
outer-to-child `value_map`, the child graph under construction (inputs,
appended nodes, registered outputs, next fresh child value), and the group
node under construction (its inputs — outer values — and its outputs,
each paired as `(original outer output, group-node output value)`;
`groupFresh` allocates the group node's output values in the outer
graph). -/
structure MergeSt where
  valueMap : List (Nat × Nat)
  childInputs : List Nat
  childNodes : List FNode
  childOutputs : List Nat
  childFresh : Nat
  groupIns : List Nat
  groupOuts : List (Nat × Nat)
  groupFresh : Nat

/-- Translation of the `getOrCreateInput` lambda of `mergeNodes`: a value
already mapped is reused; a compile-time constant (`toIValue` succeeds,
abstracted into `isConstV`) is inlined as a fresh `prim::Constant` node of
the child graph; any other value becomes a new child-graph input and a new
input of the group node. -/
def getOrCreateInput (isConstV : Nat → Bool) (st : MergeSt) (v : Nat) : Nat × MergeSt :=
  match st.valueMap.lookup v with
  | some nv => (nv, st)
  | none =>
    if isConstV v then
      let nv := st.childFresh
      (nv, { st with
        childNodes := st.childNodes ++ [⟨st.childNodes.length, OpKind.constantK, [], [nv]⟩],
        childFresh := st.childFresh + 1,
        valueMap := st.valueMap ++ [(v, nv)] })
    else
      let nv := st.childFresh
      (nv, { st with
        childInputs := st.childInputs ++ [nv],
        childFresh := st.childFresh + 1,
        groupIns := st.groupIns ++ [v],
        valueMap := st.valueMap ++ [(v, nv)] })

/-- Inputs of a clone, each resolved through `getOrCreateInput`
(`new_graph->createClone(n, getOrCreateInput)`). -/
def mergeCloneIns (isConstV : Nat → Bool) (st : MergeSt) :
    List Nat → List Nat × MergeSt
  | [] => ([], st)
  | v :: vs =>
    let r := getOrCreateInput isConstV st v
    let rs := mergeCloneIns isConstV r.2 vs
    (r.1 :: rs.1, rs.2)

/-- Translation of the per-output loop of `mergeNodes`: record
`value_map[old_output] = new_output`; when the original output has at
least one use outside the group (`to_replace` non-empty — on the flat
block a use is an occurrence in a non-group node's inputs or in the block
return), register the clone's output on the child graph and add a fresh
output to the group node. -/
def mergeOuts (others : List FNode) (rets : List Nat) :
    MergeSt → List (Nat × Nat) → MergeSt
  | st, [] => st
  | st, (o, nw) :: rest =>
    let st1 := { st with valueMap := st.valueMap ++ [(o, nw)] }
    let st2 := if others.any (fun m => m.ins.contains o) || rets.contains o then
        { st1 with childOutputs := st1.childOutputs ++ [nw],
                   groupOuts := st1.groupOuts ++ [(o, st1.groupFresh)],
                   groupFresh := st1.groupFresh + 1 }
      else st1
    mergeOuts others rets st2 rest

/-- Translation of one iteration of the `for(auto n : nodes)` loop of
`mergeNodes`: clone `n` into the child graph (inputs through
`getOrCreateInput`, fresh child outputs), then process its outputs. -/
def mergeNode1 (isConstV : Nat → Bool) (others : List FNode) (rets : List Nat)
    (st : MergeSt) (n : FNode) : MergeSt :=
  let r := mergeCloneIns isConstV st n.ins
  let st1 := r.2
  let outsNew := (List.range n.outs.length).map (fun i => st1.childFresh + i)
  let nn : FNode := ⟨st1.childNodes.length, n.kind, r.1, outsNew⟩
  let st2 := { st1 with childNodes := st1.childNodes ++ [nn],
                        childFresh := st1.childFresh + n.outs.length }
  mergeOuts others rets st2 (n.outs.zip outsNew)

/-- `node->destroy()` on the flat block: the node must be use-free (no
other node's input and no block return names one of its outputs —
`destroy` asserts this in the IR), and is then removed from the node
list. -/
def destroyNode (rets : List Nat) (bnodes : List FNode) (nid : Nat) :
    Option (List FNode) :=
  match bnodes.find? (fun m => m.nid = nid) with
  | none => none
  | some m =>
    if bnodes.any (fun k => decide (k.nid ≠ nid) && m.outs.any (fun o => k.ins.contains o))
        || m.outs.any (fun o => rets.contains o) then none
    else some (bnodes.filter (fun k => decide (k.nid ≠ nid)))

/-- The destroy loop `for(size_t i = nodes.size(); i > 0; --i)`, applied to
an explicit order of node handles. -/
def destroyAll (rets : List Nat) : List FNode → List Nat → Option (List FNode)
  | bnodes, [] => some bnodes
  | bnodes, nid :: rest =>
    match destroyNode rets bnodes nid with
    | none => none
    | some b' => destroyAll rets b' rest

/-- `group_node->insertBefore(nodes[0])` on the flat block. -/
def insertBeforeNid (gnode : FNode) (nid0 : Nat) : List FNode → List FNode
  | [] => [gnode]
  | m :: ms => if m.nid = nid0 then gnode :: m :: ms else m :: insertBeforeNid gnode nid0 ms

/-- Result of the translated `mergeNodes`: the rewritten block and return
list, the group node, the child graph (inputs, nodes, registered outputs),
and the order in which the original nodes were destroyed. -/
structure MergeResult where
  blockNodes : List FNode
  rets : List Nat
  groupNode : FNode
  childInputs : List Nat
  childNodes : List FNode
  childOutputs : List Nat
  st : MergeSt
  destroyed : List Nat

/-- Translation of `mergeNodes` on a flat block.  `gk` is the
`group_node_kind` parameter (`prim::DifferentiableGraph` at the pass's
call site), `groupNid` the handle of the created group node and `fresh0`
the outer graph's next fresh value.  The group is cloned into the child
graph, all external uses of redirected outputs are replaced by the group
node's outputs, the group node is inserted before `nodes[0]`, and the
original nodes are destroyed in reverse order (`none` models
`JIT_ASSERT(nodes.size() > 0)` and the use-freedom assert of
`Node::destroy`). -/
def mergeNodes (isConstV : Nat → Bool) (gk : OpKind) (bnodes : List FNode)
    (rets : List Nat) (G : List FNode) (groupNid fresh0 : Nat) : Option MergeResult :=
  match G with
  | [] => none
  | g0 :: _ =>
    let gnids := G.map (fun m => m.nid)
    let others := bnodes.filter (fun m => !gnids.contains m.nid)
    let st0 : MergeSt := ⟨[], [], [], [], 0, [], [], fresh0⟩
    let stF := G.foldl (mergeNode1 isConstV others rets) st0
    let groupNode : FNode := ⟨groupNid, gk, stF.groupIns, stF.groupOuts.map (fun p => p.2)⟩
    let subst := fun v => ((stF.groupOuts.lookup v).getD v)
    let bnodes1 := bnodes.map (fun m =>
      if gnids.contains m.nid then m else { m with ins := m.ins.map subst })
    let rets1 := rets.map subst
    let bnodes2 := insertBeforeNid groupNode g0.nid bnodes1
    match destroyAll rets1 bnodes2 gnids.reverse with
    | none => none
    | some bfinal =>
      some { blockNodes := bfinal, rets := rets1, groupNode := groupNode,
             childInputs := stF.childInputs, childNodes := stF.childNodes,
             childOutputs := stF.childOutputs, st := stF,
             destroyed := gnids.reverse }

/-- Translation of `merge_differentiable_groups` on the flat block:
iterate the live vertices in ordinal order; an eligible vertex whose group
reaches the size threshold has its `rdata` reversed (back into topological
order) and extracted by `mergeNodes`; the block, the returns and the fresh
handles are threaded through, and the created group nodes are collected.
`none` propagates a `mergeNodes` failure. -/
def merge_differentiable_groups (isConstV : Nat → Bool) (diff : FNode → Bool)
    (gk : OpKind) (sizeThreshold : Nat) :
    List (Option DVert) → List FNode → List Nat → Nat → Nat →
    Option (List FNode × List Nat × List FNode)
  | [], bnodes, rets, _, _ => some (bnodes, rets, [])
  | none :: vs, bnodes, rets, fn, fv =>
    merge_differentiable_groups isConstV diff gk sizeThreshold vs bnodes rets fn fv
  | some v :: vs, bnodes, rets, fn, fv =>
    if ¬ shouldConsiderForMerge diff v.rdata then
      merge_differentiable_groups isConstV diff gk sizeThreshold vs bnodes rets fn fv
    else if v.rdata.length < sizeThreshold then
      merge_differentiable_groups isConstV diff gk sizeThreshold vs bnodes rets fn fv
    else
      match mergeNodes isConstV gk bnodes rets v.rdata.reverse fn fv with
      | none => none
      | some res =>
        match merge_differentiable_groups isConstV diff gk sizeThreshold vs
            res.blockNodes res.rets (fn + 1) (res.st.groupFresh) with
        | none => none
        | some r => some (r.1, r.2.1, res.groupNode :: r.2.2)

/-- Translation of `CreateAutodiffSubgraphsPK` restricted to a flat
(root-only) block, on which the recursion into nested sub-blocks is
vacuous: build the dependency graph, run the contraction-merge loop,
reorder the block to the DAG's order, and extract the differentiable
groups.  `contract` abstracts `DynamicDAG::contractEdge` (missing header)
and `diff` abstracts `isDifferentiable` (different translation unit); `gk`
is the group-node kind (`prim::DifferentiableGraph`).  Returns the
rewritten graph and the list of created group nodes. -/
def CreateAutodiffSubgraphsPK (contract : DDag → Nat → Nat → Option DDag)
    (diff : FNode → Bool) (isConstV : Nat → Bool) (gk : OpKind)
    (sizeThreshold : Nat) (g : FGraph) : Option (FGraph × List FNode) :=
  let dag := make_dependency_graph g
  match find_differentiable_groups contract diff dag with
  | none => none
  | some r =>
    let nodes1 := reorder_according_to_dag r.1
    match merge_differentiable_groups isConstV diff gk sizeThreshold r.1.verts
        nodes1 g.rets g.freshN g.freshV with
    | none => none
    | some res =>
      some ({ g with nodes := res.1, rets := res.2.1 }, res.2.2)

/-- Example dependency graph for the merge-loop theorems: vertex 0 holds an
eligible single-node producer with one out-edge, vertex 1 an already-merged
two-node consumer group whose single in-edge is vertex 0. -/
def exDag3 : DDag :=
  ⟨[some ⟨0, [⟨1, OpKind.atenK "add", [0, 1], [2]⟩], [], 1⟩,
    some ⟨1, [⟨3, OpKind.atenK "relu", [3], [4]⟩, ⟨2, OpKind.atenK "mul", [2, 1], [3]⟩],
      [0], 0⟩]⟩

/-- Example `contractEdge` behaviour for the witnesses: absorb the
producer's nodes into the consumer vertex and blank the producer's
ordinal. -/
def exContract3 : DDag → Nat → Nat → Option DDag := fun d p c =>
  match DDag.vertAt d p, DDag.vertAt d c with
  | some pv, some cv =>
    some ⟨d.verts.map (fun ov =>
      match ov with
      | none => none
      | some v =>
        if v.ord = p then none
        else if v.ord = c then
          some { v with rdata := cv.rdata ++ pv.rdata, inEdges := pv.inEdges }
        else some v)⟩
  | _, _ => none

/-- Whether value `o` has a use outside the merged group on the flat
block: an occurrence among a non-group node's inputs or among the block's
returns (`old_output->uses()` filtered by `group_set`). -/
def hasExternalUse (others : List FNode) (rets : List Nat) (o : Nat) : Bool :=
  others.any (fun m => m.ins.contains o) || rets.contains o

/-- Values consumed by some node of `L`. -/
def consumedB (L : List FNode) (v : Nat) : Bool :=
  L.any (fun m => m.ins.contains v)

/-- Values produced by some node of `L`. -/
def prodInB (L : List FNode) (v : Nat) : Bool :=
  L.any (fun m => m.outs.contains v)

/-- Invariant of the `mergeNodes` cloning loop, relating the running
`MergeSt` to the values consumed and produced by the already-cloned
prefix of the group (`consumed`, `produced`), with `prodG` the values
produced anywhere in the group and `fresh0` the first fresh outer value
handle: the group inputs are exactly the consumed group-external
non-constants (with one child input each), the value map covers exactly
the produced values and the consumed group-external values (constants
inlined as child `prim::Constant` nodes), and the group outputs are
exactly the produced values with an external use (with one registered
child output each, and a fresh outer value ≥ `fresh0`). -/
def MInv (others : List FNode) (rets : List Nat) (isConstV : Nat → Bool)
    (prodG : Nat → Bool) (fresh0 : Nat) (consumed produced : Nat → Bool)
    (st : MergeSt) : Prop :=
  (∀ v, v ∈ st.groupIns ↔ consumed v = true ∧ prodG v = false ∧ isConstV v = false) ∧
  (∀ v, (st.valueMap.lookup v).isSome = true ↔
    produced v = true ∨ (consumed v = true ∧ prodG v = false)) ∧
  st.childInputs.length = st.groupIns.length ∧
  (∀ v, consumed v = true → prodG v = false → isConstV v = true →
    ∃ c, c ∈ st.childNodes ∧ c.kind = OpKind.constantK ∧
      st.valueMap.lookup v = some c.out0) ∧
  (∀ o, o ∈ st.groupOuts.map Prod.fst ↔
    produced o = true ∧ hasExternalUse others rets o = true) ∧
  st.childOutputs.length = st.groupOuts.length ∧
  (∀ p ∈ st.groupOuts, fresh0 ≤ p.2) ∧
  fresh0 ≤ st.groupFresh

theorem lookup_setAssoc_self {α : Type} (k : Nat) (v : α) :
    ∀ (l : List (Nat × α)), (setAssoc k v l).lookup k = some v := by
  intro l
  induction l with
  | nil => simp [setAssoc, List.lookup]
  | cons p rest ih =>
    obtain ⟨k', v'⟩ := p
    by_cases h : k' = k
    · simp [setAssoc, h, List.lookup]
    · have hb : (k == k') = false := by simp [Ne.symm h]
      simp [setAssoc, h, List.lookup, hb, ih]

theorem lookup_setAssoc_ne {α : Type} (k k' : Nat) (v : α) (hne : k' ≠ k) :
    ∀ (l : List (Nat × α)), (setAssoc k v l).lookup k' = l.lookup k' := by
  intro l
  have hb : (k' == k) = false := by simp [hne]
  induction l with
  | nil => simp [setAssoc, List.lookup, hb]
  | cons p rest ih =>
    obtain ⟨k₀, v₀⟩ := p
    by_cases h : k₀ = k
    · subst h
      simp [setAssoc, List.lookup, hb, ih]
    · by_cases h2 : k' = k₀
      · have hb2 : (k' == k₀) = true := by simp [h2]
        simp [setAssoc, h, List.lookup, hb2]
      · have hb2 : (k' == k₀) = false := by simp [h2]
        simp [setAssoc, h, List.lookup, hb2, ih]

theorem foldl_pickLast_some {p : Nat → Bool} :
    ∀ (l : List Nat) (a : Option Nat) (b : Nat),
      l.foldl (fun acc x => if p x then some x else acc) a = some b →
      a = some b ∨ p b = true := by
  intro l
  induction l with
  | nil => intro a b h; exact Or.inl h
  | cons x xs ih =>
    intro a b h
    rcases ih _ _ h with h' | h'
    · by_cases hp : p x = true
      · simp only [hp, if_true] at h'
        right
        cases h'
        exact hp
      · simp only [hp, if_false, Bool.false_eq_true] at h'
        exact Or.inl h'
    · exact Or.inr h'

theorem findIdx_none_aux {α : Type} {p : α → Bool} :
    ∀ (l : List α) (s : Nat), (∀ y ∈ l, p y = false) → List.findIdx? p l s = none := by
  intro l
  induction l with
  | nil => intro s _; rfl
  | cons x xs ih =>
    intro s h
    simp only [List.findIdx?, h x (List.mem_cons_self x xs)]
    exact ih (s + 1) fun y hy => h y (List.mem_cons_of_mem x hy)

theorem findIdx_none_of_all {α : Type} {p : α → Bool} {l : List α}
    (h : ∀ y ∈ l, p y = false) : l.findIdx? p = none :=
  findIdx_none_aux l 0 h

theorem findIdx_append_cons_aux {α : Type} {p : α → Bool} :
    ∀ (l1 : List α) (x : α) (l2 : List α) (s : Nat),
      (∀ y ∈ l1, p y = false) → p x = true →
      List.findIdx? p (l1 ++ x :: l2) s = some (s + l1.length) := by
  intro l1
  induction l1 with
  | nil =>
    intro x l2 s _ hx
    simp [List.findIdx?, hx]
  | cons y ys ih =>
    intro x l2 s h hx
    rw [List.cons_append]
    simp only [List.findIdx?, h y (List.mem_cons_self y ys)]
    rw [ih x l2 (s + 1) (fun z hz => h z (List.mem_cons_of_mem y hz)) hx]
    simp
    omega

theorem findIdx_append_cons {α : Type} {p : α → Bool} (l1 : List α) (x : α) (l2 : List α)
    (h : ∀ y ∈ l1, p y = false) (hx : p x = true) :
    (l1 ++ x :: l2).findIdx? p = some l1.length := by
  have := findIdx_append_cons_aux l1 x l2 0 h hx
  simpa using this

theorem get_append_cons {α : Type} :
    ∀ (l1 : List α) (x : α) (l2 : List α), (l1 ++ x :: l2).get? l1.length = some x := by
  intro l1
  induction l1 with
  | nil => intro x l2; rfl
  | cons y ys ih => intro x l2; simpa using ih x l2

theorem take_append_cons {α : Type} :
    ∀ (l1 : List α) (x : α) (l2 : List α), (l1 ++ x :: l2).take l1.length = l1 := by
  intro l1
  induction l1 with
  | nil => intro x l2; rfl
  | cons y ys ih => intro x l2; simpa using ih x l2

theorem drop_append_cons {α : Type} :
    ∀ (l1 : List α) (x : α) (l2 : List α), (l1 ++ x :: l2).drop (l1.length + 1) = l2 := by
  intro l1
  induction l1 with
  | nil => intro x l2; rfl
  | cons y ys ih => intro x l2; simpa using ih x l2

theorem not_mem_set_indexOf_of_count_one {w i : Nat} (hw : w ≠ i) :
    ∀ {l : List Nat}, l.count i = 1 → i ∉ l.set (l.indexOf i) w := by
  intro l
  induction l with
  | nil => intro h; simp at h
  | cons x xs ih =>
    intro h
    by_cases hx : x = i
    · subst hx
      have hc : xs.count x = 0 := by
        have := h
        rw [List.count_cons_self] at this
        omega
      have hnm : x ∉ xs := by
        intro hmem
        have := List.count_pos_iff_mem.mpr hmem
        omega
      simp [List.indexOf_cons_self, List.set]
      exact ⟨fun he => hw he.symm, hnm⟩
    · have hidx : (x :: xs).indexOf i = xs.indexOf i + 1 := by
        simp [List.indexOf_cons_ne _ hx]
      have hc : xs.count i = 1 := by
        rw [List.count_cons_of_ne (fun he => hx he.symm)] at h
        exact h
      rw [hidx]
      simp [List.set]
      exact ⟨fun he => hx he.symm, ih hc⟩

theorem lookup_append_left {α : Type} {k : Nat} {v : α} :
    ∀ {l1 l2 : List (Nat × α)}, l1.lookup k = some v → (l1 ++ l2).lookup k = some v := by
  intro l1 l2
  induction l1 with
  | nil => intro h; simp [List.lookup] at h
  | cons p rest ih =>
    intro h
    obtain ⟨k0, v0⟩ := p
    by_cases hk : k = k0
    · subst hk
      simp only [List.cons_append, List.lookup, beq_self_eq_true] at h ⊢
      exact h
    · have hb : (k == k0) = false := by simp [hk]
      simp only [List.cons_append, List.lookup, hb] at h ⊢
      exact ih h

theorem lookup_append_right {α : Type} {k : Nat} :
    ∀ {l1 l2 : List (Nat × α)}, l1.lookup k = none → (l1 ++ l2).lookup k = l2.lookup k := by
  intro l1 l2
  induction l1 with
  | nil => intro _; rfl
  | cons p rest ih =>
    intro h
    obtain ⟨k0, v0⟩ := p
    by_cases hk : k = k0
    · subst hk
      simp only [List.lookup, beq_self_eq_true] at h
      exact absurd h (by simp)
    · have hb : (k == k0) = false := by simp [hk]
      simp only [List.cons_append, List.lookup, hb] at h ⊢
      exact ih h

theorem lookup_none_of_all {α : Type} {k : Nat} :
    ∀ {l : List (Nat × α)}, (∀ p ∈ l, p.1 ≠ k) → l.lookup k = none := by
  intro l
  induction l with
  | nil => intro _; rfl
  | cons p rest ih =>
    intro h
    obtain ⟨k0, v0⟩ := p
    have hb : (k == k0) = false := by
      simp only [beq_eq_false_iff_ne, ne_eq]
      exact fun he => (h (k0, v0) (List.mem_cons_self _ _)) he.symm
    simp only [List.lookup, hb]
    exact ih fun q hq => h q (List.mem_cons_of_mem _ hq)

theorem setAssoc_append_new {α : Type} {k : Nat} {v : α} :
    ∀ {l : List (Nat × α)}, (∀ p ∈ l, p.1 ≠ k) → setAssoc k v l = l ++ [(k, v)] := by
  intro l
  induction l with
  | nil => intro _; rfl
  | cons p rest ih =>
    intro h
    obtain ⟨k0, v0⟩ := p
    have hk : k0 ≠ k := h (k0, v0) (List.mem_cons_self _ _)
    simp only [setAssoc, hk, if_false, List.cons_append, List.cons.injEq, true_and]
    exact ih fun q hq => h q (List.mem_cons_of_mem _ hq)

theorem aliasComp_asymm {g : GraphSt} {a b : Nat} (h : aliasComp g a b = true) :
    aliasComp g b a = false := by
  simp only [aliasComp] at h ⊢
  by_cases hn : g.valNode a = g.valNode b
  · simp [hn] at h
  · have hn' : ¬ g.valNode b = g.valNode a := fun he => hn he.symm
    rw [if_neg hn] at h
    rw [if_neg hn']
    rcases Bool.eq_false_or_eq_true (isBefore g (g.valNode a) (g.valNode b)) with hab | hab <;>
      rcases Bool.eq_false_or_eq_true (isBefore g (g.valNode b) (g.valNode a)) with hba | hba <;>
      rw [hab, hba] at h <;> rw [hab, hba] <;> simp_all <;> omega

theorem insertAlias_append {g : GraphSt} {v : Nat} :
    ∀ {l : List Nat}, (∀ x ∈ l, aliasComp g x v = true) → insertAlias g v l = l ++ [v] := by
  intro l
  induction l with
  | nil => intro _; rfl
  | cons x xs ih =>
    intro h
    have hx : aliasComp g x v = true := h x (List.mem_cons_self _ _)
    rw [insertAlias, if_neg (by rw [aliasComp_asymm hx]; simp), if_pos hx]
    rw [ih fun y hy => h y (List.mem_cons_of_mem _ hy)]
    rfl

theorem map_subst_id {o w : Nat} :
    ∀ {l : List (Nat × Nat)}, (∀ p ∈ l, p.2 ≠ o) →
      l.map (fun kv => (kv.1, if kv.2 = o then w else kv.2)) = l := by
  intro l
  induction l with
  | nil => intro _; rfl
  | cons p rest ih =>
    intro h
    obtain ⟨k0, v0⟩ := p
    have hv : v0 ≠ o := h (k0, v0) (List.mem_cons_self _ _)
    simp [hv]
    exact ih fun q hq => h q (List.mem_cons_of_mem _ hq)

theorem addSubst_no_forward {sub : List (Nat × Nat)} {o w : Nat}
    (h : ∀ p ∈ sub, p.2 ≠ o) : addSubst sub o w = sub ++ [(o, w)] := by
  unfold addSubst
  rw [map_subst_id h]

theorem mapAll_mem_rel {α β : Type} {f : α → Option β} :
    ∀ {l : List α} {l' : List β}, mapAll f l = some l' →
      ∀ y ∈ l', ∃ x ∈ l, f x = some y := by
  intro l
  induction l with
  | nil =>
    intro l' h y hy
    simp [mapAll] at h
    subst h
    simp at hy
  | cons x xs ih =>
    intro l' h y hy
    rw [mapAll] at h
    rcases hfx : f x with _ | z
    · rw [hfx] at h; exact absurd h (by simp)
    rcases hrest : mapAll f xs with _ | zs
    · rw [hfx, hrest] at h; exact absurd h (by simp)
    rw [hfx, hrest] at h
    simp at h
    subst h
    rcases List.mem_cons.mp hy with hz | hz
    · exact ⟨x, List.mem_cons_self _ _, hz ▸ hfx⟩
    · rcases ih hrest y hz with ⟨x', hx', hf'⟩
      exact ⟨x', List.mem_cons_of_mem _ hx', hf'⟩

theorem mapAll_congr_map {α β γ : Type} {f : β → Option γ} {g : α → β} {h : α → γ} :
    ∀ (l : List α), (∀ x ∈ l, f (g x) = some (h x)) →
      mapAll f (l.map g) = some (l.map h) := by
  intro l
  induction l with
  | nil => intro _; rfl
  | cons x xs ih =>
    intro hall
    simp only [List.map_cons, mapAll, hall x (List.mem_cons_self _ _),
      ih fun y hy => hall y (List.mem_cons_of_mem _ hy)]

theorem convertStep_no_inplace (st : ConvSt) (n0 : FNode) :
    ∀ m ∈ (convertStep st n0).outNodes,
      m ∈ st.outNodes ∨ inplaceOpVariant m.kind = false := by
  unfold convertStep
  by_cases h1 : n0.kind = OpKind.ifK ∨ n0.kind = OpKind.loopK
  · intro m hm
    simp only [h1, if_true] at hm
    simp at hm
    rcases hm with hm | hm
    · exact Or.inl hm
    · subst hm
      right
      rcases h1 with h | h <;> simp [h, inplaceOpVariant, isAten]
  · simp only [h1, if_false]
    by_cases h2 : n0.kind = OpKind.copyK
    · intro m hm
      simp only [h2, if_true] at hm
      simp [PrepareCopyForONNX, PrepareIndexPutForONNX] at hm
      rcases hm with hm | hm | hm | hm
      · exact Or.inl hm
      all_goals subst hm
      all_goals right
      all_goals rfl
    · simp only [h2, if_false]
      by_cases h3 : n0.kind = OpKind.indexPutK ∨ n0.kind = OpKind.indexPutInplaceK
      · intro m hm
        simp only [h3, if_true] at hm
        simp [PrepareIndexPutForONNX] at hm
        rcases hm with hm | hm
        · exact Or.inl hm
        · subst hm
          right
          rfl
      · simp only [h3, if_false]
        by_cases h4 : n0.kind = OpKind.insertK ∨ n0.kind = OpKind.appendK
        · intro m hm
          simp only [h4, if_true] at hm
          unfold PrepareListAppendAndInsertForONNX at hm
          have hkind : inplaceOpVariant n0.kind = false := by
            rcases h4 with h | h <;> rw [h] <;> rfl
          by_cases ho2 : n0.outs = []
          · simp only [ho2, if_true] at hm
            simp at hm
            rcases hm with hm | hm
            · exact Or.inl hm
            · subst hm
              exact Or.inr hkind
          · simp only [ho2, if_false] at hm
            simp at hm
            rcases hm with hm | hm
            · exact Or.inl hm
            · subst hm
              exact Or.inr hkind
        · simp only [h4, if_false]
          by_cases h5 : inplaceOpVariant n0.kind = true
          · have hAten : isAten n0.kind = true :=
              (Bool.and_eq_true _ _ |>.mp (Bool.and_eq_true _ _ |>.mp h5).1).1
            have hMark : endsWithMarker (kindName n0.kind) = true :=
              (Bool.and_eq_true _ _ |>.mp (Bool.and_eq_true _ _ |>.mp h5).1).2
            have hMark2 : endsWithMarker (stripMarker (kindName n0.kind)) = false := by
              have h := (Bool.and_eq_true _ _ |>.mp h5).2
              simpa using h
            have hclean : inplaceOpVariant (strippedKind n0.kind) = false := by
              have hkn : ∀ s, kindName (OpKind.atenK s) = s := fun _ => rfl
              simp [inplaceOpVariant, strippedKind, isAten, hkn, hMark2]
            simp only [h5, if_true]
            intro m hm
            unfold PrepareInplaceOpsInBlocksForONNX at hm
            simp only [hAten, hMark, Bool.not_true, if_false, Bool.false_eq_true] at hm
            by_cases hsel : producerKind st.outNodes
                (FNode.in0 { n0 with ins := n0.ins.map (substV st.sub) }) = some OpKind.selectK ∨
                producerKind st.outNodes
                  (FNode.in0 { n0 with ins := n0.ins.map (substV st.sub) }) = some OpKind.sliceK
            · simp only [hsel, if_true] at hm
              simp [PrepareCopyForONNX, PrepareIndexPutForONNX] at hm
              rcases hm with hm | hm | hm | hm | hm | hm
              · exact Or.inl hm
              all_goals subst hm
              all_goals right
              · rfl
              · exact hclean
              all_goals rfl
            · simp only [hsel, if_false] at hm
              simp at hm
              rcases hm with hm | hm
              · exact Or.inl hm
              · subst hm
                exact Or.inr hclean
          · simp only [h5, if_false]
            have h5' : inplaceOpVariant n0.kind = false := by
              rcases Bool.eq_false_or_eq_true (inplaceOpVariant n0.kind) with h | h
              · exact absurd h h5
              · exact h
            clear h5
            by_cases h6 : n0.kind = OpKind.popK
            · intro m hm
              simp only [h6, if_true] at hm
              simp [PrepareListPopForONNX] at hm
              rcases hm with hm | hm | hm
              · exact Or.inl hm
              all_goals subst hm
              · exact Or.inr (by rfl)
              · exact Or.inr (by rfl)
            · simp only [h6, if_false]
              by_cases h7 : n0.kind = OpKind.deleteK
              · intro m hm
                simp only [h7, if_true] at hm
                simp [PrepareListDeleteForONNX] at hm
                rcases hm with hm | hm
                · exact Or.inl hm
                · subst hm
                  exact Or.inr (by rfl)
              · simp only [h7, if_false]
                by_cases h8 : n0.kind = OpKind.setItemK
                · intro m hm
                  simp only [h8, if_true] at hm
                  simp [PrepareListSetItemForONNX] at hm
                  rcases hm with hm | hm
                  · exact Or.inl hm
                  · subst hm
                    exact Or.inr (by rfl)
                · intro m hm
                  simp only [h8, if_false] at hm
                  simp at hm
                  rcases hm with hm | hm
                  · exact Or.inl hm
                  · subst hm
                    exact Or.inr h5'

theorem fold_convertStep_no_inplace :
    ∀ (l : List FNode) (st : ConvSt),
      (∀ m ∈ st.outNodes, inplaceOpVariant m.kind = false) →
      ∀ m ∈ (l.foldl convertStep st).outNodes, inplaceOpVariant m.kind = false := by
  intro l
  induction l with
  | nil => intro st h; exact h
  | cons x xs ih =>
    intro st h
    apply ih
    intro m hm
    rcases convertStep_no_inplace st x m hm with h' | h'
    · exact h m h'
    · exact h'

theorem pipeline_no_inplace (G G'' : FGraph)
    (h : convertMutationPipeline G = some G'') :
    ∀ m ∈ G''.nodes, inplaceOpVariant m.kind = false := by
  intro m hm
  unfold convertMutationPipeline at h
  rcases hbt : buildTracker (convertInplaceOpsAndTrackAlias G).1.toSt
      (convertInplaceOpsAndTrackAlias G).2 with _ | vt
  · simp only [hbt] at h
    cases h
  simp only [hbt] at h
  unfold correctAliasReferencesF at h
  rcases hmn : mapAll
      (fun n => (mapAll
          (fun v => findAliasForValueAtNode (convertInplaceOpsAndTrackAlias G).1.toSt vt v n.nid)
          n.ins).map (fun ins' => { n with ins := ins' }))
      (convertInplaceOpsAndTrackAlias G).1.nodes with _ | nodes'
  · simp only [hmn] at h
    cases h
  simp only [hmn] at h
  rcases hmr : mapAll
      (fun v => findAliasForValueAtNode (convertInplaceOpsAndTrackAlias G).1.toSt vt v
        (convertInplaceOpsAndTrackAlias G).1.freshN)
      (convertInplaceOpsAndTrackAlias G).1.rets with _ | rets'
  · simp only [hmr] at h
    cases h
  simp only [hmr, Option.some.injEq] at h
  subst h
  simp only at hm
  rcases mapAll_mem_rel hmn m hm with ⟨x, hx, hfx⟩
  rcases hmi : mapAll
      (fun v => findAliasForValueAtNode (convertInplaceOpsAndTrackAlias G).1.toSt vt v x.nid)
      x.ins with _ | ins'
  · rw [hmi] at hfx
    exact absurd hfx (by simp)
  rw [hmi] at hfx
  simp only [Option.map_some', Option.some.injEq] at hfx
  have hkind : m.kind = x.kind := by rw [← hfx]
  have hconv : ∀ y ∈ (convertInplaceOpsAndTrackAlias G).1.nodes,
      inplaceOpVariant y.kind = false := by
    intro y hy
    unfold convertInplaceOpsAndTrackAlias at hy
    simp only at hy
    exact fold_convertStep_no_inplace G.nodes ⟨[], [], [], G.freshV, G.freshN⟩
      (by intro z hz; simp at hz) y hy
  rw [hkind]
  exact hconv x hx

theorem find_none_of_all {α : Type} {p : α → Bool} :
    ∀ {l : List α}, (∀ y ∈ l, p y = false) → l.find? p = none := by
  intro l
  induction l with
  | nil => intro _; rfl
  | cons x xs ih =>
    intro h
    rw [List.find?_cons_of_neg _ (by simp [h x (List.mem_cons_self _ _)])]
    exact ih fun y hy => h y (List.mem_cons_of_mem _ hy)

theorem find_append_left {α : Type} {p : α → Bool} {v : α} :
    ∀ {l1 l2 : List α}, l1.find? p = some v → (l1 ++ l2).find? p = some v := by
  intro l1 l2
  induction l1 with
  | nil => intro h; simp [List.find?] at h
  | cons x xs ih =>
    intro h
    by_cases hx : p x = true
    · rw [List.find?_cons_of_pos _ hx] at h
      rw [List.cons_append, List.find?_cons_of_pos _ hx]
      exact h
    · rw [List.find?_cons_of_neg _ hx] at h
      rw [List.cons_append, List.find?_cons_of_neg _ hx]
      exact ih h

theorem find_append_right {α : Type} {p : α → Bool} :
    ∀ {l1 l2 : List α}, l1.find? p = none → (l1 ++ l2).find? p = l2.find? p := by
  intro l1 l2
  induction l1 with
  | nil => intro _; rfl
  | cons x xs ih =>
    intro h
    by_cases hx : p x = true
    · rw [List.find?_cons_of_pos _ hx] at h
      exact absurd h (by simp)
    · rw [List.find?_cons_of_neg _ hx] at h
      rw [List.cons_append, List.find?_cons_of_neg _ hx]
      exact ih h

theorem find_map_range {α : Type} (p : α → Bool) (f : Nat → α) :
    ∀ (k j : Nat), j < k → (∀ i, i < j → p (f i) = false) → p (f j) = true →
      ((List.range k).map f).find? p = some (f j) := by
  intro k
  induction k with
  | zero => intro j hj; omega
  | succ k ih =>
    intro j hj hfalse htrue
    rw [List.range_succ, List.map_append]
    by_cases hjk : j < k
    · exact find_append_left (ih j hjk hfalse htrue)
    · have hjq : j = k := by omega
      subst hjq
      rw [find_append_right (find_none_of_all ?_)]
      · simp [List.find?, htrue]
      · intro y hy
        rcases List.mem_map.mp hy with ⟨i, hi, hfy⟩
        subst hfy
        exact hfalse i (List.mem_range.mp hi)

theorem find_map_range_none {α : Type} (p : α → Bool) (f : Nat → α)
    (k : Nat) (hall : ∀ i, i < k → p (f i) = false) :
    ((List.range k).map f).find? p = none := by
  apply find_none_of_all
  intro y hy
  rcases List.mem_map.mp hy with ⟨i, hi, hfy⟩
  subst hfy
  exact hall i (List.mem_range.mp hi)

theorem findIdx_some_aux {α : Type} {p : α → Bool} :
    ∀ (l1 l2 : List α) (s v : Nat), List.findIdx? p l1 s = some v →
      List.findIdx? p (l1 ++ l2) s = some v := by
  intro l1
  induction l1 with
  | nil => intro l2 s v h; exact absurd h (by simp [List.findIdx?])
  | cons x xs ih =>
    intro l2 s v h
    by_cases hx : p x = true
    · simp only [List.findIdx?, hx, if_true] at h ⊢
      exact h
    · have hx' : p x = false := by
        rcases Bool.eq_false_or_eq_true (p x) with h' | h'
        · exact absurd h' hx
        · exact h'
      simp only [List.findIdx?, hx', Bool.false_eq_true, if_false, List.cons_append] at h ⊢
      exact ih l2 (s + 1) v h

theorem findIdx_map_range {α : Type} (p : α → Bool) (f : Nat → α) :
    ∀ (k j : Nat), j < k → (∀ i, i < j → p (f i) = false) → p (f j) = true →
      ((List.range k).map f).findIdx? p = some j := by
  intro k
  induction k with
  | zero => intro j hj; omega
  | succ k ih =>
    intro j hj hfalse htrue
    rw [List.range_succ, List.map_append]
    by_cases hjk : j < k
    · exact findIdx_some_aux _ _ 0 j (ih j hjk hfalse htrue)
    · have hjq : j = k := by omega
      subst hjq
      have := findIdx_append_cons ((List.range j).map f) (f j) [] ?_ htrue
      · simpa using this
      · intro y hy
        rcases List.mem_map.mp hy with ⟨i, hi, hfy⟩
        subst hfy
        exact hfalse i (List.mem_range.mp hi)

theorem findIdx_map_range_none {α : Type} (p : α → Bool) (f : Nat → α)
    (k : Nat) (hall : ∀ i, i < k → p (f i) = false) :
    ((List.range k).map f).findIdx? p = none := by
  apply findIdx_none_of_all
  intro y hy
  rcases List.mem_map.mp hy with ⟨i, hi, hfy⟩
  subst hfy
  exact hall i (List.mem_range.mp hi)

theorem lookup_map_range {α : Type} (κ : Nat → Nat) (vf : Nat → α)
    (hinj : ∀ a b, κ a = κ b → a = b) :
    ∀ (k j : Nat), j < k → ((List.range k).map (fun i => (κ i, vf i))).lookup (κ j)
      = some (vf j) := by
  intro k
  induction k with
  | zero => intro j hj; omega
  | succ k ih =>
    intro j hj
    rw [List.range_succ, List.map_append]
    by_cases hjk : j < k
    · exact lookup_append_left (ih j hjk)
    · have hjq : j = k := by omega
      subst hjq
      rw [lookup_append_right (lookup_none_of_all ?_)]
      · simp [List.lookup]
      · intro q hq
        rcases List.mem_map.mp hq with ⟨i, hi, hfy⟩
        subst hfy
        intro he
        have := hinj i j he
        subst this
        exact absurd (List.mem_range.mp hi) (by omega)

theorem lookup_map_range_none {α : Type} (κ : Nat → Nat) (vf : Nat → α)
    (k v : Nat) (hall : ∀ i, i < k → v ≠ κ i) :
    ((List.range k).map (fun i => (κ i, vf i))).lookup v = none := by
  apply lookup_none_of_all
  intro q hq
  rcases List.mem_map.mp hq with ⟨i, hi, hfy⟩
  subst hfy
  exact fun he => hall i (List.mem_range.mp hi) he.symm

theorem conv_chain_fold (n : Nat) (names : Nat → String) (style : Nat → Bool)
    (hst0 : style 0 = false)
    (hname : ∀ i, i < n → endsWithMarker (names i) = true)
    (hname2 : ∀ i, i < n → endsWithMarker (stripMarker (names i)) = false) :
    ∀ k, k ≤ n →
      ((List.range k).map (chainNode names style)).foldl convertStep
          ⟨[], [], [], 2 * n + 2, 2 * n + 2⟩ =
        ⟨(List.range k).map (chainPureNode names style (2 * n + 2)),
          (List.range k).map (fun i => (2 * i + 2, 2 * n + 2 + i)),
          (List.range k).map
            (fun i => ((if style i then 2 * n + 2 + i - 1 else 0), 2 * n + 2 + i)),
          2 * n + 2 + k, 2 * n + 2 + k⟩ := by
  intro k
  induction k with
  | zero => intro _; simp
  | succ k ih =>
    intro hk1
    have hk : k ≤ n := by omega
    have hkn : k < n := by omega
    rw [List.range_succ, List.map_append, List.foldl_append, ih hk]
    have hsub_odd : substV ((List.range k).map (fun i => (2 * i + 2, 2 * n + 2 + i)))
        (2 * k + 1) = 2 * k + 1 := by
      unfold substV
      rw [lookup_map_range_none (fun i => 2 * i + 2) (fun i => 2 * n + 2 + i) k (2 * k + 1)
        (fun i hi => by show 2 * k + 1 ≠ 2 * i + 2; omega)]
      rfl
    have hsub0 : substV ((List.range k).map (fun i => (2 * i + 2, 2 * n + 2 + i))) 0 = 0 := by
      unfold substV
      rw [lookup_map_range_none (fun i => 2 * i + 2) (fun i => 2 * n + 2 + i) k 0
        (fun i hi => by show 0 ≠ 2 * i + 2; omega)]
      rfl
    have hinp : inplaceOpVariant (OpKind.atenK (names k)) = true := by
      simp [inplaceOpVariant, isAten, kindName, hname k hkn, hname2 k hkn]
    have hmark : endsWithMarker (kindName (OpKind.atenK (names k))) = true := hname k hkn
    have hins : (chainNode names style k).ins.map
        (substV ((List.range k).map (fun i => (2 * i + 2, 2 * n + 2 + i))))
        = [if style k then 2 * n + 2 + k - 1 else 0, 2 * k + 1] := by
      unfold chainNode
      by_cases hstk : style k = true
      · have hk0 : k ≠ 0 := by
          intro h
          rw [h, hst0] at hstk
          cases hstk
        have h2k : 2 * k = 2 * (k - 1) + 2 := by omega
        simp only [hstk, if_true, List.map_cons, List.map_nil, hsub_odd]
        rw [h2k]
        unfold substV
        rw [lookup_map_range (fun i => 2 * i + 2) (fun i => 2 * n + 2 + i)
          (fun a b h => by simp at h; omega) k (k - 1) (by omega)]
        simp only [Option.getD_some]
        have he : 2 * n + 2 + (k - 1) = 2 * n + 2 + k - 1 := by omega
        rw [he]
      · have hstk' : style k = false := by
          rcases Bool.eq_false_or_eq_true (style k) with h | h
          · exact absurd h hstk
          · exact h
        simp only [hstk', Bool.false_eq_true, if_false, List.map_cons, List.map_nil,
          hsub_odd, hsub0]
    have hprod : producerKind ((List.range k).map (chainPureNode names style (2 * n + 2)))
        (if style k then 2 * n + 2 + k - 1 else 0) = if style k
          then some (OpKind.atenK (stripMarker (names (k - 1)))) else none := by
      by_cases hstk : style k = true
      · have hk0 : k ≠ 0 := by
          intro h
          rw [h, hst0] at hstk
          cases hstk
        simp only [hstk, if_true]
        unfold producerKind
        rw [find_map_range (fun m => decide ((2 * n + 2 + k - 1) ∈ m.outs))
          (chainPureNode names style (2 * n + 2)) k (k - 1) (by omega) ?_ ?_]
        · rfl
        · intro i hi
          simp [chainPureNode]
          omega
        · simp [chainPureNode]
          omega
      · have hstk' : style k = false := by
          rcases Bool.eq_false_or_eq_true (style k) with h | h
          · exact absurd h hstk
          · exact h
        simp only [hstk', Bool.false_eq_true, if_false]
        unfold producerKind
        rw [find_map_range_none (fun m => decide ((0 : Nat) ∈ m.outs))
          (chainPureNode names style (2 * n + 2)) k ?_]
        · rfl
        · intro i hi
          simp [chainPureNode]
          omega
    have hsubnew : addReplaced ((List.range k).map (fun i => (2 * i + 2, 2 * n + 2 + i)))
        [(2 * k + 2, 2 * n + 2 + k)]
        = (List.range (k + 1)).map (fun i => (2 * i + 2, 2 * n + 2 + i)) := by
      unfold addReplaced
      rw [addSubst_no_forward ?_]
      · rw [List.range_succ, List.map_append]
        rfl
      · intro p hp
        rcases List.mem_map.mp hp with ⟨i, hi, hpe⟩
        subst hpe
        have := List.mem_range.mp hi
        simp
        omega
    rw [List.map_cons, List.map_nil, List.foldl_cons, List.foldl_nil]
    have hkind : (chainNode names style k).kind = OpKind.atenK (names k) := rfl
    have houts : (chainNode names style k).outs = [2 * k + 2] := rfl
    have hnid : (chainNode names style k).nid = k + 1 := rfl
    unfold convertStep
    simp only [hins, hkind, houts, hnid]
    simp only [hinp, if_true, reduceCtorEq, or_self, or_false, false_or, if_false,
      Bool.false_eq_true]
    simp only [FNode.in0, List.headD, hprod]
    have hselP : ¬((if style k then some (OpKind.atenK (stripMarker (names (k - 1)))) else none)
          = some OpKind.selectK ∨
        (if style k then some (OpKind.atenK (stripMarker (names (k - 1)))) else none)
          = some OpKind.sliceK) := by
      by_cases hstk : style k = true <;> simp [hstk]
    have hPR : PrepareInplaceOpsInBlocksForONNX
        ⟨k + 1, OpKind.atenK (names k),
          [if style k = true then 2 * n + 2 + k - 1 else 0, 2 * k + 1], [2 * k + 2]⟩
        (if style k then some (OpKind.atenK (stripMarker (names (k - 1)))) else none)
        (2 * n + 2 + k) (2 * n + 2 + k)
        = ⟨[⟨2 * n + 2 + k, OpKind.atenK (stripMarker (names k)),
            [if style k = true then 2 * n + 2 + k - 1 else 0, 2 * k + 1], [2 * n + 2 + k]⟩],
          [(2 * k + 2, 2 * n + 2 + k)],
          some ((if style k = true then 2 * n + 2 + k - 1 else 0), 2 * n + 2 + k),
          2 * n + 2 + k + 1, 2 * n + 2 + k + 1⟩ := by
      unfold PrepareInplaceOpsInBlocksForONNX
      simp [isAten, hmark, hname k hkn, hselP, strippedKind, kindName, FNode.in0, FNode.out0]
    rw [hPR]
    dsimp only
    rw [hsubnew]
    simp only [ConvSt.mk.injEq]
    refine ⟨?_, ?_, ?_, by omega, by omega⟩
    · rw [List.map_append]
      simp [chainPureNode]
    · rw [List.range_succ]
    · rw [List.map_append]
      simp

theorem subst_chain_zero (n : Nat) :
    substV ((List.range n).map (fun i => (2 * i + 2, 2 * n + 2 + i))) 0 = 0 := by
  unfold substV
  rw [lookup_map_range_none (fun i => 2 * i + 2) (fun i => 2 * n + 2 + i) n 0
    (fun i hi => by show 0 ≠ 2 * i + 2; omega)]
  rfl

theorem conv_chain (n : Nat) (names : Nat → String) (style : Nat → Bool)
    (hst0 : style 0 = false)
    (hname : ∀ i, i < n → endsWithMarker (names i) = true)
    (hname2 : ∀ i, i < n → endsWithMarker (stripMarker (names i)) = false) :
    convertInplaceOpsAndTrackAlias (chainGraph n names style) =
      (chainConvGraph n names style,
        (List.range n).map
          (fun i => ((if style i then 2 * n + 2 + i - 1 else 0), 2 * n + 2 + i))) := by
  simp only [convertInplaceOpsAndTrackAlias, chainGraph]
  rw [conv_chain_fold n names style hst0 hname hname2 n (le_refl n)]
  simp only [chainConvGraph, List.map_cons, List.map_nil, subst_chain_zero]

theorem isBefore_toSt (g : FGraph) (a b : Nat) :
    isBefore g.toSt a b = decide (g.toSt.nodePos a < g.toSt.nodePos b) := rfl

theorem chainConv_valNode (n : Nat) (names : Nat → String) (style : Nat → Bool)
    (j : Nat) (hj : j < n) :
    (chainConvGraph n names style).toSt.valNode (2 * n + 2 + j) = 2 * n + 2 + j := by
  simp only [chainConvGraph, FGraph.toSt]
  rw [find_map_range (fun m => decide ((2 * n + 2 + j) ∈ m.outs))
    (chainPureNode names style (2 * n + 2)) n j hj
    (fun i hi => by simp [chainPureNode]; omega)
    (by simp [chainPureNode])]
  rfl

theorem chainConv_valNode0 (n : Nat) (names : Nat → String) (style : Nat → Bool) :
    (chainConvGraph n names style).toSt.valNode 0 = 0 := by
  simp only [chainConvGraph, FGraph.toSt]
  rw [find_map_range_none (fun m => decide ((0 : Nat) ∈ m.outs))
    (chainPureNode names style (2 * n + 2)) n
    (fun i hi => by simp [chainPureNode]; omega)]

theorem chainConv_pos (n : Nat) (names : Nat → String) (style : Nat → Bool)
    (j : Nat) (hj : j ≤ n) :
    (chainConvGraph n names style).toSt.nodePos (2 * n + 2 + j) = j + 1 := by
  simp only [chainConvGraph, FGraph.toSt]
  by_cases hjn : j = n
  · subst hjn
    simp
  · have hjlt : j < n := by omega
    rw [if_neg (by omega)]
    rw [findIdx_map_range (fun m => decide (m.nid = 2 * n + 2 + j))
      (chainPureNode names style (2 * n + 2)) n j hjlt
      (fun i hi => by simp [chainPureNode]; omega)
      (by simp [chainPureNode])]

theorem chainConv_pos0 (n : Nat) (names : Nat → String) (style : Nat → Bool) :
    (chainConvGraph n names style).toSt.nodePos 0 = 0 := by
  simp only [chainConvGraph, FGraph.toSt]
  rw [if_neg (by omega)]
  rw [findIdx_map_range_none (fun m => decide (m.nid = 0))
    (chainPureNode names style (2 * n + 2)) n
    (fun i hi => by simp [chainPureNode])]

theorem chainConv_aliasComp0 (n : Nat) (names : Nat → String) (style : Nat → Bool)
    (j : Nat) (hj : j < n) :
    aliasComp (chainConvGraph n names style).toSt 0 (2 * n + 2 + j) = true := by
  simp only [aliasComp, chainConv_valNode0, chainConv_valNode n names style j hj]
  rw [if_neg (by omega)]
  rw [isBefore_toSt, isBefore_toSt]
  rw [chainConv_pos n names style j (by omega), chainConv_pos0]
  simp

theorem chainConv_aliasComp_lt (n : Nat) (names : Nat → String) (style : Nat → Bool)
    (i j : Nat) (hij : i < j) (hj : j < n) :
    aliasComp (chainConvGraph n names style).toSt (2 * n + 2 + i) (2 * n + 2 + j) = true := by
  simp only [aliasComp, chainConv_valNode n names style i (by omega),
    chainConv_valNode n names style j hj]
  rw [if_neg (by omega)]
  rw [isBefore_toSt, isBefore_toSt]
  rw [chainConv_pos n names style j (by omega), chainConv_pos n names style i (by omega)]
  have h1 : decide (i + 1 < j + 1) = true := by simp; omega
  have h2 : decide (j + 1 < i + 1) = false := by simp; omega
  rw [h1, h2]
  simp

theorem buildTracker_snoc (g : GraphSt) (l : List (Nat × Nat)) (p : Nat × Nat) :
    buildTracker g (l ++ [p]) =
      match buildTracker g l with
      | none => none
      | some vt => (registerSetValue g vt p.1 p.2 1).map Prod.snd := by
  unfold buildTracker
  rw [List.foldl_append]
  rfl

theorem chain_register_base (n : Nat) (names : Nat → String) (style : Nat → Bool)
    (hn : 0 < n) :
    registerSetValue (chainConvGraph n names style).toSt ⟨[], []⟩ 0 (2 * n + 2) 1
      = some ((chainConvGraph n names style).toSt,
          ⟨chainATV (2 * n + 2) 1, chainVSA (2 * n + 2) 1⟩) := by
  have ha : aliasComp (chainConvGraph n names style).toSt 0 (2 * n + 2) = true :=
    chainConv_aliasComp0 n names style 0 hn
  have ha' : aliasComp (chainConvGraph n names style).toSt (2 * n + 2) 0 = false :=
    aliasComp_asymm ha
  have hF : (2 * n + 2) ≠ 0 := by omega
  have hblock : ∀ m, (chainConvGraph n names style).toSt.nodeBlock m = [] := fun _ => rfl
  simp [registerSetValue, setAssoc, insertAlias, chainATV, chainVSA,
    List.lookup, ha, ha', hF, Ne.symm hF, hblock, List.range_succ]

theorem chain_register_step (n : Nat) (names : Nat → String) (style : Nat → Bool)
    (k oldV : Nat) (hkn : k < n)
    (hlk : (chainATV (2 * n + 2) k).lookup oldV = some 0) :
    registerSetValue (chainConvGraph n names style).toSt
      ⟨chainATV (2 * n + 2) k, chainVSA (2 * n + 2) k⟩ oldV (2 * n + 2 + k) 1
      = some ((chainConvGraph n names style).toSt,
          ⟨chainATV (2 * n + 2) (k + 1), chainVSA (2 * n + 2) (k + 1)⟩) := by
  have hblock : ∀ m, (chainConvGraph n names style).toSt.nodeBlock m = [] := fun _ => rfl
  have hsetA : setAssoc (2 * n + 2 + k) 0 (chainATV (2 * n + 2) k)
      = chainATV (2 * n + 2) (k + 1) := by
    unfold chainATV
    rw [setAssoc_append_new ?_]
    · rw [List.range_succ, List.map_append]
      rfl
    · intro p hp
      rcases List.mem_cons.mp hp with h | h
      · subst h
        simp
        omega
      · rcases List.mem_map.mp h with ⟨i, hi, he⟩
        subst he
        have := List.mem_range.mp hi
        simp
        omega
  have hins : insertAlias (chainConvGraph n names style).toSt (2 * n + 2 + k)
      (0 :: (List.range k).map (fun i => 2 * n + 2 + i))
      = 0 :: (List.range (k + 1)).map (fun i => 2 * n + 2 + i) := by
    rw [insertAlias_append ?_]
    · rw [List.range_succ, List.map_append]
      rfl
    · intro x hx
      rcases List.mem_cons.mp hx with h | h
      · subst h
        exact chainConv_aliasComp0 n names style k hkn
      · rcases List.mem_map.mp h with ⟨i, hi, he⟩
        subst he
        exact chainConv_aliasComp_lt n names style i k (List.mem_range.mp hi) hkn
  have hlv : List.lookup 0 (chainVSA (2 * n + 2) k)
      = some (0 :: (List.range k).map (fun i => 2 * n + 2 + i)) := rfl
  have hsetV : setAssoc 0 (0 :: (List.range (k + 1)).map (fun i => 2 * n + 2 + i))
      (chainVSA (2 * n + 2) k) = chainVSA (2 * n + 2) (k + 1) := rfl
  simp only [registerSetValue, hlk, Option.isNone_some, Bool.false_eq_true, if_false,
    Option.getD_some, hblock, hsetA, hlv, hins, hsetV, if_true]

theorem chain_tracker (n : Nat) (names : Nat → String) (style : Nat → Bool)
    (hst0 : style 0 = false) :
    ∀ k, 1 ≤ k → k ≤ n →
      buildTracker (chainConvGraph n names style).toSt
        ((List.range k).map
          (fun i => ((if style i then 2 * n + 2 + i - 1 else 0), 2 * n + 2 + i)))
      = some ⟨chainATV (2 * n + 2) k, chainVSA (2 * n + 2) k⟩ := by
  intro k
  induction k with
  | zero => intro h _; omega
  | succ k ih =>
    intro _ hk1
    rw [List.range_succ, List.map_append, List.map_cons, List.map_nil, buildTracker_snoc]
    by_cases hk0 : k = 0
    · subst hk0
      have hbt : buildTracker (chainConvGraph n names style).toSt
          ((List.range 0).map
            (fun i => ((if style i then 2 * n + 2 + i - 1 else 0), 2 * n + 2 + i)))
          = some ⟨[], []⟩ := rfl
      rw [hbt]
      dsimp only
      rw [hst0]
      simp only [Bool.false_eq_true, if_false, Nat.add_zero]
      rw [chain_register_base n names style (by omega)]
      rfl
    · have hk1' : 1 ≤ k := by omega
      rw [ih hk1' (by omega)]
      dsimp only
      rw [chain_register_step n names style k (if style k then 2 * n + 2 + k - 1 else 0)
        (by omega) ?_]
      · rfl
      · by_cases hstk : style k = true
        · simp only [hstk, if_true]
          have h1 : (2 : Nat) * n + 2 + k - 1 = 2 * n + 2 + (k - 1) := by omega
          rw [h1]
          unfold chainATV
          have hb : ((2 : Nat) * n + 2 + (k - 1) == 0) = false := by simp
          simp only [List.lookup, hb]
          exact lookup_map_range (fun i => 2 * n + 2 + i) (fun _ => 0)
            (fun a b h => by simp at h; omega) k (k - 1) (by omega)
        · have hstk' : style k = false := by
            rcases Bool.eq_false_or_eq_true (style k) with h | h
            · exact absurd h hstk
            · exact h
          simp only [hstk', Bool.false_eq_true, if_false]
          rfl

theorem chain_fold_pick (n : Nat) (names : Nat → String) (style : Nat → Bool)
    (j : Nat) (hj : j ≤ n) :
    ∀ m, m ≤ n →
      ((List.range m).map (fun i => 2 * n + 2 + i)).foldl
        (fun acc al =>
          if isBefore (chainConvGraph n names style).toSt
                ((chainConvGraph n names style).toSt.valNode al) (2 * n + 2 + j)
              && isAncestor
                ((chainConvGraph n names style).toSt.nodeBlock
                  ((chainConvGraph n names style).toSt.valNode al))
                ((chainConvGraph n names style).toSt.nodeBlock (2 * n + 2 + j)) then
            some al
          else acc)
        (some 0)
      = some (if min j m = 0 then 0 else 2 * n + 2 + (min j m - 1)) := by
  intro m
  induction m with
  | zero => intro _; simp
  | succ m ih =>
    intro hm1
    have hm : m < n := by omega
    rw [List.range_succ, List.map_append, List.map_cons, List.map_nil, List.foldl_append,
      ih (by omega)]
    have hcond : (isBefore (chainConvGraph n names style).toSt
          ((chainConvGraph n names style).toSt.valNode (2 * n + 2 + m)) (2 * n + 2 + j)
        && isAncestor
          ((chainConvGraph n names style).toSt.nodeBlock
            ((chainConvGraph n names style).toSt.valNode (2 * n + 2 + m)))
          ((chainConvGraph n names style).toSt.nodeBlock (2 * n + 2 + j)))
        = decide (m < j) := by
      rw [chainConv_valNode n names style m hm, isBefore_toSt,
        chainConv_pos n names style m (by omega), chainConv_pos n names style j hj]
      have hanc : isAncestor
          ((chainConvGraph n names style).toSt.nodeBlock (2 * n + 2 + m))
          ((chainConvGraph n names style).toSt.nodeBlock (2 * n + 2 + j)) = true := rfl
      rw [hanc, Bool.and_true]
      by_cases hmj : m < j
      · have h1 : decide (m + 1 < j + 1) = true := by simp; omega
        have h2 : decide (m < j) = true := by simp [hmj]
        rw [h1, h2]
      · have h1 : decide (m + 1 < j + 1) = false := by simp; omega
        have h2 : decide (m < j) = false := by simp; omega
        rw [h1, h2]
    rw [List.foldl_cons, List.foldl_nil, hcond]
    by_cases hmj : m < j
    · have h2 : decide (m < j) = true := by simp [hmj]
      rw [h2, if_pos rfl]
      have : min j (m + 1) = m + 1 := by omega
      rw [this]
      simp
    · have h2 : decide (m < j) = false := by simp; omega
      rw [h2]
      have h3 : min j (m + 1) = min j m := by omega
      rw [if_neg (by simp), h3]

theorem chain_findAlias_tracked (n : Nat) (names : Nat → String) (style : Nat → Bool)
    (j : Nat) (hj : j ≤ n) (v : Nat)
    (hv : (chainATV (2 * n + 2) n).lookup v = some 0) :
    findAliasForValueAtNode (chainConvGraph n names style).toSt
      ⟨chainATV (2 * n + 2) n, chainVSA (2 * n + 2) n⟩ v (2 * n + 2 + j)
    = some (if j = 0 then 0 else 2 * n + 2 + (j - 1)) := by
  unfold findAliasForValueAtNode
  simp only [hv]
  have hlv : List.lookup 0 (chainVSA (2 * n + 2) n)
      = some (0 :: (List.range n).map (fun i => 2 * n + 2 + i)) := rfl
  simp only [hlv]
  rw [List.foldl_cons]
  have hcond0 : (isBefore (chainConvGraph n names style).toSt
        ((chainConvGraph n names style).toSt.valNode 0) (2 * n + 2 + j)
      && isAncestor
        ((chainConvGraph n names style).toSt.nodeBlock
          ((chainConvGraph n names style).toSt.valNode 0))
        ((chainConvGraph n names style).toSt.nodeBlock (2 * n + 2 + j)))
      = true := by
    rw [chainConv_valNode0, isBefore_toSt, chainConv_pos0,
      chainConv_pos n names style j hj]
    have h1 : decide (0 < j + 1) = true := by simp
    rw [h1, Bool.true_and]
    rfl
  rw [hcond0, if_pos rfl]
  rw [chain_fold_pick n names style j hj n (le_refl n)]
  have hmin : min j n = j := by omega
  rw [hmin]

theorem chainATV_lookup0 (F k : Nat) : (chainATV F k).lookup 0 = some 0 := rfl

theorem chainATV_lookup_alias (n k : Nat) (hk : k < n) :
    (chainATV (2 * n + 2) n).lookup (2 * n + 2 + k) = some 0 := by
  unfold chainATV
  have hb : ((2 : Nat) * n + 2 + k == 0) = false := by simp
  simp only [List.lookup, hb]
  exact lookup_map_range (fun i => 2 * n + 2 + i) (fun _ => 0)
    (fun a b h => by simp at h; omega) n k hk

theorem chainATV_lookup_odd (n j : Nat) (hj : j < n) :
    (chainATV (2 * n + 2) n).lookup (2 * j + 1) = none := by
  unfold chainATV
  have hb : ((2 : Nat) * j + 1 == 0) = false := by simp
  simp only [List.lookup, hb]
  exact lookup_map_range_none (fun i => 2 * n + 2 + i) (fun _ => 0) n (2 * j + 1)
    (fun i hi => by show 2 * j + 1 ≠ 2 * n + 2 + i; omega)

theorem chain_correct (n : Nat) (names : Nat → String) (style : Nat → Bool)
    (hst0 : style 0 = false) (hn : 1 ≤ n) :
    correctAliasReferencesF (chainConvGraph n names style)
      ⟨chainATV (2 * n + 2) n, chainVSA (2 * n + 2) n⟩
    = some { gins := 0 :: (List.range n).map (fun i => 2 * i + 1),
             nodes := (List.range n).map (chainFinalNode names style (2 * n + 2)),
             rets := [2 * n + 2 + (n - 1)],
             vty := fun _ => TyKind.tensorT,
             freshV := 2 * n + 2 + n,
             freshN := 2 * n + 2 + n } := by
  have hnodes : mapAll (fun m => (mapAll (fun v => findAliasForValueAtNode
        (chainConvGraph n names style).toSt
        ⟨chainATV (2 * n + 2) n, chainVSA (2 * n + 2) n⟩
        v m.nid) m.ins).map (fun ins' => { m with ins := ins' }))
      ((List.range n).map (chainPureNode names style (2 * n + 2)))
      = some ((List.range n).map (chainFinalNode names style (2 * n + 2))) := by
    apply mapAll_congr_map
    intro j hj
    have hjn : j < n := List.mem_range.mp hj
    have hfa : findAliasForValueAtNode (chainConvGraph n names style).toSt
        ⟨chainATV (2 * n + 2) n, chainVSA (2 * n + 2) n⟩
        (if style j then 2 * n + 2 + j - 1 else 0) (2 * n + 2 + j)
        = some (if j = 0 then 0 else 2 * n + 2 + j - 1) := by
      have hif : (if j = 0 then 0 else 2 * n + 2 + (j - 1))
          = (if j = 0 then 0 else 2 * n + 2 + j - 1) := by
        by_cases h : j = 0 <;> simp [h] <;> omega
      by_cases hstj : style j = true
      · have hj0 : j ≠ 0 := by
          intro h
          rw [h, hst0] at hstj
          cases hstj
        have h1 : (2 : Nat) * n + 2 + j - 1 = 2 * n + 2 + (j - 1) := by omega
        simp only [hstj, if_true, h1]
        rw [chain_findAlias_tracked n names style j (by omega) (2 * n + 2 + (j - 1))
          (chainATV_lookup_alias n (j - 1) (by omega)), hif]
      · have hstj' : style j = false := by
          rcases Bool.eq_false_or_eq_true (style j) with h | h
          · exact absurd h hstj
          · exact h
        simp only [hstj', Bool.false_eq_true, if_false]
        rw [chain_findAlias_tracked n names style j (by omega) 0 (chainATV_lookup0 _ _),
          hif]
    have hfb : findAliasForValueAtNode (chainConvGraph n names style).toSt
        ⟨chainATV (2 * n + 2) n, chainVSA (2 * n + 2) n⟩
        (2 * j + 1) (2 * n + 2 + j) = some (2 * j + 1) := by
      unfold findAliasForValueAtNode
      simp only [chainATV_lookup_odd n j hjn]
    have hnid : (chainPureNode names style (2 * n + 2) j).nid = 2 * n + 2 + j := rfl
    have hinsj : (chainPureNode names style (2 * n + 2) j).ins
        = [if style j then 2 * n + 2 + j - 1 else 0, 2 * j + 1] := rfl
    rw [hnid, hinsj]
    simp only [mapAll, hfa, hfb, Option.map_some]
    rfl
  have hrets : mapAll (fun v => findAliasForValueAtNode
        (chainConvGraph n names style).toSt
        ⟨chainATV (2 * n + 2) n, chainVSA (2 * n + 2) n⟩
        v (chainConvGraph n names style).freshN) [0]
      = some [2 * n + 2 + (n - 1)] := by
    have hf0 : findAliasForValueAtNode (chainConvGraph n names style).toSt
        ⟨chainATV (2 * n + 2) n, chainVSA (2 * n + 2) n⟩ 0 (2 * n + 2 + n)
        = some (if n = 0 then 0 else 2 * n + 2 + (n - 1)) :=
      chain_findAlias_tracked n names style n (le_refl n) 0 (chainATV_lookup0 _ _)
    have hn0 : (if n = 0 then 0 else 2 * n + 2 + (n - 1)) = 2 * n + 2 + (n - 1) := by
      rw [if_neg (by omega)]
    have hfr : (chainConvGraph n names style).freshN = 2 * n + 2 + n := rfl
    rw [hfr]
    simp only [mapAll, hf0, hn0]
  have hproj1 : (chainConvGraph n names style).nodes
      = (List.range n).map (chainPureNode names style (2 * n + 2)) := rfl
  have hproj2 : (chainConvGraph n names style).rets = [0] := rfl
  unfold correctAliasReferencesF
  simp only [hproj1, hproj2, hnodes, hrets]
  rfl

theorem chain_pipeline (n : Nat) (names : Nat → String) (style : Nat → Bool)
    (hn : 1 ≤ n) (hst0 : style 0 = false)
    (hname : ∀ i, i < n → endsWithMarker (names i) = true)
    (hname2 : ∀ i, i < n → endsWithMarker (stripMarker (names i)) = false) :
    convertMutationPipeline (chainGraph n names style)
      = some { gins := 0 :: (List.range n).map (fun i => 2 * i + 1),
               nodes := (List.range n).map (chainFinalNode names style (2 * n + 2)),
               rets := [2 * n + 2 + (n - 1)],
               vty := fun _ => TyKind.tensorT,
               freshV := 2 * n + 2 + n,
               freshN := 2 * n + 2 + n } := by
  unfold convertMutationPipeline
  rw [conv_chain n names style hst0 hname hname2]
  dsimp only
  rw [chain_tracker n names style hst0 n hn (le_refl n)]
  exact chain_correct n names style hst0 hn

theorem prepareInputMutations_fixed (vty : Nat → TyKind) (i : Nat) (fuel : Nat)
    (st : PrepMutSt) (h : findMutatingUse st.nodes i = none) :
    prepareInputMutations vty i fuel st = some st := by
  cases fuel <;> simp [prepareInputMutations, h]

theorem mapAll_some_id {f : Nat → Option Nat} :
    ∀ (l : List Nat), (∀ x ∈ l, f x = some x) → mapAll f l = some l := by
  intro l
  induction l with
  | nil => intro _; rfl
  | cons x xs ih =>
    intro h
    simp [mapAll, h x (List.mem_cons_self x xs),
      ih (fun y hy => h y (List.mem_cons_of_mem x hy))]

theorem fdgInner_calls (contract : DDag → Nat → Nat → Option DDag) (diff : FNode → Bool)
    (dth oth : Nat) (dag : DDag) (consOrd : Nat) :
    ∀ producers : List Nat,
      ∀ pc ∈ (fdgInner contract diff dth oth dag consOrd producers).2,
        ∃ p ∈ producers, ∃ pv, DDag.vertAt dag p = some pv ∧
          pc = (pv.ord, consOrd) ∧ consOrd - pv.ord ≤ dth ∧ pv.outEdgeCount ≤ oth ∧
          shouldConsiderForMerge diff pv.rdata = true := by
  intro producers
  induction producers with
  | nil =>
    intro pc hpc
    simp [fdgInner] at hpc
  | cons p rest ih =>
    intro pc hpc
    rw [fdgInner] at hpc
    rcases hv : DDag.vertAt dag p with _ | pv
    · simp only [hv] at hpc
      rcases ih pc hpc with ⟨q, hq, r⟩
      exact ⟨q, List.mem_cons_of_mem _ hq, r⟩
    · simp only [hv] at hpc
      by_cases h1 : dth < consOrd - pv.ord
      · rw [if_pos h1] at hpc
        rcases ih pc hpc with ⟨q, hq, r⟩
        exact ⟨q, List.mem_cons_of_mem _ hq, r⟩
      · rw [if_neg h1] at hpc
        by_cases h2 : oth < pv.outEdgeCount
        · rw [if_pos h2] at hpc
          rcases ih pc hpc with ⟨q, hq, r⟩
          exact ⟨q, List.mem_cons_of_mem _ hq, r⟩
        · rw [if_neg h2] at hpc
          by_cases h3 : shouldConsiderForMerge diff pv.rdata = true
          · rw [if_neg (by simp [h3])] at hpc
            rcases hc : contract dag pv.ord consOrd with _ | dag'
            · simp only [hc] at hpc
              rcases List.mem_cons.mp hpc with he | ht
              · exact ⟨p, List.mem_cons_self _ _, pv, hv, he, by omega, by omega, h3⟩
              · rcases ih pc ht with ⟨q, hq, r⟩
                exact ⟨q, List.mem_cons_of_mem _ hq, r⟩
            · simp only [hc] at hpc
              rcases List.mem_singleton.mp hpc with he
              exact ⟨p, List.mem_cons_self _ _, pv, hv, he, by omega, by omega, h3⟩
          · have h3' : shouldConsiderForMerge diff pv.rdata = false := by
              rcases Bool.eq_false_or_eq_true (shouldConsiderForMerge diff pv.rdata) with h | h
              · exact absurd h h3
              · exact h
            rw [if_pos (by simp [h3'])] at hpc
            rcases ih pc hpc with ⟨q, hq, r⟩
            exact ⟨q, List.mem_cons_of_mem _ hq, r⟩

theorem fdgOuter_head (contract : DDag → Nat → Nat → Option DDag) (diff : FNode → Bool)
    (dth oth : Nat) :
    ∀ (fuel : Nat) (dag : DDag) (o : Nat) (d : DDag) (t : List (Nat × Bool)),
      fdgOuter contract diff dth oth dag (o + 1) fuel = some (d, t) →
      ∃ ch rest, t = (o, ch) :: rest := by
  intro fuel
  cases fuel with
  | zero =>
    intro dag o d t h
    exact absurd h (by simp [fdgOuter])
  | succ fuel =>
    intro dag o d t h
    rw [fdgOuter] at h
    rcases hv : DDag.vertAt dag o with _ | c
    · simp only [hv] at h
      rcases hr : fdgOuter contract diff dth oth dag o fuel with _ | r
      · simp only [hr] at h
        simp at h
      · simp only [hr] at h
        simp at h
        exact ⟨false, r.2, h.2.symm⟩
    · simp only [hv] at h
      by_cases hc : shouldConsiderForMerge diff c.rdata = true
      · rw [if_neg (by simp [hc])] at h
        rcases hi : fdgInner contract diff dth oth dag o (sortOrds c.inEdges).reverse
            with ⟨_ | dag', calls⟩
        · simp only [hi] at h
          rcases hr : fdgOuter contract diff dth oth dag o fuel with _ | r
          · simp only [hr] at h
            simp at h
          · simp only [hr] at h
            simp at h
            exact ⟨false, r.2, h.2.symm⟩
        · simp only [hi] at h
          rcases hr : fdgOuter contract diff dth oth dag' (o + 1) fuel with _ | r
          · simp only [hr] at h
            simp at h
          · simp only [hr] at h
            simp at h
            exact ⟨true, r.2, h.2.symm⟩
      · have hc' : shouldConsiderForMerge diff c.rdata = false := by
          rcases Bool.eq_false_or_eq_true (shouldConsiderForMerge diff c.rdata) with h' | h'
          · exact absurd h' hc
          · exact h'
        rw [if_pos (by simp [hc'])] at h
        rcases hr : fdgOuter contract diff dth oth dag o fuel with _ | r
        · simp only [hr] at h
          simp at h
        · simp only [hr] at h
          simp at h
          exact ⟨false, r.2, h.2.symm⟩

theorem fdgOuter_reexamine (contract : DDag → Nat → Nat → Option DDag) (diff : FNode → Bool)
    (dth oth : Nat) :
    ∀ (fuel : Nat) (dag : DDag) (ordP : Nat) (d : DDag) (t : List (Nat × Bool)),
      fdgOuter contract diff dth oth dag ordP fuel = some (d, t) →
      ∀ i o, t.get? i = some (o, true) → ∃ b, t.get? (i + 1) = some (o, b) := by
  intro fuel
  induction fuel with
  | zero =>
    intro dag ordP d t h
    exact absurd h (by simp [fdgOuter])
  | succ fuel ih =>
    intro dag ordP d t h i o hi
    cases ordP with
    | zero =>
      rw [fdgOuter] at h
      simp at h
      rw [h.2] at hi
      simp at hi
    | succ o' =>
      rw [fdgOuter] at h
      rcases hv : DDag.vertAt dag o' with _ | c
      · simp only [hv] at h
        rcases hr : fdgOuter contract diff dth oth dag o' fuel with _ | r
        · simp only [hr] at h
          simp at h
        · simp only [hr] at h
          simp at h
          rw [← h.2] at hi ⊢
          cases i with
          | zero => simp at hi
          | succ i' =>
            simp only [List.get?_cons_succ] at hi ⊢
            exact ih dag o' r.1 r.2 (by rw [hr]) i' o hi
      · simp only [hv] at h
        by_cases hcc : shouldConsiderForMerge diff c.rdata = true
        · rw [if_neg (by simp [hcc])] at h
          rcases hin : fdgInner contract diff dth oth dag o' (sortOrds c.inEdges).reverse
              with ⟨_ | dag', calls⟩
          · simp only [hin] at h
            rcases hr : fdgOuter contract diff dth oth dag o' fuel with _ | r
            · simp only [hr] at h
              cases h
            · simp only [hr] at h
              simp at h
              rw [← h.2] at hi ⊢
              cases i with
              | zero => simp at hi
              | succ i' =>
                simp only [List.get?_cons_succ] at hi ⊢
                exact ih dag o' r.1 r.2 (by rw [hr]) i' o hi
          · simp only [hin] at h
            rcases hr : fdgOuter contract diff dth oth dag' (o' + 1) fuel with _ | r
            · simp only [hr] at h
              cases h
            · simp only [hr] at h
              simp at h
              rw [← h.2] at hi ⊢
              cases i with
              | zero =>
                simp at hi
                rcases fdgOuter_head contract diff dth oth fuel dag' o' r.1 r.2 (by rw [hr])
                  with ⟨ch, rest, he⟩
                exact ⟨ch, by simp [he, hi]⟩
              | succ i' =>
                simp only [List.get?_cons_succ] at hi ⊢
                exact ih dag' (o' + 1) r.1 r.2 (by rw [hr]) i' o hi
        · have hc' : shouldConsiderForMerge diff c.rdata = false := by
            rcases Bool.eq_false_or_eq_true (shouldConsiderForMerge diff c.rdata) with h' | h'
            · exact absurd h' hcc
            · exact h'
          rw [if_pos (by simp [hc'])] at h
          rcases hr : fdgOuter contract diff dth oth dag o' fuel with _ | r
          · simp only [hr] at h
            simp at h
          · simp only [hr] at h
            simp at h
            rw [← h.2] at hi ⊢
            cases i with
            | zero => simp at hi
            | succ i' =>
              simp only [List.get?_cons_succ] at hi ⊢
              exact ih dag o' r.1 r.2 (by rw [hr]) i' o hi

theorem fdgOuter_no_consider (contract : DDag → Nat → Nat → Option DDag)
    (diff : FNode → Bool) (dth oth : Nat) (dag : DDag)
    (hall : ∀ o v, DDag.vertAt dag o = some v →
      shouldConsiderForMerge diff v.rdata = false) :
    ∀ ordP fuel, ordP < fuel →
      ∃ t, fdgOuter contract diff dth oth dag ordP fuel = some (dag, t) := by
  intro ordP
  induction ordP with
  | zero =>
    intro fuel hf
    cases fuel with
    | zero => omega
    | succ f => exact ⟨[], rfl⟩
  | succ o ih =>
    intro fuel hf
    cases fuel with
    | zero => omega
    | succ f =>
      rcases ih f (by omega) with ⟨t, ht⟩
      refine ⟨(o, false) :: t, ?_⟩
      rw [fdgOuter]
      rcases hv : DDag.vertAt dag o with _ | c
      · simp only [hv, ht]
        rfl
      · simp only [hv]
        rw [if_pos (by simp [hall o c hv])]
        simp only [ht]
        rfl

theorem mkdep_vertAt_rdata (g : FGraph) (i : Nat) :
    ∀ v, DDag.vertAt (make_dependency_graph g) i = some v →
      i < g.nodes.length ∧ v.rdata = [g.nodes.getD i ⟨0, OpKind.paramK, [], []⟩] := by
  intro v hv
  unfold DDag.vertAt make_dependency_graph at hv
  by_cases hlen : i < g.nodes.length
  · rw [List.get?_map, List.get?_range hlen] at hv
    simp only [Option.map_some'] at hv
    cases hv
    exact ⟨hlen, rfl⟩
  · rw [List.get?_map, List.get?_eq_none.mpr (by simpa using hlen)] at hv
    simp only [Option.map_none'] at hv
    cases hv

theorem shouldConsider_singleton (diff : FNode → Bool) (m : FNode)
    (hm : diff m = false) : shouldConsiderForMerge diff [m] = false := by
  unfold shouldConsiderForMerge
  rw [if_neg (by simp)]
  by_cases hk : m.kind = OpKind.constantK
  · simp [hk]
  · simp [hk, hm]

theorem merge_skip_all (isConstV : Nat → Bool) (diff : FNode → Bool) (gk : OpKind)
    (sizeThreshold : Nat) :
    ∀ (vs : List (Option DVert)) (bnodes : List FNode) (rets : List Nat) (fn fv : Nat),
      (∀ ov ∈ vs, ∀ v, ov = some v → shouldConsiderForMerge diff v.rdata = false) →
      merge_differentiable_groups isConstV diff gk sizeThreshold vs bnodes rets fn fv
        = some (bnodes, rets, []) := by
  intro vs
  induction vs with
  | nil => intro bnodes rets fn fv _; rfl
  | cons ov rest ih =>
    intro bnodes rets fn fv hall
    cases ov with
    | none =>
      rw [merge_differentiable_groups]
      exact ih bnodes rets fn fv (fun q hq => hall q (List.mem_cons_of_mem _ hq))
    | some v =>
      rw [merge_differentiable_groups]
      rw [if_pos (by simp [hall (some v) (List.mem_cons_self _ _) v rfl])]
      exact ih bnodes rets fn fv (fun q hq => hall q (List.mem_cons_of_mem _ hq))

theorem map_getD_range {α : Type} (d : α) :
    ∀ l : List α, (List.range l.length).map (fun i => l.getD i d) = l := by
  intro l
  induction l with
  | nil => rfl
  | cons x xs ih =>
    rw [List.length_cons, List.range_succ_eq_map, List.map_cons, List.map_map]
    have he : ((fun i => (x :: xs).getD i d) ∘ Nat.succ) = (fun i => xs.getD i d) := by
      funext i
      rfl
    rw [he, ih]
    rfl

theorem flatMap_some_singleton (vf : Nat → DVert) (nf : Nat → FNode)
    (hr : ∀ i, (vf i).rdata = [nf i]) :
    ∀ n : Nat, ((List.range n).map (fun i => some (vf i))).flatMap
        (fun ov => match ov with | none => [] | some v => v.rdata.reverse)
      = (List.range n).map nf := by
  intro n
  induction n with
  | zero => rfl
  | succ n ih =>
    rw [List.range_succ, List.map_append, List.map_append, List.flatMap_append, ih]
    simp [hr n]

theorem reorder_mkdep (g : FGraph) :
    reorder_according_to_dag (make_dependency_graph g) = g.nodes := by
  unfold reorder_according_to_dag make_dependency_graph
  rw [flatMap_some_singleton _ (fun i => g.nodes.getD i ⟨0, OpKind.paramK, [], []⟩)
    (fun i => rfl)]
  exact map_getD_range _ g.nodes

theorem getD_mem_of_lt {α : Type} (l : List α) (d : α) (i : Nat) (h : i < l.length) :
    l.getD i d ∈ l := by
  rw [List.getD_eq_getElem l d h]
  exact List.getElem_mem h

theorem mkdep_all_notconsider (g : FGraph) (diff : FNode → Bool)
    (hnd : ∀ m ∈ g.nodes, diff m = false) :
    (∀ o v, DDag.vertAt (make_dependency_graph g) o = some v →
      shouldConsiderForMerge diff v.rdata = false) ∧
    (∀ ov ∈ (make_dependency_graph g).verts, ∀ v, ov = some v →
      shouldConsiderForMerge diff v.rdata = false) := by
  constructor
  · intro o v hv
    rcases mkdep_vertAt_rdata g o v hv with ⟨hlt, hr⟩
    rw [hr]
    exact shouldConsider_singleton diff _
      (hnd _ (getD_mem_of_lt g.nodes ⟨0, OpKind.paramK, [], []⟩ o hlt))
  · intro ov hov v he
    subst he
    unfold make_dependency_graph at hov
    rcases List.mem_map.mp hov with ⟨i, hi, hfe⟩
    have hlt := List.mem_range.mp hi
    cases hfe
    exact shouldConsider_singleton diff _
      (hnd _ (getD_mem_of_lt g.nodes ⟨0, OpKind.paramK, [], []⟩ i hlt))

theorem lookup_sing {α : Type} (k w : Nat) (v : α) :
    ([(k, v)] : List (Nat × α)).lookup w = if w = k then some v else none := by
  by_cases h : w = k
  · subst h
    simp [List.lookup]
  · have hb : (w == k) = false := by simp [h]
    simp [List.lookup, hb, h]

theorem lookup_append_sing_isSome {α : Type} (k w : Nat) (v : α) (l : List (Nat × α)) :
    ((l ++ [(k, v)]).lookup w).isSome = true ↔
      (l.lookup w).isSome = true ∨ w = k := by
  rcases hl : l.lookup w with _ | x
  · rw [lookup_append_right hl, lookup_sing]
    by_cases h : w = k <;> simp [h]
  · rw [lookup_append_left hl]
    simp

theorem getOrCreateInput_inv (others : List FNode) (rets : List Nat)
    (isConstV : Nat → Bool) (prodG : Nat → Bool) (fresh0 : Nat)
    (consumed produced : Nat → Bool) (st : MergeSt) (v : Nat)
    (hinv : MInv others rets isConstV prodG fresh0 consumed produced st)
    (hpp : ∀ w, produced w = true → prodG w = true)
    (hv : prodG v = true → produced v = true) :
    MInv others rets isConstV prodG fresh0
      (fun w => consumed w || decide (w = v)) produced
      (getOrCreateInput isConstV st v).2 := by
  obtain ⟨J1, J2, J3, J4, J5, J6, J7, J8⟩ := hinv
  unfold getOrCreateInput
  rcases hl : st.valueMap.lookup v with _ | nv
  · have hnp : produced v = false := by
      rcases Bool.eq_false_or_eq_true (produced v) with h | h
      · have := (J2 v).mpr (Or.inl h)
        rw [hl] at this
        cases this
      · exact h
    have hpg : prodG v = false := by
      rcases Bool.eq_false_or_eq_true (prodG v) with h | h
      · rw [hv h] at hnp
        cases hnp
      · exact h
    by_cases hc : isConstV v = true
    · simp only [hl, hc, if_true]
      refine ⟨?_, ?_, J3, ?_, J5, J6, J7, J8⟩
      · intro w
        constructor
        · intro hmem
          rcases (J1 w).mp hmem with ⟨h1, h2, h3⟩
          exact ⟨by simp [h1], h2, h3⟩
        · rintro ⟨hcd, hp, hcst⟩
          rcases (by simpa using hcd : consumed w = true ∨ w = v) with h | h
          · exact (J1 w).mpr ⟨h, hp, hcst⟩
          · subst h
            rw [hc] at hcst
            cases hcst
      · intro w
        rw [lookup_append_sing_isSome]
        constructor
        · rintro (h | h)
          · rcases (J2 w).mp h with h' | ⟨h1, h2⟩
            · exact Or.inl h'
            · exact Or.inr ⟨by simp [h1], h2⟩
          · subst h
            exact Or.inr ⟨by simp, hpg⟩
        · rintro (h | ⟨hcd, hp⟩)
          · exact Or.inl ((J2 w).mpr (Or.inl h))
          · rcases (by simpa using hcd : consumed w = true ∨ w = v) with h | h
            · exact Or.inl ((J2 w).mpr (Or.inr ⟨h, hp⟩))
            · exact Or.inr h
      · intro w hcd hp hcst
        rcases (by simpa using hcd : consumed w = true ∨ w = v) with h | h
        · rcases J4 w h hp hcst with ⟨c, hcm, hck, hcl⟩
          exact ⟨c, List.mem_append_left _ hcm, hck, lookup_append_left hcl⟩
        · subst h
          refine ⟨⟨st.childNodes.length, OpKind.constantK, [], [st.childFresh]⟩,
            List.mem_append_right _ (List.mem_singleton.mpr rfl), rfl, ?_⟩
          rw [lookup_append_right hl, lookup_sing, if_pos rfl]
          rfl
    · have hc' : isConstV v = false := by
        rcases Bool.eq_false_or_eq_true (isConstV v) with h | h
        · exact absurd h hc
        · exact h
      simp only [hl, hc', Bool.false_eq_true, if_false]
      refine ⟨?_, ?_, ?_, ?_, J5, J6, J7, J8⟩
      · intro w
        constructor
        · intro hmem
          rcases List.mem_append.mp hmem with h | h
          · rcases (J1 w).mp h with ⟨h1, h2, h3⟩
            exact ⟨by simp [h1], h2, h3⟩
          · rcases List.mem_singleton.mp h with h
            subst h
            exact ⟨by simp, hpg, hc'⟩
        · rintro ⟨hcd, hp, hcst⟩
          rcases (by simpa using hcd : consumed w = true ∨ w = v) with h | h
          · exact List.mem_append_left _ ((J1 w).mpr ⟨h, hp, hcst⟩)
          · subst h
            exact List.mem_append_right _ (List.mem_singleton.mpr rfl)
      · intro w
        rw [lookup_append_sing_isSome]
        constructor
        · rintro (h | h)
          · rcases (J2 w).mp h with h' | ⟨h1, h2⟩
            · exact Or.inl h'
            · exact Or.inr ⟨by simp [h1], h2⟩
          · subst h
            exact Or.inr ⟨by simp, hpg⟩
        · rintro (h | ⟨hcd, hp⟩)
          · exact Or.inl ((J2 w).mpr (Or.inl h))
          · rcases (by simpa using hcd : consumed w = true ∨ w = v) with h | h
            · exact Or.inl ((J2 w).mpr (Or.inr ⟨h, hp⟩))
            · exact Or.inr h
      · simp [J3]
      · intro w hcd hp hcst
        rcases (by simpa using hcd : consumed w = true ∨ w = v) with h | h
        · rcases J4 w h hp hcst with ⟨c, hcm, hck, hcl⟩
          exact ⟨c, hcm, hck, lookup_append_left hcl⟩
        · subst h
          rw [hc'] at hcst
          cases hcst
  · simp only [hl]
    refine ⟨?_, ?_, J3, ?_, J5, J6, J7, J8⟩
    · intro w
      constructor
      · intro hmem
        rcases (J1 w).mp hmem with ⟨h1, h2, h3⟩
        exact ⟨by simp [h1], h2, h3⟩
      · rintro ⟨hcd, hp, hcst⟩
        rcases (by simpa using hcd : consumed w = true ∨ w = v) with h | h
        · exact (J1 w).mpr ⟨h, hp, hcst⟩
        · subst h
          have hs : (st.valueMap.lookup w).isSome = true := by rw [hl]; rfl
          rcases (J2 w).mp hs with h' | ⟨h1, h2⟩
          · rw [hpp w h'] at hp
            cases hp
          · exact (J1 w).mpr ⟨h1, hp, hcst⟩
    · intro w
      constructor
      · intro h
        rcases (J2 w).mp h with h' | ⟨h1, h2⟩
        · exact Or.inl h'
        · exact Or.inr ⟨by simp [h1], h2⟩
      · rintro (h | ⟨hcd, hp⟩)
        · exact (J2 w).mpr (Or.inl h)
        · rcases (by simpa using hcd : consumed w = true ∨ w = v) with h | h
          · exact (J2 w).mpr (Or.inr ⟨h, hp⟩)
          · subst h
            rw [hl]
            rfl
    · intro w hcd hp hcst
      rcases (by simpa using hcd : consumed w = true ∨ w = v) with h | h
      · exact J4 w h hp hcst
      · subst h
        have hs : (st.valueMap.lookup w).isSome = true := by rw [hl]; rfl
        rcases (J2 w).mp hs with h' | ⟨h1, h2⟩
        · rw [hpp w h'] at hp
          cases hp
        · exact J4 w h1 hp hcst

theorem MInv_congr (others : List FNode) (rets : List Nat) (isConstV : Nat → Bool)
    (prodG : Nat → Bool) (fresh0 : Nat) (c1 c2 p1 p2 : Nat → Bool) (st : MergeSt)
    (hc : ∀ v, c1 v = c2 v) (hp : ∀ v, p1 v = p2 v)
    (h : MInv others rets isConstV prodG fresh0 c1 p1 st) :
    MInv others rets isConstV prodG fresh0 c2 p2 st := by
  obtain ⟨J1, J2, J3, J4, J5, J6, J7, J8⟩ := h
  exact ⟨fun v => by rw [← hc v]; exact J1 v,
         fun v => by rw [← hc v, ← hp v]; exact J2 v,
         J3,
         fun v h1 h2 h3 => J4 v (by rw [hc v]; exact h1) h2 h3,
         fun o => by rw [← hp o]; exact J5 o,
         J6, J7, J8⟩

theorem mergeCloneIns_inv (others : List FNode) (rets : List Nat)
    (isConstV : Nat → Bool) (prodG : Nat → Bool) (fresh0 : Nat) :
    ∀ (vs : List Nat) (consumed produced : Nat → Bool) (st : MergeSt),
      MInv others rets isConstV prodG fresh0 consumed produced st →
      (∀ w, produced w = true → prodG w = true) →
      (∀ v ∈ vs, prodG v = true → produced v = true) →
      MInv others rets isConstV prodG fresh0
        (fun w => consumed w || vs.contains w) produced
        (mergeCloneIns isConstV st vs).2 := by
  intro vs
  induction vs with
  | nil =>
    intro consumed produced st hinv hpp _
    exact MInv_congr others rets isConstV prodG fresh0 consumed _ produced produced st
      (fun v => by simp) (fun _ => rfl) hinv
  | cons x rest ih =>
    intro consumed produced st hinv hpp hvs
    have h1 := getOrCreateInput_inv others rets isConstV prodG fresh0 consumed produced st x
      hinv hpp (hvs x (List.mem_cons_self _ _))
    have h2 := ih (fun w => consumed w || decide (w = x)) produced
      (getOrCreateInput isConstV st x).2 h1 hpp
      (fun v hv => hvs v (List.mem_cons_of_mem _ hv))
    refine MInv_congr others rets isConstV prodG fresh0 _ _ produced produced _
      ?_ (fun _ => rfl) h2
    intro v
    by_cases hvx : v = x
    · subst hvx
      simp
    · by_cases hcv : consumed v = true <;> simp [hvx, hcv]

theorem mergeOuts_inv (others : List FNode) (rets : List Nat)
    (isConstV : Nat → Bool) (prodG : Nat → Bool) (fresh0 : Nat) :
    ∀ (prs : List (Nat × Nat)) (consumed produced : Nat → Bool) (st : MergeSt),
      MInv others rets isConstV prodG fresh0 consumed produced st →
      MInv others rets isConstV prodG fresh0
        consumed (fun w => produced w || (prs.map Prod.fst).contains w)
        (mergeOuts others rets st prs) := by
  intro prs
  induction prs with
  | nil =>
    intro consumed produced st hinv
    exact MInv_congr others rets isConstV prodG fresh0 consumed consumed produced _ st
      (fun _ => rfl) (fun v => by simp) hinv
  | cons pr rest ih =>
    obtain ⟨o, nw⟩ := pr
    intro consumed produced st hinv
    obtain ⟨J1, J2, J3, J4, J5, J6, J7, J8⟩ := hinv
    have hstep : MInv others rets isConstV prodG fresh0 consumed
        (fun w => produced w || decide (w = o))
        (mergeOuts others rets st [(o, nw)]) := by
      have hJ2 : ∀ w, ((st.valueMap ++ [(o, nw)]).lookup w).isSome = true ↔
          (produced w || decide (w = o)) = true ∨
            (consumed w = true ∧ prodG w = false) := by
        intro w
        rw [lookup_append_sing_isSome]
        constructor
        · rintro (h | h)
          · rcases (J2 w).mp h with h' | h'
            · exact Or.inl (by simp [h'])
            · exact Or.inr h'
          · exact Or.inl (by simp [h])
        · rintro (h | h)
          · rcases (by simpa using h : produced w = true ∨ w = o) with h' | h'
            · exact Or.inl ((J2 w).mpr (Or.inl h'))
            · exact Or.inr h'
          · exact Or.inl ((J2 w).mpr (Or.inr h))
      have hJ4 : ∀ v, consumed v = true → prodG v = false → isConstV v = true →
          ∃ c, c ∈ st.childNodes ∧ c.kind = OpKind.constantK ∧
            (st.valueMap ++ [(o, nw)]).lookup v = some c.out0 := by
        intro v h1 h2 h3
        rcases J4 v h1 h2 h3 with ⟨c, hm, hk, hlv⟩
        exact ⟨c, hm, hk, lookup_append_left hlv⟩
      by_cases hext : (others.any (fun m => m.ins.contains o) || rets.contains o) = true
      · have hst : mergeOuts others rets st [(o, nw)] =
            { st with valueMap := st.valueMap ++ [(o, nw)],
                      childOutputs := st.childOutputs ++ [nw],
                      groupOuts := st.groupOuts ++ [(o, st.groupFresh)],
                      groupFresh := st.groupFresh + 1 } := by
          simp only [mergeOuts]
          rw [if_pos hext]
        rw [hst]
        refine ⟨J1, hJ2, J3, hJ4, ?_, ?_, ?_, ?_⟩
        · intro w
          rw [List.map_append]
          constructor
          · intro hm
            rcases List.mem_append.mp hm with h | h
            · rcases (J5 w).mp h with ⟨h1, h2⟩
              exact ⟨by simp [h1], h2⟩
            · rcases List.mem_singleton.mp h with h
              subst h
              exact ⟨by simp, hext⟩
          · rintro ⟨h1, h2⟩
            rcases (by simpa using h1 : produced w = true ∨ w = o) with h | h
            · exact List.mem_append_left _ ((J5 w).mpr ⟨h, h2⟩)
            · subst h
              exact List.mem_append_right _ (List.mem_singleton.mpr rfl)
        · simp [J6]
        · intro p hp
          rcases List.mem_append.mp hp with h | h
          · exact J7 p h
          · rcases List.mem_singleton.mp h with h
            subst h
            exact J8
        · show fresh0 ≤ st.groupFresh + 1
          omega
      · have hext' : (others.any (fun m => m.ins.contains o) || rets.contains o) = false := by
          rcases Bool.eq_false_or_eq_true (others.any (fun m => m.ins.contains o)
              || rets.contains o) with h | h
          · exact absurd h hext
          · exact h
        have hst : mergeOuts others rets st [(o, nw)] =
            { st with valueMap := st.valueMap ++ [(o, nw)] } := by
          simp only [mergeOuts]
          rw [if_neg (by rw [hext']; simp)]
        rw [hst]
        refine ⟨J1, hJ2, J3, hJ4, ?_, J6, J7, J8⟩
        intro w
        constructor
        · intro hm
          rcases (J5 w).mp hm with ⟨h1, h2⟩
          exact ⟨by simp [h1], h2⟩
        · rintro ⟨h1, h2⟩
          rcases (by simpa using h1 : produced w = true ∨ w = o) with h | h
          · exact (J5 w).mpr ⟨h, h2⟩
          · subst h
            unfold hasExternalUse at h2
            rw [hext'] at h2
            cases h2
    have hrec := ih consumed (fun w => produced w || decide (w = o))
      (mergeOuts others rets st [(o, nw)]) hstep
    have hnext : mergeOuts others rets (mergeOuts others rets st [(o, nw)]) rest
        = mergeOuts others rets st ((o, nw) :: rest) := by
      simp only [mergeOuts]
    rw [hnext] at hrec
    refine MInv_congr others rets isConstV prodG fresh0 consumed consumed _ _ _
      (fun _ => rfl) ?_ hrec
    intro v
    by_cases hvo : v = o
    · subst hvo
      simp
    · by_cases hpv : produced v = true <;> simp [hvo, hpv]

theorem mergeNode1_inv (others : List FNode) (rets : List Nat)
    (isConstV : Nat → Bool) (prodG : Nat → Bool) (fresh0 : Nat)
    (consumed produced : Nat → Bool) (st : MergeSt) (n : FNode)
    (hinv : MInv others rets isConstV prodG fresh0 consumed produced st)
    (hpp : ∀ w, produced w = true → prodG w = true)
    (hins : ∀ v ∈ n.ins, prodG v = true → produced v = true) :
    MInv others rets isConstV prodG fresh0
      (fun w => consumed w || n.ins.contains w)
      (fun w => produced w || n.outs.contains w)
      (mergeNode1 isConstV others rets st n) := by
  have h1 := mergeCloneIns_inv others rets isConstV prodG fresh0 n.ins consumed produced st
    hinv hpp hins
  obtain ⟨K1, K2, K3, K4, K5, K6, K7, K8⟩ := h1
  have h2 : MInv others rets isConstV prodG fresh0
      (fun w => consumed w || n.ins.contains w) produced
      { (mergeCloneIns isConstV st n.ins).2 with
        childNodes := (mergeCloneIns isConstV st n.ins).2.childNodes ++
          [⟨(mergeCloneIns isConstV st n.ins).2.childNodes.length, n.kind,
            (mergeCloneIns isConstV st n.ins).1,
            (List.range n.outs.length).map
              (fun i => (mergeCloneIns isConstV st n.ins).2.childFresh + i)⟩],
        childFresh := (mergeCloneIns isConstV st n.ins).2.childFresh + n.outs.length } := by
    refine ⟨K1, K2, K3, ?_, K5, K6, K7, K8⟩
    intro v a b c
    rcases K4 v a b c with ⟨cc, hm, hk, hl⟩
    exact ⟨cc, List.mem_append_left _ hm, hk, hl⟩
  have h3 := mergeOuts_inv others rets isConstV prodG fresh0
    (n.outs.zip ((List.range n.outs.length).map
      (fun i => (mergeCloneIns isConstV st n.ins).2.childFresh + i)))
    (fun w => consumed w || n.ins.contains w) produced _ h2
  refine MInv_congr others rets isConstV prodG fresh0 _ _ _ _ _
    (fun _ => rfl) ?_ h3
  intro v
  rw [List.map_fst_zip]
  simp

theorem consumedB_append (P : List FNode) (n : FNode) (v : Nat) :
    consumedB (P ++ [n]) v = (consumedB P v || n.ins.contains v) := by
  simp [consumedB, List.any_append]

theorem prodInB_append (P : List FNode) (n : FNode) (v : Nat) :
    prodInB (P ++ [n]) v = (prodInB P v || n.outs.contains v) := by
  simp [prodInB, List.any_append]

theorem prodInB_mono (P rest : List FNode) (w : Nat) (h : prodInB P w = true) :
    prodInB (P ++ rest) w = true := by
  simp [prodInB, List.any_append]
  simp [prodInB] at h
  exact Or.inl h

theorem MInv_init (others : List FNode) (rets : List Nat) (isConstV : Nat → Bool)
    (prodG : Nat → Bool) (fresh0 : Nat) :
    MInv others rets isConstV prodG fresh0 (consumedB []) (prodInB [])
      ⟨[], [], [], [], 0, [], [], fresh0⟩ := by
  refine ⟨?_, ?_, rfl, ?_, ?_, rfl, ?_, Nat.le_refl fresh0⟩
  · intro v
    simp [consumedB]
  · intro v
    simp [List.lookup, prodInB, consumedB]
  · intro v h
    simp [consumedB] at h
  · intro o
    simp [prodInB]
  · intro p hp
    simp at hp

theorem mergeFold_inv (others : List FNode) (rets : List Nat)
    (isConstV : Nat → Bool) (G : List FNode) (fresh0 : Nat)
    (htopo : ∀ l1 m l2, G = l1 ++ m :: l2 →
      ∀ v ∈ m.ins, prodInB G v = true → prodInB l1 v = true) :
    ∀ (rest P : List FNode) (st : MergeSt), G = P ++ rest →
      MInv others rets isConstV (prodInB G) fresh0 (consumedB P) (prodInB P) st →
      MInv others rets isConstV (prodInB G) fresh0
        (consumedB G) (prodInB G)
        (rest.foldl (mergeNode1 isConstV others rets) st) := by
  intro rest
  induction rest with
  | nil =>
    intro P st hG hinv
    rw [List.foldl_nil]
    rw [List.append_nil] at hG
    subst hG
    exact hinv
  | cons n rest' ih =>
    intro P st hG hinv
    rw [List.foldl_cons]
    have hpp : ∀ w, prodInB P w = true → prodInB G w = true := by
      intro w hw
      rw [hG]
      exact prodInB_mono P (n :: rest') w hw
    have hins : ∀ v ∈ n.ins, prodInB G v = true → prodInB P v = true :=
      htopo P n rest' hG
    have hstep := mergeNode1_inv others rets isConstV (prodInB G) fresh0
      (consumedB P) (prodInB P) st n hinv hpp hins
    have hstep' : MInv others rets isConstV (prodInB G) fresh0
        (consumedB (P ++ [n])) (prodInB (P ++ [n]))
        (mergeNode1 isConstV others rets st n) := by
      refine MInv_congr others rets isConstV (prodInB G) fresh0 _ _ _ _ _
        ?_ ?_ hstep
      · intro v
        rw [consumedB_append]
      · intro v
        rw [prodInB_append]
    exact ih (P ++ [n]) (mergeNode1 isConstV others rets st n)
      (by rw [hG, List.append_assoc]; rfl) hstep'

theorem any_false_of_all {α : Type} {p : α → Bool} :
    ∀ {l : List α}, (∀ x ∈ l, p x = false) → l.any p = false := by
  intro l
  induction l with
  | nil => intro _; rfl
  | cons x xs ih =>
    intro h
    rw [List.any_cons, h x (List.mem_cons_self _ _),
      ih fun y hy => h y (List.mem_cons_of_mem _ hy)]
    rfl

theorem find_nid_nodup (B : List FNode) (m : FNode)
    (hnd : (B.map (fun k => k.nid)).Nodup) (hm : m ∈ B) :
    B.find? (fun k => decide (k.nid = m.nid)) = some m := by
  induction B with
  | nil => cases hm
  | cons b rest ih =>
    rw [List.map_cons, List.nodup_cons] at hnd
    rcases List.mem_cons.mp hm with he | ht
    · subst he
      simp [List.find?]
    · by_cases hb : b.nid = m.nid
      · exact absurd (hb ▸ List.mem_map.mpr ⟨m, ht, rfl⟩) hnd.1
      · have hd : (decide (b.nid = m.nid)) = false := by simp [hb]
        rw [List.find?, hd]
        exact ih hnd.2 ht

theorem destroyAll_ok (rets : List Nat) :
    ∀ (l B : List FNode),
      (∀ m ∈ l, m ∈ B) →
      (B.map (fun k => k.nid)).Nodup →
      (l.map (fun k => k.nid)).Nodup →
      (∀ l1 m l2, l = l1 ++ m :: l2 → ∀ k ∈ B, (∃ o ∈ m.outs, o ∈ k.ins) →
        k.nid ∈ l1.map (fun k' => k'.nid) ∨ k.nid = m.nid) →
      (∀ m ∈ l, ∀ o ∈ m.outs, rets.contains o = false) →
      destroyAll rets B (l.map (fun k => k.nid))
        = some (B.filter (fun k => !(l.map (fun k' => k'.nid)).contains k.nid)) := by
  intro l
  induction l with
  | nil =>
    intro B _ _ _ _ _
    simp [destroyAll]
  | cons m rest ih =>
    intro B hsub hBnd hlnd husers hrets
    have hm : m ∈ B := hsub m (List.mem_cons_self _ _)
    have hfind : B.find? (fun k => decide (k.nid = m.nid)) = some m :=
      find_nid_nodup B m hBnd hm
    rw [List.map_cons, List.nodup_cons] at hlnd
    have huse : (B.any (fun k => decide (k.nid ≠ m.nid)
        && m.outs.any (fun o => k.ins.contains o))) = false := by
      apply any_false_of_all
      intro k hk
      by_cases hkn : k.nid = m.nid
      · simp [hkn]
      · have hno : m.outs.any (fun o => k.ins.contains o) = false := by
          rcases Bool.eq_false_or_eq_true (m.outs.any (fun o => k.ins.contains o)) with h | h
          · rcases List.any_eq_true.mp h with ⟨o, ho, hoin⟩
            rcases husers [] m rest rfl k hk ⟨o, ho, by simpa using hoin⟩ with h' | h'
            · simp at h'
            · exact absurd h' hkn
          · exact h
        rw [hno]
        simp
    have hnor : m.outs.any (fun o => rets.contains o) = false := by
      apply any_false_of_all
      intro o ho
      exact hrets m (List.mem_cons_self _ _) o ho
    have hdn : destroyNode rets B m.nid
        = some (B.filter (fun k => decide (k.nid ≠ m.nid))) := by
      unfold destroyNode
      simp only [hfind]
      rw [huse, hnor]
      rfl
    have hsub' : ∀ m' ∈ rest, m' ∈ B.filter (fun k => decide (k.nid ≠ m.nid)) := by
      intro m' hm'
      rw [List.mem_filter]
      refine ⟨hsub m' (List.mem_cons_of_mem _ hm'), ?_⟩
      have hne : m'.nid ≠ m.nid := by
        intro he
        exact hlnd.1 (he ▸ List.mem_map.mpr ⟨m', hm', rfl⟩)
      simp [hne]
    have hBnd' : ((B.filter (fun k => decide (k.nid ≠ m.nid))).map
        (fun k => k.nid)).Nodup := by
      have hsl : List.Sublist
          ((B.filter (fun k => decide (k.nid ≠ m.nid))).map (fun k => k.nid))
          (B.map (fun k => k.nid)) := (List.filter_sublist B).map _
      exact hsl.nodup hBnd
    have husers' : ∀ l1 m' l2, rest = l1 ++ m' :: l2 →
        ∀ k ∈ B.filter (fun k => decide (k.nid ≠ m.nid)), (∃ o ∈ m'.outs, o ∈ k.ins) →
        k.nid ∈ l1.map (fun k' => k'.nid) ∨ k.nid = m'.nid := by
      intro l1 m' l2 hdec k hk hu
      have hkB : k ∈ B := (List.mem_filter.mp hk).1
      have hkn : k.nid ≠ m.nid := by
        have := (List.mem_filter.mp hk).2
        simpa using this
      rcases husers (m :: l1) m' l2 (by rw [hdec]; rfl) k hkB hu with h' | h'
      · rw [List.map_cons] at h'
        rcases List.mem_cons.mp h' with h'' | h''
        · exact absurd h'' hkn
        · exact Or.inl h''
      · exact Or.inr h'
    have hrets' : ∀ m' ∈ rest, ∀ o ∈ m'.outs, rets.contains o = false :=
      fun m' hm' o ho => hrets m' (List.mem_cons_of_mem _ hm') o ho
    have hrec := ih (B.filter (fun k => decide (k.nid ≠ m.nid)))
      hsub' hBnd' hlnd.2 husers' hrets'
    rw [List.map_cons, destroyAll]
    simp only [hdn, hrec]
    congr 1
    rw [List.filter_filter]
    apply List.filter_congr
    intro k _
    by_cases hkn : k.nid = m.nid
    · simp [hkn]
    · simp [hkn]

theorem lookup_mem {k v : Nat} :
    ∀ {l : List (Nat × Nat)}, l.lookup k = some v → (k, v) ∈ l := by
  intro l
  induction l with
  | nil => intro h; cases h
  | cons p rest ih =>
    obtain ⟨k0, v0⟩ := p
    intro h
    by_cases hk : k = k0
    · subst hk
      simp [List.lookup] at h
      subst h
      exact List.mem_cons_self _ _
    · have hb : (k == k0) = false := by simp [hk]
      simp only [List.lookup, hb] at h
      exact List.mem_cons_of_mem _ (ih h)

theorem lookup_isSome_of_mem_fst {k : Nat} :
    ∀ {l : List (Nat × Nat)}, k ∈ l.map Prod.fst → (l.lookup k).isSome = true := by
  intro l
  induction l with
  | nil => intro h; cases h
  | cons p rest ih =>
    obtain ⟨k0, v0⟩ := p
    intro h
    by_cases hk : k = k0
    · subst hk
      simp [List.lookup]
    · have hb : (k == k0) = false := by simp [hk]
      simp only [List.lookup, hb]
      rw [List.map_cons] at h
      rcases List.mem_cons.mp h with he | ht
      · exact absurd he hk
      · exact ih ht

theorem insertBeforeNid_mem_of (gnode : FNode) (nid0 : Nat) :
    ∀ (l : List FNode) (x : FNode), x ∈ l → x ∈ insertBeforeNid gnode nid0 l := by
  intro l
  induction l with
  | nil => intro x hx; cases hx
  | cons m ms ih =>
    intro x hx
    rw [insertBeforeNid]
    by_cases h : m.nid = nid0
    · rw [if_pos h]
      exact List.mem_cons_of_mem _ hx
    · rw [if_neg h]
      rcases List.mem_cons.mp hx with he | ht
      · exact he ▸ List.mem_cons_self _ _
      · exact List.mem_cons_of_mem _ (ih x ht)

theorem insertBeforeNid_mem_elim (gnode : FNode) (nid0 : Nat) :
    ∀ (l : List FNode) (x : FNode), x ∈ insertBeforeNid gnode nid0 l →
      x = gnode ∨ x ∈ l := by
  intro l
  induction l with
  | nil =>
    intro x hx
    rcases List.mem_singleton.mp (by simpa [insertBeforeNid] using hx) with h
    exact Or.inl h
  | cons m ms ih =>
    intro x hx
    rw [insertBeforeNid] at hx
    by_cases h : m.nid = nid0
    · rw [if_pos h] at hx
      rcases List.mem_cons.mp hx with he | ht
      · exact Or.inl he
      · exact Or.inr ht
    · rw [if_neg h] at hx
      rcases List.mem_cons.mp hx with he | ht
      · exact Or.inr (he ▸ List.mem_cons_self _ _)
      · rcases ih x ht with h' | h'
        · exact Or.inl h'
        · exact Or.inr (List.mem_cons_of_mem _ h')

theorem insertBeforeNid_nids_perm (gnode : FNode) (nid0 : Nat) :
    ∀ l : List FNode, List.Perm ((insertBeforeNid gnode nid0 l).map (fun k => k.nid))
      (gnode.nid :: l.map (fun k => k.nid)) := by
  intro l
  induction l with
  | nil => simp [insertBeforeNid]
  | cons m ms ih =>
    rw [insertBeforeNid]
    by_cases h : m.nid = nid0
    · rw [if_pos h]
      exact List.Perm.refl _
    · rw [if_neg h]
      rw [List.map_cons, List.map_cons]
      exact (ih.cons m.nid).trans (List.Perm.swap gnode.nid m.nid _)

theorem nodup_map_mem_inj {f : FNode → Nat} :
    ∀ {l : List FNode}, (l.map f).Nodup → ∀ a ∈ l, ∀ b ∈ l, f a = f b → a = b := by
  intro l
  induction l with
  | nil => intro _ a ha; cases ha
  | cons x xs ih =>
    intro hnd a ha b hb hf
    rw [List.map_cons, List.nodup_cons] at hnd
    rcases List.mem_cons.mp ha with hae | hat <;> rcases List.mem_cons.mp hb with hbe | hbt
    · rw [hae, hbe]
    · subst hae
      exact absurd (hf ▸ List.mem_map.mpr ⟨b, hbt, rfl⟩) hnd.1
    · subst hbe
      exfalso
      apply hnd.1
      rw [← hf]
      exact List.mem_map.mpr ⟨a, hat, rfl⟩
    · exact ih hnd.2 a hat b hbt hf

theorem map_nid_preserve (G : List FNode) (subf : Nat → Nat) :
    ∀ bnodes : List FNode,
      (bnodes.map (fun m => if (G.map (fun k => k.nid)).contains m.nid then m
        else { m with ins := m.ins.map subf })).map (fun k => k.nid)
      = bnodes.map (fun k => k.nid) := by
  intro bnodes
  induction bnodes with
  | nil => rfl
  | cons m ms ih =>
    rw [List.map_cons, List.map_cons, List.map_cons, ih]
    by_cases h : (G.map (fun k => k.nid)).contains m.nid = true
    · rw [h]
      rfl
    · have h' : (G.map (fun k => k.nid)).contains m.nid = false := by
        rcases Bool.eq_false_or_eq_true ((G.map (fun k => k.nid)).contains m.nid) with h1 | h1
        · exact absurd h1 h
        · exact h1
      rw [h']
      rfl

theorem merge_users_gen (bnodes : List FNode) (rets : List Nat) (G : List FNode)
    (sd : List (Nat × Nat)) (gnode : FNode) (nid0 fresh0 : Nat)
    (htopo : ∀ l1 m l2, G = l1 ++ m :: l2 → ∀ v ∈ m.ins, prodInB G v = true →
      prodInB l1 v = true)
    (houts : ∀ l1 m l2, G = l1 ++ m :: l2 → ∀ o ∈ m.outs, prodInB (l1 ++ l2) o = false)
    (hGsub : ∀ m ∈ G, m ∈ bnodes)
    (hBnd : (bnodes.map (fun k => k.nid)).Nodup)
    (hgins : ∀ v ∈ gnode.ins, prodInB G v = false)
    (hsd : ∀ o, prodInB G o = true →
      hasExternalUse (bnodes.filter
        (fun m => !(G.map (fun k => k.nid)).contains m.nid)) rets o = true →
      (sd.lookup o).isSome = true)
    (hsdf : ∀ p ∈ sd, fresh0 ≤ p.2)
    (hfresh : ∀ m ∈ bnodes, ∀ v ∈ m.outs, v < fresh0) :
    ∀ l1 m l2, G.reverse = l1 ++ m :: l2 →
      ∀ k ∈ insertBeforeNid gnode nid0
          (bnodes.map (fun m' => if (G.map (fun k' => k'.nid)).contains m'.nid then m'
            else { m' with ins := m'.ins.map (fun v => ((sd.lookup v).getD v)) })),
        (∃ o ∈ m.outs, o ∈ k.ins) → k.nid ∈ l1.map (fun k' => k'.nid) ∨ k.nid = m.nid := by
  intro l1 m l2 hdec k hk hu
  obtain ⟨o, ho, hoin⟩ := hu
  have hmG : m ∈ G := by
    rw [← List.mem_reverse, hdec]
    exact List.mem_append_right _ (List.mem_cons_self _ _)
  have hprod : prodInB G o = true :=
    List.any_eq_true.mpr ⟨m, hmG, by simpa using ho⟩
  have hGdec : G = l2.reverse ++ m :: l1.reverse := by
    have h0 := congrArg List.reverse hdec
    rw [List.reverse_reverse] at h0
    rw [h0, List.reverse_append, List.reverse_cons, List.append_assoc]
    rfl
  rcases insertBeforeNid_mem_elim gnode nid0 _ k hk with hkg | hkb
  · subst hkg
    rw [hgins o hoin] at hprod
    cases hprod
  · rcases List.mem_map.mp hkb with ⟨m', hm', hfm⟩
    by_cases hgc : (G.map (fun k' => k'.nid)).contains m'.nid = true
    · rw [if_pos hgc] at hfm
      subst hfm
      have hm'G : m' ∈ G := by
        have hmm : m'.nid ∈ G.map (fun k' => k'.nid) := by simpa using hgc
        rcases List.mem_map.mp hmm with ⟨w, hwG, hwn⟩
        have := nodup_map_mem_inj hBnd w (hGsub w hwG) m' hm' hwn
        exact this ▸ hwG
      by_cases hnid : m'.nid = m.nid
      · exact Or.inr hnid
      · have hm'mem : m' ∈ l2.reverse ∨ m' ∈ l1.reverse := by
          rw [hGdec] at hm'G
          rcases List.mem_append.mp hm'G with h | h
          · exact Or.inl h
          · rcases List.mem_cons.mp h with he | ht
            · exact absurd (congrArg (fun k' => k'.nid) he) hnid
            · exact Or.inr ht
        rcases hm'mem with hin2 | hin1
        · exfalso
          rcases List.append_of_mem hin2 with ⟨A, B, hAB⟩
          have hGdec2 : G = A ++ m' :: (B ++ m :: l1.reverse) := by
            rw [hGdec, hAB, List.append_assoc]
            rfl
          have hPA := htopo A m' (B ++ m :: l1.reverse) hGdec2 o hoin hprod
          rcases List.any_eq_true.mp hPA with ⟨w, hwA, hwo⟩
          have hfalse := houts l2.reverse m l1.reverse hGdec o ho
          have htrue : prodInB (l2.reverse ++ l1.reverse) o = true := by
            apply List.any_eq_true.mpr
            refine ⟨w, List.mem_append_left _ ?_, hwo⟩
            rw [hAB]
            exact List.mem_append_left _ hwA
          rw [htrue] at hfalse
          cases hfalse
        · exact Or.inl (List.mem_map.mpr ⟨m', List.mem_reverse.mp hin1, rfl⟩)
    · have hgc' : (G.map (fun k' => k'.nid)).contains m'.nid = false := by
        rcases Bool.eq_false_or_eq_true ((G.map (fun k' => k'.nid)).contains m'.nid)
          with h | h
        · exact absurd h hgc
        · exact h
      rw [if_neg (by rw [hgc']; simp)] at hfm
      subst hfm
      exfalso
      rcases List.mem_map.mp hoin with ⟨v, hvm, hsv⟩
      rcases hl : sd.lookup v with _ | gv
      · have hov : o = v := by
          rw [← hsv, hl]
          rfl
        subst hov
        have hm'f : m' ∈ bnodes.filter
            (fun mm => !(G.map (fun k' => k'.nid)).contains mm.nid) := by
          rw [List.mem_filter]
          exact ⟨hm', by rw [hgc']; rfl⟩
        have hext : hasExternalUse (bnodes.filter
            (fun mm => !(G.map (fun k' => k'.nid)).contains mm.nid)) rets o = true := by
          unfold hasExternalUse
          have : (bnodes.filter
              (fun mm => !(G.map (fun k' => k'.nid)).contains mm.nid)).any
              (fun mm => mm.ins.contains o) = true :=
            List.any_eq_true.mpr ⟨m', hm'f, by simpa using hvm⟩
          rw [this]
          rfl
        have := hsd o hprod hext
        rw [hl] at this
        cases this
      · have hoe : o = gv := by
          rw [← hsv, hl]
          rfl
        have hge : fresh0 ≤ gv := hsdf (v, gv) (lookup_mem hl)
        have holt : o < fresh0 := hfresh m (hGsub m hmG) o ho
        omega

theorem merge_rets_gen (bnodes : List FNode) (rets : List Nat) (G : List FNode)
    (sd : List (Nat × Nat)) (fresh0 : Nat)
    (hGsub : ∀ m ∈ G, m ∈ bnodes)
    (hsd : ∀ o, prodInB G o = true →
      hasExternalUse (bnodes.filter
        (fun m => !(G.map (fun k => k.nid)).contains m.nid)) rets o = true →
      (sd.lookup o).isSome = true)
    (hsdf : ∀ p ∈ sd, fresh0 ≤ p.2)
    (hfresh : ∀ m ∈ bnodes, ∀ v ∈ m.outs, v < fresh0) :
    ∀ m ∈ G.reverse, ∀ o ∈ m.outs,
      (rets.map (fun v => ((sd.lookup v).getD v))).contains o = false := by
  intro m hm o ho
  have hmG : m ∈ G := List.mem_reverse.mp hm
  have hprod : prodInB G o = true :=
    List.any_eq_true.mpr ⟨m, hmG, by simpa using ho⟩
  have holt : o < fresh0 := hfresh m (hGsub m hmG) o ho
  have hno : o ∉ rets.map (fun v => ((sd.lookup v).getD v)) := by
    intro hmem
    rcases List.mem_map.mp hmem with ⟨v, hvr, hsv⟩
    rcases hl : sd.lookup v with _ | gv
    · have hov : o = v := by
        rw [← hsv, hl]
        rfl
      subst hov
      have hext : hasExternalUse (bnodes.filter
          (fun mm => !(G.map (fun k => k.nid)).contains mm.nid)) rets o = true := by
        unfold hasExternalUse
        have hc : rets.contains o = true := by simpa using hvr
        rw [hc]
        simp
      have := hsd o hprod hext
      rw [hl] at this
      cases this
    · have hoe : o = gv := by
        rw [← hsv, hl]
        rfl
      have hge : fresh0 ≤ gv := hsdf (v, gv) (lookup_mem hl)
      omega
  simp [hno]

theorem mergeNodes_spec (isConstV : Nat → Bool) (gk : OpKind) (bnodes : List FNode)
    (rets : List Nat) (G : List FNode) (groupNid fresh0 : Nat)
    (hne : G ≠ [])
    (htopo : ∀ l1 m l2, G = l1 ++ m :: l2 → ∀ v ∈ m.ins, prodInB G v = true →
      prodInB l1 v = true)
    (houts : ∀ l1 m l2, G = l1 ++ m :: l2 → ∀ o ∈ m.outs, prodInB (l1 ++ l2) o = false)
    (hGsub : ∀ m ∈ G, m ∈ bnodes)
    (hBnd : (bnodes.map (fun k => k.nid)).Nodup)
    (hGnd : (G.map (fun k => k.nid)).Nodup)
    (hgn : groupNid ∉ bnodes.map (fun k => k.nid))
    (hfresh : ∀ m ∈ bnodes, ∀ v ∈ m.outs, v < fresh0) :
    ∃ res, mergeNodes isConstV gk bnodes rets G groupNid fresh0 = some res ∧
      (∀ v, v ∈ res.st.groupIns ↔ consumedB G v = true ∧ prodInB G v = false ∧
        isConstV v = false) ∧
      res.childInputs.length = res.st.groupIns.length ∧
      (∀ v, consumedB G v = true → prodInB G v = false → isConstV v = true →
        ∃ c, c ∈ res.childNodes ∧ c.kind = OpKind.constantK ∧
          res.st.valueMap.lookup v = some c.out0) ∧
      (∀ o, o ∈ res.st.groupOuts.map Prod.fst ↔ prodInB G o = true ∧
        hasExternalUse (bnodes.filter
          (fun m => !(G.map (fun k => k.nid)).contains m.nid)) rets o = true) ∧
      res.childOutputs.length = res.st.groupOuts.length ∧
      res.groupNode = ⟨groupNid, gk, res.st.groupIns, res.st.groupOuts.map Prod.snd⟩ ∧
      res.destroyed = (G.map (fun k => k.nid)).reverse := by
  rcases List.exists_cons_of_ne_nil hne with ⟨g0, G', hG⟩
  set others := bnodes.filter (fun m => !(G.map (fun k => k.nid)).contains m.nid)
    with hoth
  set stF := G.foldl (mergeNode1 isConstV others rets) ⟨[], [], [], [], 0, [], [], fresh0⟩
    with hstF
  set gnode : FNode := ⟨groupNid, gk, stF.groupIns, stF.groupOuts.map (fun p => p.2)⟩
    with hgnode
  set bn1 := bnodes.map (fun m => if (G.map (fun k => k.nid)).contains m.nid then m
    else { m with ins := m.ins.map (fun v => ((stF.groupOuts.lookup v).getD v)) })
    with hbn1
  set bn2 := insertBeforeNid gnode g0.nid bn1 with hbn2
  set rets1 := rets.map (fun v => ((stF.groupOuts.lookup v).getD v)) with hrets1
  have hinv := mergeFold_inv others rets isConstV G fresh0 htopo G []
    ⟨[], [], [], [], 0, [], [], fresh0⟩ rfl (MInv_init _ _ _ _ _)
  rw [← hstF] at hinv
  obtain ⟨J1, J2, J3, J4, J5, J6, J7, J8⟩ := hinv
  have hsd : ∀ o, prodInB G o = true → hasExternalUse others rets o = true →
      (stF.groupOuts.lookup o).isSome = true := by
    intro o h1 h2
    exact lookup_isSome_of_mem_fst ((J5 o).mpr ⟨h1, h2⟩)
  have hsub2 : ∀ m ∈ G.reverse, m ∈ bn2 := by
    intro m hm
    have hmG : m ∈ G := List.mem_reverse.mp hm
    apply insertBeforeNid_mem_of
    apply List.mem_map.mpr
    refine ⟨m, hGsub m hmG, ?_⟩
    rw [if_pos (by simp; exact ⟨m, hmG, rfl⟩)]
  have hBnd2 : (bn2.map (fun k => k.nid)).Nodup := by
    have hperm := insertBeforeNid_nids_perm gnode g0.nid bn1
    rw [hperm.nodup_iff, hbn1, map_nid_preserve]
    exact List.nodup_cons.mpr ⟨hgn, hBnd⟩
  have hlnd2 : ((G.reverse).map (fun k => k.nid)).Nodup := by
    rw [List.map_reverse]
    exact List.nodup_reverse.mpr hGnd
  have husersF := merge_users_gen bnodes rets G stF.groupOuts gnode g0.nid fresh0
    htopo houts hGsub hBnd
    (fun v hv => ((J1 v).mp hv).2.1) hsd J7 hfresh
  rw [← hbn1, ← hbn2] at husersF
  have hretsF := merge_rets_gen bnodes rets G stF.groupOuts fresh0 hGsub hsd J7 hfresh
  rw [← hrets1] at hretsF
  have hdestroy := destroyAll_ok rets1 G.reverse bn2 hsub2 hBnd2 hlnd2 husersF hretsF
  rw [List.map_reverse] at hdestroy
  rw [hG]
  simp only [mergeNodes]
  rw [← hG, ← hoth, ← hstF, ← hgnode, ← hbn1, ← hrets1, ← hbn2]
  simp only [hdestroy]
  exact ⟨_, rfl, J1, J3, J4, J5, J6, rfl, rfl⟩

end RNJit

/-- C2: for a tracked value `v` whose root has the two aliases `a1, a2`
with `a1`'s producer before `a2`'s, and a query node `q` after both with
both owning blocks ancestors of `q`'s block, `findAliasForValueAtNode`
returns the later alias `a2`; and (second conjunct) a returned alias always
has its owning block an ancestor of the query node's block, so an alias
from a sibling `If` branch is never returned. -/
theorem claim_C2_findAlias_latest_visible (g : RNJit.GraphSt) (vt : RNJit.VT)
    (v root a1 a2 q : Nat)
    (hv : vt.aliasToValue.lookup v = some root)
    (hs : vt.valueToSortedAliases.lookup root = some [a1, a2])
    (_h12 : RNJit.isBefore g (g.valNode a1) (g.valNode a2) = true)
    (ha1b : RNJit.isBefore g (g.valNode a1) q = true)
    (ha1anc : RNJit.isAncestor (g.nodeBlock (g.valNode a1)) (g.nodeBlock q) = true)
    (ha2b : RNJit.isBefore g (g.valNode a2) q = true)
    (ha2anc : RNJit.isAncestor (g.nodeBlock (g.valNode a2)) (g.nodeBlock q) = true) :
    RNJit.findAliasForValueAtNode g vt v q = some a2 ∧
    ∀ (vt' : RNJit.VT) (w b root' : Nat) (l : List Nat),
      vt'.aliasToValue.lookup w = some root' →
      vt'.valueToSortedAliases.lookup root' = some l →
      RNJit.findAliasForValueAtNode g vt' w q = some b →
      RNJit.isAncestor (g.nodeBlock (g.valNode b)) (g.nodeBlock q) = true := by
  constructor
  · simp [RNJit.findAliasForValueAtNode, hv, hs, ha1b, ha1anc, ha2b, ha2anc]
  · intro vt' w b root' l hw hl hfind
    simp only [RNJit.findAliasForValueAtNode, hw, hl] at hfind
    rcases RNJit.foldl_pickLast_some l none b hfind with h' | h'
    · exact absurd h' (by simp)
    · exact (Bool.and_eq_true _ _ |>.mp h').2

/-- C2 witness: a concrete two-alias tracker state on a three-node root
block where the query sees the later alias. -/
theorem claim_C2_findAlias_latest_visible_witness :
    RNJit.findAliasForValueAtNode
      { valNode := fun v => v, nodeKind := fun _ => RNJit.OpKind.constantK,
        nodeBlock := fun _ => [], nodePos := fun n => n,
        nodeIns := fun _ => [], nodeOuts := fun _ => [],
        nodeNumBlocks := fun _ => 0, blockIns := fun _ => [],
        blockOuts := fun _ => [], blockParamNode := fun _ => 0, freshV := 10 }
      { aliasToValue := [(1, 1), (2, 1)], valueToSortedAliases := [(1, [1, 2])] }
      1 5 = some 2 := by
  have h := claim_C2_findAlias_latest_visible
    { valNode := fun v => v, nodeKind := fun _ => RNJit.OpKind.constantK,
      nodeBlock := fun _ => [], nodePos := fun n => n,
      nodeIns := fun _ => [], nodeOuts := fun _ => [],
      nodeNumBlocks := fun _ => 0, blockIns := fun _ => [],
      blockOuts := fun _ => [], blockParamNode := fun _ => 0, freshV := 10 }
    { aliasToValue := [(1, 1), (2, 1)], valueToSortedAliases := [(1, [1, 2])] }
    1 1 1 2 5 (by rfl) (by rfl) (by decide) (by decide) (by decide) (by decide) (by decide)
  exact h.1

/-- C9: a value never registered with the tracker is returned unchanged by
`findAliasForValueAtNode`, and `correctAliasReferenceForInputs` leaves a
node all of whose inputs are unregistered entirely unchanged. -/
theorem claim_C9_untracked_value_identity (g : RNJit.GraphSt) (vt : RNJit.VT)
    (v n : Nat)
    (hv : vt.aliasToValue.lookup v = none)
    (hall : ∀ w ∈ g.nodeIns n, vt.aliasToValue.lookup w = none) :
    RNJit.findAliasForValueAtNode g vt v n = some v ∧
    ∃ g', RNJit.correctAliasReferenceForInputs g vt n = some g' ∧
      ∀ m, g'.nodeIns m = g.nodeIns m := by
  constructor
  · simp [RNJit.findAliasForValueAtNode, hv]
  · have hmap : RNJit.mapAll (fun w => RNJit.findAliasForValueAtNode g vt w n) (g.nodeIns n)
        = some (g.nodeIns n) := by
      apply RNJit.mapAll_some_id
      intro x hx
      simp [RNJit.findAliasForValueAtNode, hall x hx]
    refine ⟨{ g with nodeIns := fun m => if m = n then g.nodeIns n else g.nodeIns m }, ?_, ?_⟩
    · simp [RNJit.correctAliasReferenceForInputs, hmap]
    · intro m
      by_cases hm : m = n <;> simp [hm]

/-- C5: when `registerSetValue old new` is called with `new` produced
inside the body of a `Loop` node sitting in the root block and no alias of
the root is yet an output of that body, the tracker threads the value out:
the body gains `new` as an output and a fresh value as an input recorded
as an alias of the root, the loop node gains the root as an input and a
fresh output recursively registered as an alias of the root, and a read of
the root at any node after the loop resolves to that loop output rather
than the pre-loop value. -/
theorem claim_C5_registerSetValue_loop_threading (g : RNJit.GraphSt) (vt : RNJit.VT)
    (oldV newV loopN : Nat)
    (hkind : g.nodeKind loopN = RNJit.OpKind.loopK)
    (hm : g.nodeBlock (g.valNode newV) = [(loopN, 0)])
    (hloopblk : g.nodeBlock loopN = [])
    (hrn : g.nodeBlock (g.valNode oldV) = [])
    (hpn : g.nodeBlock (g.blockParamNode [(loopN, 0)]) = [(loopN, 0)])
    (hp1 : g.nodePos (g.valNode oldV) < g.nodePos loopN)
    (hp2 : g.nodePos (g.blockParamNode [(loopN, 0)]) < g.nodePos (g.valNode newV))
    (hpm : g.blockParamNode [(loopN, 0)] ≠ g.valNode newV)
    (huntracked : vt.aliasToValue.lookup oldV = none)
    (hneq : oldV ≠ newV)
    (hof : oldV < g.freshV)
    (hnf : newV < g.freshV)
    (hnoreg1 : oldV ∉ g.blockOuts [(loopN, 0)])
    (hnoreg2 : newV ∉ g.blockOuts [(loopN, 0)]) :
    ((RNJit.registerSetValue g vt oldV newV 2).map fun p => p.1.blockOuts [(loopN, 0)])
        = some (g.blockOuts [(loopN, 0)] ++ [newV]) ∧
    ((RNJit.registerSetValue g vt oldV newV 2).map fun p => p.1.blockIns [(loopN, 0)])
        = some (g.blockIns [(loopN, 0)] ++ [g.freshV]) ∧
    ((RNJit.registerSetValue g vt oldV newV 2).map fun p => p.2.aliasToValue.lookup g.freshV)
        = some (some oldV) ∧
    ((RNJit.registerSetValue g vt oldV newV 2).map fun p => p.1.nodeIns loopN)
        = some (g.nodeIns loopN ++ [oldV]) ∧
    ((RNJit.registerSetValue g vt oldV newV 2).map fun p => p.1.nodeOuts loopN)
        = some (g.nodeOuts loopN ++ [g.freshV + 1]) ∧
    ((RNJit.registerSetValue g vt oldV newV 2).map fun p => p.2.aliasToValue.lookup (g.freshV + 1))
        = some (some oldV) ∧
    ∀ q, g.nodeBlock q = [] → g.nodePos loopN < g.nodePos q →
      ((RNJit.registerSetValue g vt oldV newV 2).map fun p =>
          RNJit.findAliasForValueAtNode p.1 p.2 oldV q)
        = some (some (g.freshV + 1)) := by
  have hmr : g.valNode newV ≠ g.valNode oldV := by
    intro h
    rw [h, hrn] at hm
    simp at hm
  have hpr : g.blockParamNode [(loopN, 0)] ≠ g.valNode oldV := by
    intro h
    rw [h, hrn] at hpn
    simp at hpn
  have hlr : loopN ≠ g.valNode oldV := by
    intro h
    rw [← h] at hp1
    omega
  have hlp : loopN ≠ g.blockParamNode [(loopN, 0)] := by
    intro h
    rw [← h, hloopblk] at hpn
    simp at hpn
  have hlm : loopN ≠ g.valNode newV := by
    intro h
    rw [← h, hloopblk] at hm
    simp at hm
  have hno1 : ¬ g.nodePos loopN < g.nodePos (g.valNode oldV) := by omega
  have hno2 : ¬ g.nodePos (g.valNode newV) < g.nodePos (g.blockParamNode [(loopN, 0)]) := by omega
  have hirr : ¬ g.nodePos loopN < g.nodePos loopN := by omega
  have hdof : oldV ≠ g.freshV := by omega
  have hdnf : newV ≠ g.freshV := by omega
  have hdof1 : oldV ≠ g.freshV + 1 := by omega
  have hdnf1 : newV ≠ g.freshV + 1 := by omega
  have hdff : g.freshV ≠ g.freshV + 1 := by omega
  have hdff' : g.freshV + 1 ≠ g.freshV := by omega
  have hltf : g.freshV < g.freshV + 1 := by omega
  have hnlt1 : ¬ g.freshV + 1 < g.freshV := by omega
  have hnlt2 : ¬ g.freshV + 1 < newV := by omega
  have hnlt3 : ¬ g.freshV + 1 < oldV := by omega
  have hlt4 : newV < g.freshV + 1 := by omega
  have hlt5 : oldV < g.freshV + 1 := by omega
  have hregF : ¬ ∃ x ∈ g.blockOuts [(loopN, 0)], x = oldV ∨ x = newV := by
    rintro ⟨x, hx, h | h⟩
    · exact hnoreg1 (h ▸ hx)
    · exact hnoreg2 (h ▸ hx)
  refine ⟨?_, ?_, ?_, ?_, ?_, ?_, ?_⟩
  case refine_7 =>
    intro q hq hpq
    have hq1 : g.nodePos (g.valNode oldV) < g.nodePos q := by omega
    simp [RNJit.registerSetValue, RNJit.findAliasForValueAtNode, RNJit.insertAlias,
      RNJit.aliasComp, RNJit.isBefore, RNJit.comPrefixLen, RNJit.repNodeAt,
      RNJit.isAncestor, RNJit.isAncestorWalk,
      RNJit.lookup_setAssoc_self, RNJit.lookup_setAssoc_ne,
      huntracked, hkind, hm, hloopblk, hrn, hpn, hp1, hp2, hpm, hneq,
      hmr, hpr, hlr, hlp, hlm, hno1, hno2, hirr,
      hdof, hdnf, hdof1, hdnf1, hdff, hdff', hltf, hnlt1, hnlt2, hnlt3, hlt4, hlt5,
      Ne.symm hneq, Ne.symm hmr, Ne.symm hpr, Ne.symm hlr, Ne.symm hlp, Ne.symm hlm,
      Ne.symm hdof, Ne.symm hdnf, Ne.symm hdof1, Ne.symm hdnf1,
      hregF, List.getLast?, hq, hpq, hq1]
  all_goals
    simp [RNJit.registerSetValue, RNJit.findAliasForValueAtNode, RNJit.insertAlias,
      RNJit.aliasComp, RNJit.isBefore, RNJit.comPrefixLen, RNJit.repNodeAt,
      RNJit.isAncestor, RNJit.isAncestorWalk,
      RNJit.lookup_setAssoc_self, RNJit.lookup_setAssoc_ne,
      huntracked, hkind, hm, hloopblk, hrn, hpn, hp1, hp2, hpm, hneq,
      hmr, hpr, hlr, hlp, hlm, hno1, hno2, hirr,
      hdof, hdnf, hdof1, hdnf1, hdff, hdff', hltf, hnlt1, hnlt2, hnlt3, hlt4, hlt5,
      Ne.symm hneq, Ne.symm hmr, Ne.symm hpr, Ne.symm hlr, Ne.symm hlp, Ne.symm hlm,
      Ne.symm hdof, Ne.symm hdnf, Ne.symm hdof1, Ne.symm hdnf1,
      hregF, List.getLast?]

/-- C5 witness: on the concrete loop graph, registering value 11 (written
in the loop body) as superseding value 10 threads the loop body and binds
the post-loop read at node 5 to the new loop output 21. -/
theorem claim_C5_registerSetValue_loop_threading_witness :
    ((RNJit.registerSetValue RNJit.exLoopGraph ⟨[], []⟩ 10 11 2).map fun p =>
        RNJit.findAliasForValueAtNode p.1 p.2 10 5) = some (some 21) := by
  have h := claim_C5_registerSetValue_loop_threading RNJit.exLoopGraph ⟨[], []⟩ 10 11 2
    (by decide) (by decide) (by decide) (by decide) (by decide) (by decide) (by decide)
    (by decide) (by rfl) (by decide) (by decide) (by decide) (by decide) (by decide)
  exact h.2.2.2.2.2.2 5 (by decide) (by decide)

/-- C10: when `registerSetValue old new` is called with `new` produced in
branch `j` of an `If` node in the root block and no alias of the root is
yet an output of that branch, the tracker threads the value out only if an
existing alias of the root originates in an ancestor block of the `If`
node's block: then every sub-block gains exactly one new output (`new` on
the branch containing the write, the root on the sibling branch) and the
`If` node gains exactly one new output (registered as an alias of the
root), keeping the two branches' output counts equal; when instead the
root's aliases all originate inside the branch itself, the graph is left
unchanged. -/
theorem claim_C10_registerSetValue_if_threading (g : RNJit.GraphSt) (vt : RNJit.VT)
    (oldV newV ifN j : Nat)
    (hkind : g.nodeKind ifN = RNJit.OpKind.ifK)
    (hm : g.nodeBlock (g.valNode newV) = [(ifN, j)])
    (hifblk : g.nodeBlock ifN = [])
    (hnb : g.nodeNumBlocks ifN = 2)
    (hj : j < 2)
    (huntracked : vt.aliasToValue.lookup oldV = none)
    (hneq : oldV ≠ newV)
    (hof : oldV < g.freshV)
    (hnf : newV < g.freshV)
    (hnoreg1 : oldV ∉ g.blockOuts [(ifN, j)])
    (hnoreg2 : newV ∉ g.blockOuts [(ifN, j)]) :
    (∀ (_ : g.nodeBlock (g.valNode oldV) = [])
        (_ : g.nodePos (g.valNode oldV) < g.nodePos ifN),
      ((RNJit.registerSetValue g vt oldV newV 2).map fun p => p.1.blockOuts [(ifN, 0)])
          = some (g.blockOuts [(ifN, 0)] ++ [if j = 0 then newV else oldV]) ∧
      ((RNJit.registerSetValue g vt oldV newV 2).map fun p => p.1.blockOuts [(ifN, 1)])
          = some (g.blockOuts [(ifN, 1)] ++ [if j = 1 then newV else oldV]) ∧
      ((RNJit.registerSetValue g vt oldV newV 2).map fun p => p.1.nodeOuts ifN)
          = some (g.nodeOuts ifN ++ [g.freshV]) ∧
      ((RNJit.registerSetValue g vt oldV newV 2).map fun p => p.2.aliasToValue.lookup g.freshV)
          = some (some oldV) ∧
      ((RNJit.registerSetValue g vt oldV newV 2).map fun p =>
          ((p.1.blockOuts [(ifN, 0)]).length, (p.1.blockOuts [(ifN, 1)]).length))
          = some ((g.blockOuts [(ifN, 0)]).length + 1, (g.blockOuts [(ifN, 1)]).length + 1)) ∧
    (∀ (_ : g.nodeBlock (g.valNode oldV) = [(ifN, j)])
        (_ : g.nodePos (g.valNode oldV) < g.nodePos (g.valNode newV)),
      ((RNJit.registerSetValue g vt oldV newV 2).map Prod.fst) = some g) := by
  have hdof : oldV ≠ g.freshV := by omega
  have hdnf : newV ≠ g.freshV := by omega
  constructor
  · intro hrnA hp1
    have hmr : g.valNode newV ≠ g.valNode oldV := by
      intro h
      rw [h, hrnA] at hm
      simp at hm
    have hir : ifN ≠ g.valNode oldV := by
      intro h
      rw [← h] at hp1
      omega
    have him : ifN ≠ g.valNode newV := by
      intro h
      rw [← h, hifblk] at hm
      simp at hm
    have hno1 : ¬ g.nodePos ifN < g.nodePos (g.valNode oldV) := by omega
    have hirr : ¬ g.nodePos ifN < g.nodePos ifN := by omega
    have hregF : ¬ ∃ x ∈ g.blockOuts [(ifN, j)], x = oldV ∨ x = newV := by
      rintro ⟨x, hx, h | h⟩
      · exact hnoreg1 (h ▸ hx)
      · exact hnoreg2 (h ▸ hx)
    have hj01 : j = 0 ∨ j = 1 := by omega
    rcases hj01 with hj' | hj' <;> subst hj' <;>
      refine ⟨?_, ?_, ?_, ?_, ?_⟩ <;>
      simp [RNJit.registerSetValue, RNJit.insertAlias, RNJit.aliasComp, RNJit.isBefore,
        RNJit.comPrefixLen, RNJit.repNodeAt, RNJit.isAncestor, RNJit.isAncestorWalk,
        RNJit.lookup_setAssoc_self, RNJit.lookup_setAssoc_ne,
        huntracked, hkind, hm, hifblk, hrnA, hnb, hneq, hmr, hir, him, hno1, hirr, hp1,
        hdof, hdnf, Ne.symm hneq, Ne.symm hmr, Ne.symm hir, Ne.symm him,
        Ne.symm hdof, Ne.symm hdnf, hregF, List.getLast?]
  · intro hrnB hp1B
    have hmr : g.valNode newV ≠ g.valNode oldV := by
      intro h
      rw [h] at hp1B
      omega
    have hnoB : ¬ g.nodePos (g.valNode newV) < g.nodePos (g.valNode oldV) := by omega
    have hregF : ¬ ∃ x ∈ g.blockOuts [(ifN, j)], x = oldV ∨ x = newV := by
      rintro ⟨x, hx, h | h⟩
      · exact hnoreg1 (h ▸ hx)
      · exact hnoreg2 (h ▸ hx)
    simp [RNJit.registerSetValue, RNJit.insertAlias, RNJit.aliasComp, RNJit.isBefore,
      RNJit.comPrefixLen, RNJit.repNodeAt, RNJit.isAncestor, RNJit.isAncestorWalk,
      RNJit.lookup_setAssoc_self, RNJit.lookup_setAssoc_ne,
      huntracked, hkind, hm, hifblk, hrnB, hnb, hneq, hmr, hnoB, hp1B,
      hdof, hdnf, Ne.symm hneq, Ne.symm hmr, Ne.symm hdof, Ne.symm hdnf,
      hregF, List.getLast?]

/-- C10 witness: on the concrete `If` graph, registering value 11 (written
in branch 0) as superseding the outer value 10 adds one output to each
branch and one output (value 20) to the `If` node, aliased to the root. -/
theorem claim_C10_registerSetValue_if_threading_witness :
    ((RNJit.registerSetValue RNJit.exIfGraph ⟨[], []⟩ 10 11 2).map fun p =>
        ((p.1.blockOuts [(2, 0)]).length, (p.1.blockOuts [(2, 1)]).length))
      = some (1, 1) := by
  have h := claim_C10_registerSetValue_if_threading RNJit.exIfGraph ⟨[], []⟩ 10 11 2 0
    (by decide) (by decide) (by decide) (by decide) (by decide) (by rfl) (by decide)
    (by decide) (by decide) (by decide) (by decide)
  exact (h.1 (by decide) (by decide)).2.2.2.2

/-- C9 witness: an unregistered value and a node reading only unregistered
values pass through the tracker untouched. -/
theorem claim_C9_untracked_value_identity_witness :
    RNJit.findAliasForValueAtNode
      { valNode := fun v => v, nodeKind := fun _ => RNJit.OpKind.constantK,
        nodeBlock := fun _ => [], nodePos := fun n => n,
        nodeIns := fun _ => [4, 5], nodeOuts := fun _ => [],
        nodeNumBlocks := fun _ => 0, blockIns := fun _ => [],
        blockOuts := fun _ => [], blockParamNode := fun _ => 0, freshV := 10 }
      { aliasToValue := [(1, 1)], valueToSortedAliases := [(1, [1])] }
      4 7 = some 4 := by
  have h := claim_C9_untracked_value_identity
    { valNode := fun v => v, nodeKind := fun _ => RNJit.OpKind.constantK,
      nodeBlock := fun _ => [], nodePos := fun n => n,
      nodeIns := fun _ => [4, 5], nodeOuts := fun _ => [],
      nodeNumBlocks := fun _ => 0, blockIns := fun _ => [],
      blockOuts := fun _ => [], blockParamNode := fun _ => 0, freshV := 10 }
    { aliasToValue := [(1, 1)], valueToSortedAliases := [(1, [1])] }
    4 7 (by rfl) (by intro w hw; simp at hw; rcases hw with h | h <;> simp [h, List.lookup])
  exact h.1

/-- C6: an in-place `aten` node whose schema name ends in the `'_'` marker
is rewritten into a pure node named by stripping the marker, with the same
inputs copied in order; all uses of the in-place node's output are
replaced by the pure node's output and the in-place node is destroyed.
When input 0 is produced by `aten::select`/`aten::slice`, the rewrite
additionally synthesizes the read-modify-write: a `copy_` that is lowered
to an index-put (placeholder) whose index-list input is an empty
`ListConstruct`.  The final conjunct is the concrete scenario:
`x.add_(y); z = mul(x, 2)` becomes `x2 = add(x, y); z = mul(x2, 2)` with
the `add_` node gone and `z`'s input rebound to `x2` (value 10). -/
theorem claim_C6_inplace_marker_rewrite (n : RNJit.FNode) (inKind0 : Option RNJit.OpKind)
    (s : String) (fv fn : Nat)
    (hk : n.kind = RNJit.OpKind.atenK s)
    (hs : RNJit.endsWithMarker s = true) :
    (¬(inKind0 = some RNJit.OpKind.selectK ∨ inKind0 = some RNJit.OpKind.sliceK) →
      RNJit.PrepareInplaceOpsInBlocksForONNX n inKind0 fv fn =
        ⟨[⟨fn, RNJit.OpKind.atenK (RNJit.stripMarker s), n.ins, [fv]⟩],
          [(n.out0, fv)], some (n.in0, fv), fv + 1, fn + 1⟩) ∧
    ((inKind0 = some RNJit.OpKind.selectK ∨ inKind0 = some RNJit.OpKind.sliceK) →
      RNJit.PrepareInplaceOpsInBlocksForONNX n inKind0 fv fn =
        ⟨[⟨fn + 1, RNJit.OpKind.constantK, [], [fv + 1]⟩,
          ⟨fn, RNJit.OpKind.atenK (RNJit.stripMarker s), n.ins, [fv]⟩,
          ⟨fn + 3, RNJit.OpKind.listConstructK, [], [fv + 3]⟩,
          ⟨fn + 4, RNJit.OpKind.expandAsK, [fv, n.in0], [fv + 4]⟩,
          ⟨fn + 6, RNJit.OpKind.placeholderK, [n.in0, fv + 3, fv + 4, fv + 1], [fv + 6]⟩],
          [(n.out0, fv), (fv + 2, fv + 5), (fv + 5, fv + 6)],
          some (n.in0, fv + 6), fv + 7, fn + 7⟩) ∧
    (RNJit.convertMutationPipeline RNJit.exAddMulGraph).map (fun G => (G.nodes, G.rets)) =
      some ([⟨10, RNJit.OpKind.atenK "add", [0, 1], [10]⟩,
        ⟨2, RNJit.OpKind.constantK, [], [3]⟩,
        ⟨3, RNJit.OpKind.atenK "mul", [10, 3], [4]⟩], [4]) := by
  refine ⟨?_, ?_, by decide⟩
  · intro h
    simp [RNJit.PrepareInplaceOpsInBlocksForONNX, RNJit.PrepareCopyForONNX,
      RNJit.PrepareIndexPutForONNX, RNJit.isAten, RNJit.kindName, RNJit.strippedKind,
      hk, hs, h]
  · intro h
    simp [RNJit.PrepareInplaceOpsInBlocksForONNX, RNJit.PrepareCopyForONNX,
      RNJit.PrepareIndexPutForONNX, RNJit.isAten, RNJit.kindName, RNJit.strippedKind,
      RNJit.FNode.in0, RNJit.FNode.out0, hk, hs, h]

/-- C6 witness: the generic rewrite at the concrete `add_` node of the
`x.add_(y); z = mul(x, 2)` graph. -/
theorem claim_C6_inplace_marker_rewrite_witness :
    RNJit.PrepareInplaceOpsInBlocksForONNX ⟨1, RNJit.OpKind.atenK "add_", [0, 1], [2]⟩ none 10 10 =
      ⟨[⟨10, RNJit.OpKind.atenK "add", [0, 1], [10]⟩], [(2, 10)], some (0, 10), 11, 11⟩ := by
  have h := claim_C6_inplace_marker_rewrite ⟨1, RNJit.OpKind.atenK "add_", [0, 1], [2]⟩
    none "add_" 10 10 (by rfl) (by decide)
  exact h.1 (by simp)

/-- C7: a graph input used as an argument of an in-place-op-variant node is
handled by `PrepareForRemoveMutations`: a clone of the input (here, the
`prim::Constant` none node plus the `aten::clone`) is inserted at the start
of the block, the mutating node's (first) use of the input is replaced by
the clone's output, every use of the input after the mutating node —
including the return node's — is replaced by the clone's output, and a
warning naming the node and the input is emitted; the original input value
is no longer the value that is mutated. -/
theorem claim_C7_clone_mutated_graph_inputs
    (i fv fn : Nat) (pre post : List RNJit.FNode) (m : RNJit.FNode) (rets : List Nat)
    (vty : Nat → RNJit.TyKind)
    (hty : vty i = RNJit.TyKind.tensorT)
    (hpre : ∀ x ∈ pre, ¬(RNJit.inplaceOpVariant x.kind = true ∧ x.ins.contains i = true))
    (hmk : RNJit.inplaceOpVariant m.kind = true)
    (hmi : m.ins.contains i = true)
    (hcount : m.ins.count i = 1)
    (hif : i < fv) :
    RNJit.PrepareForRemoveMutations ⟨[i], pre ++ m :: post, rets, vty, fv, fn⟩ =
      some (⟨[i],
        ⟨fn, RNJit.OpKind.constantK, [], [fv]⟩ :: ⟨fn + 1, RNJit.OpKind.cloneK, [i, fv], [fv + 1]⟩ ::
          (pre ++ { m with ins := m.ins.set (m.ins.indexOf i) (fv + 1) } ::
            post.map (fun k =>
              { k with ins := k.ins.map (fun v => if v = i then fv + 1 else v) })),
        rets.map (fun v => if v = i then fv + 1 else v),
        vty, fv + 2, fn + 2⟩,
      [(m.nid, i)]) := by
  have hpred : ∀ y ∈ pre, (RNJit.inplaceOpVariant y.kind && y.ins.contains i) = false := by
    intro y hy
    by_cases h1 : RNJit.inplaceOpVariant y.kind = true
    · by_cases h2 : y.ins.contains i = true
      · exact absurd ⟨h1, h2⟩ (hpre y hy)
      · simp only [Bool.not_eq_true] at h2
        rw [h2, Bool.and_false]
    · simp only [Bool.not_eq_true] at h1
      rw [h1, Bool.false_and]
  have hfind1 : RNJit.findMutatingUse (pre ++ m :: post) i = some pre.length := by
    unfold RNJit.findMutatingUse
    exact RNJit.findIdx_append_cons pre m post hpred (by rw [hmk, hmi]; rfl)
  have hget : (pre ++ m :: post).get? pre.length = some m := RNJit.get_append_cons pre m post
  have htake : (pre ++ m :: post).take pre.length = pre := RNJit.take_append_cons pre m post
  have hdrop : (pre ++ m :: post).drop (pre.length + 1) = post := RNJit.drop_append_cons pre m post
  have hfv1 : fv + 1 ≠ i := by omega
  have hmnew : i ∉ m.ins.set (m.ins.indexOf i) (fv + 1) :=
    RNJit.not_mem_set_indexOf_of_count_one hfv1 hcount
  unfold RNJit.PrepareForRemoveMutations
  simp only [List.foldl_cons, List.foldl_nil]
  obtain ⟨f, hf⟩ : ∃ f, ((pre ++ m :: post).map (fun n => n.ins.length)).sum + 1 = f + 1 :=
    ⟨_, rfl⟩
  rw [hf]
  simp only [RNJit.prepareInputMutations, hfind1]
  rw [hget]
  simp only [Option.getD_some, RNJit.addDummyClone, hty, htake, hdrop]
  rw [RNJit.prepareInputMutations_fixed]
  · simp
  · unfold RNJit.findMutatingUse
    apply RNJit.findIdx_none_of_all
    intro y hy
    simp only [List.append_assoc, List.cons_append, List.nil_append, List.mem_cons,
      List.mem_append, List.mem_map, List.mem_singleton] at hy
    rcases hy with hc | hc | hc | hc | hc
    · subst hc; rfl
    · subst hc; rfl
    · exact hpred y hc
    · subst hc
      simp only [Bool.and_eq_false_iff]
      right
      simpa using hmnew
    · rcases hc with ⟨k, _, hk⟩
      subst hk
      simp only [Bool.and_eq_false_iff]
      right
      have hnm : i ∉ k.ins.map (fun v => if v = i then fv + 1 else v) := by
        intro hmem
        rcases List.mem_map.mp hmem with ⟨v, _, hv⟩
        by_cases hvi : v = i
        · rw [if_pos hvi] at hv
          omega
        · rw [if_neg hvi] at hv
          exact hvi hv
      simpa using hnm

/-- C7 witness: the graph of the source's own comment (`aten::zero_` on
graph input `%0` with a read before and a read after), run through the
pre-pass at a concrete input. -/
theorem claim_C7_clone_mutated_graph_inputs_witness :
    RNJit.PrepareForRemoveMutations
      ⟨[0], [⟨1, RNJit.OpKind.atenK "relu", [0], [2]⟩, ⟨2, RNJit.OpKind.atenK "zero_", [0], [3]⟩,
        ⟨3, RNJit.OpKind.atenK "relu", [0], [4]⟩], [0, 2], fun _ => RNJit.TyKind.tensorT, 10, 10⟩ =
      some (⟨[0],
        [⟨10, RNJit.OpKind.constantK, [], [10]⟩, ⟨11, RNJit.OpKind.cloneK, [0, 10], [11]⟩,
          ⟨1, RNJit.OpKind.atenK "relu", [0], [2]⟩, ⟨2, RNJit.OpKind.atenK "zero_", [11], [3]⟩,
          ⟨3, RNJit.OpKind.atenK "relu", [11], [4]⟩],
        [11, 2], fun _ => RNJit.TyKind.tensorT, 12, 12⟩, [(2, 0)]) := by
  have h := claim_C7_clone_mutated_graph_inputs 0 10 10
    [⟨1, RNJit.OpKind.atenK "relu", [0], [2]⟩] [⟨3, RNJit.OpKind.atenK "relu", [0], [4]⟩]
    ⟨2, RNJit.OpKind.atenK "zero_", [0], [3]⟩ [0, 2] (fun _ => RNJit.TyKind.tensorT)
    (by rfl) (by decide) (by decide) (by decide) (by decide) (by decide)
  simpa using h

/-- C1 counterexample: the original claim says zero nodes of the recognized
in-place kinds remain after the pass.  On the one-node `aten::append` graph
the pipeline succeeds yet a node of a recognized kind (the `append` itself,
kept by `PrepareListAppendAndInsertForONNX`, which only adds an output for
the updated list) is still in the graph. -/
theorem claim_C1_list_kind_survives :
    ((RNJit.convertMutationPipeline RNJit.exAppendGraph).map
      (fun G => G.nodes.any (fun m => RNJit.recognizedInplaceKind m.kind))) = some true := by
  decide

/-- C1 (corrected): (first conjunct) after the mutation-removal pipeline
every node of any resulting graph has a kind that is not an `'_'`-marker
in-place variant — the generic in-place arithmetic family is gone; (second
conjunct) on the family of flat graphs performing `n` sequential in-place
writes to the graph input `0` (each write reading either the stale original
name or the previous write's rebound name), the pipeline produces exactly
`n` pure-operator nodes with `n` distinct fresh output values
`2n+2, ..., 3n+1`, every write's read of the mutated value rebound to the
latest alias visible at its position (the previous write's output), and the
graph return rebound to the last write's output.  The original "zero nodes
of those kinds remain" is refuted for the list kinds by
`claim_C1_list_kind_survives`. -/
theorem claim_C1_inplace_rewrite_and_rebind (n : Nat) (names : Nat → String)
    (style : Nat → Bool) (hn : 1 ≤ n) (hst0 : style 0 = false)
    (hname : ∀ i, i < n → RNJit.endsWithMarker (names i) = true)
    (hname2 : ∀ i, i < n → RNJit.endsWithMarker (RNJit.stripMarker (names i)) = false) :
    (∀ G G', RNJit.convertMutationPipeline G = some G' →
      ∀ m ∈ G'.nodes, RNJit.inplaceOpVariant m.kind = false) ∧
    RNJit.convertMutationPipeline (RNJit.chainGraph n names style)
      = some { gins := 0 :: (List.range n).map (fun i => 2 * i + 1),
               nodes := (List.range n).map (RNJit.chainFinalNode names style (2 * n + 2)),
               rets := [2 * n + 2 + (n - 1)],
               vty := fun _ => RNJit.TyKind.tensorT,
               freshV := 2 * n + 2 + n,
               freshN := 2 * n + 2 + n } :=
  ⟨fun G G' h => RNJit.pipeline_no_inplace G G' h,
   RNJit.chain_pipeline n names style hn hst0 hname hname2⟩

/-- C1 witness: a single `aten::add_` write on the graph input, with the
theorem's hypotheses discharged at the concrete chain. -/
theorem claim_C1_inplace_rewrite_and_rebind_witness :
    RNJit.convertMutationPipeline (RNJit.chainGraph 1 (fun _ => "add_") (fun _ => false))
      = some { gins := [0, 1],
               nodes := [⟨4, RNJit.OpKind.atenK "add", [0, 1], [4]⟩],
               rets := [4],
               vty := fun _ => RNJit.TyKind.tensorT,
               freshV := 5,
               freshN := 5 } := by
  have h := (claim_C1_inplace_rewrite_and_rebind 1 (fun _ => "add_") (fun _ => false)
    (by decide) rfl
    (fun i hi => show RNJit.endsWithMarker "add_" = true by decide)
    (fun i hi => show RNJit.endsWithMarker (RNJit.stripMarker "add_") = false by decide)).2
  exact h.trans (by rfl)


/-- C3: for the contraction-merge loop of the differentiable-subgraph pass
with its default thresholds (distance 64, producer out-degree 16): (first
conjunct) contraction is only ever attempted on a producer that passes all
three checks — its ordinal within 64 of the consumer's, at most 16
out-edges, and eligibility for merging — so a producer failing any of the
three is skipped with no contraction attempt; (second conjunct) in the
outer loop's iteration trace, every iteration that performed a successful
contraction is immediately followed by a re-examination of the same
ordinal, and the ordinal is only decremented otherwise. -/
theorem claim_C3_merge_loop_skip_and_reexamine
    (contract : RNJit.DDag → Nat → Nat → Option RNJit.DDag) (diff : RNJit.FNode → Bool) :
    (∀ (dag : RNJit.DDag) (consOrd : Nat) (producers : List Nat),
      ∀ pc ∈ (RNJit.fdgInner contract diff 64 16 dag consOrd producers).2,
        ∃ p ∈ producers, ∃ pv, RNJit.DDag.vertAt dag p = some pv ∧
          pc = (pv.ord, consOrd) ∧ consOrd - pv.ord ≤ 64 ∧ pv.outEdgeCount ≤ 16 ∧
          RNJit.shouldConsiderForMerge diff pv.rdata = true) ∧
    (∀ (fuel : Nat) (dag : RNJit.DDag) (ordP : Nat) (d : RNJit.DDag)
        (t : List (Nat × Bool)),
      RNJit.fdgOuter contract diff 64 16 dag ordP fuel = some (d, t) →
      ∀ i o, t.get? i = some (o, true) → ∃ b, t.get? (i + 1) = some (o, b)) :=
  ⟨RNJit.fdgInner_calls contract diff 64 16,
   RNJit.fdgOuter_reexamine contract diff 64 16⟩

/-- C3 witness: on the concrete two-vertex dependency graph the attempted
contraction `(0, 1)` is on a producer passing all three checks. -/
theorem claim_C3_merge_loop_skip_and_reexamine_witness :
    ∃ p ∈ [0], ∃ pv, RNJit.DDag.vertAt RNJit.exDag3 p = some pv ∧
      ((0, 1) : Nat × Nat) = (pv.ord, 1) ∧ 1 - pv.ord ≤ 64 ∧ pv.outEdgeCount ≤ 16 ∧
      RNJit.shouldConsiderForMerge (fun _ => true) pv.rdata = true :=
  (claim_C3_merge_loop_skip_and_reexamine RNJit.exContract3 (fun _ => true)).1
    RNJit.exDag3 1 [0] (0, 1) (by decide)

/-- C8: on a graph containing no differentiable nodes the
differentiable-subgraph pass finds nothing: `CreateAutodiffSubgraphsPK`
succeeds without error, returns an empty list of grouped nodes, and leaves
the graph unchanged — for every `contractEdge` behaviour, constant test,
group-node kind and size threshold. -/
theorem claim_C8_no_diff_noop (contract : RNJit.DDag → Nat → Nat → Option RNJit.DDag)
    (diff : RNJit.FNode → Bool) (isConstV : Nat → Bool) (gk : RNJit.OpKind)
    (sizeThreshold : Nat) (g : RNJit.FGraph)
    (hnd : ∀ m ∈ g.nodes, diff m = false) :
    RNJit.CreateAutodiffSubgraphsPK contract diff isConstV gk sizeThreshold g
      = some (g, []) := by
  rcases RNJit.mkdep_all_notconsider g diff hnd with ⟨hall, hallv⟩
  unfold RNJit.CreateAutodiffSubgraphsPK RNJit.find_differentiable_groups
  rcases RNJit.fdgOuter_no_consider contract diff 64 16 (RNJit.make_dependency_graph g) hall
      (RNJit.make_dependency_graph g).verts.length
      ((RNJit.make_dependency_graph g).verts.length *
          (RNJit.make_dependency_graph g).verts.length +
        (RNJit.make_dependency_graph g).verts.length + 1) (by omega)
      with ⟨t, ht⟩
  simp only [ht]
  rw [RNJit.reorder_mkdep]
  rw [RNJit.merge_skip_all isConstV diff gk sizeThreshold
    (RNJit.make_dependency_graph g).verts g.nodes g.rets g.freshN g.freshV hallv]

/-- C8 witness: a one-node graph whose node is not differentiable passes
through unchanged with an empty group list. -/
theorem claim_C8_no_diff_noop_witness :
    RNJit.CreateAutodiffSubgraphsPK (fun _ _ _ => none) (fun _ => false) (fun _ => false)
      RNJit.OpKind.placeholderK 2
      ⟨[0, 1], [⟨1, RNJit.OpKind.atenK "add", [0, 1], [2]⟩], [2],
        fun _ => RNJit.TyKind.tensorT, 10, 10⟩
      = some (⟨[0, 1], [⟨1, RNJit.OpKind.atenK "add", [0, 1], [2]⟩], [2],
          fun _ => RNJit.TyKind.tensorT, 10, 10⟩, []) :=
  claim_C8_no_diff_noop (fun _ _ _ => none) (fun _ => false) (fun _ => false)
    RNJit.OpKind.placeholderK 2 _ (fun m hm => rfl)
/-- C4: for every `mergeNodes` call on a non-empty node list in topological
order (inside-group inputs come from earlier group nodes, each value has a
unique producer, node handles are unique, the group handle and the value
handles above `fresh0` are fresh): the call succeeds, and (i) a value is an
input of the group node (with a corresponding child-graph input, one per
group input) exactly when it is consumed by the group, produced outside it,
and not a compile-time constant; (ii) a consumed outside value that is a
compile-time constant is instead inlined as a `prim::Constant` node of the
child graph; (iii) a value is a redirected output of the group node (with a
corresponding registered child-graph output) exactly when it is produced in
the group and used outside it (by a non-group node or the block return);
and (iv) the original nodes are destroyed in reverse order — none of the
use-freedom asserts of `Node::destroy` fires — after the group node is
inserted before the first original node. -/
theorem claim_C4_mergeNodes_structure (isConstV : Nat → Bool) (gk : RNJit.OpKind)
    (bnodes : List RNJit.FNode) (rets : List Nat) (G : List RNJit.FNode)
    (groupNid fresh0 : Nat)
    (hne : G ≠ [])
    (htopo : ∀ l1 m l2, G = l1 ++ m :: l2 → ∀ v ∈ m.ins,
      RNJit.prodInB G v = true → RNJit.prodInB l1 v = true)
    (houts : ∀ l1 m l2, G = l1 ++ m :: l2 → ∀ o ∈ m.outs,
      RNJit.prodInB (l1 ++ l2) o = false)
    (hGsub : ∀ m ∈ G, m ∈ bnodes)
    (hBnd : (bnodes.map (fun k => k.nid)).Nodup)
    (hGnd : (G.map (fun k => k.nid)).Nodup)
    (hgn : groupNid ∉ bnodes.map (fun k => k.nid))
    (hfresh : ∀ m ∈ bnodes, ∀ v ∈ m.outs, v < fresh0) :
    ∃ res, RNJit.mergeNodes isConstV gk bnodes rets G groupNid fresh0 = some res ∧
      (∀ v, v ∈ res.st.groupIns ↔ RNJit.consumedB G v = true ∧
        RNJit.prodInB G v = false ∧ isConstV v = false) ∧
      res.childInputs.length = res.st.groupIns.length ∧
      (∀ v, RNJit.consumedB G v = true → RNJit.prodInB G v = false → isConstV v = true →
        ∃ c, c ∈ res.childNodes ∧ c.kind = RNJit.OpKind.constantK ∧
          res.st.valueMap.lookup v = some c.out0) ∧
      (∀ o, o ∈ res.st.groupOuts.map Prod.fst ↔ RNJit.prodInB G o = true ∧
        RNJit.hasExternalUse (bnodes.filter
          (fun m => !(G.map (fun k => k.nid)).contains m.nid)) rets o = true) ∧
      res.childOutputs.length = res.st.groupOuts.length ∧
      res.groupNode = ⟨groupNid, gk, res.st.groupIns, res.st.groupOuts.map Prod.snd⟩ ∧
      res.destroyed = (G.map (fun k => k.nid)).reverse :=
  RNJit.mergeNodes_spec isConstV gk bnodes rets G groupNid fresh0 hne htopo houts
    hGsub hBnd hGnd hgn hfresh

/-- C4 witness: merge the single `aten::add_`-style node out of a two-node
block; the add becomes the child graph's node, both operands become group
inputs, the externally-read output becomes the single group output, and
the original node is destroyed without tripping the use-freedom assert. -/
theorem claim_C4_mergeNodes_structure_witness :
    ∃ res, RNJit.mergeNodes (fun _ => false) RNJit.OpKind.placeholderK
        [⟨1, RNJit.OpKind.atenK "add", [0, 1], [2]⟩,
         ⟨2, RNJit.OpKind.atenK "relu", [2], [3]⟩]
        [3] [⟨1, RNJit.OpKind.atenK "add", [0, 1], [2]⟩] 10 100 = some res ∧
      (∀ v, v ∈ res.st.groupIns ↔
        RNJit.consumedB [⟨1, RNJit.OpKind.atenK "add", [0, 1], [2]⟩] v = true ∧
        RNJit.prodInB [⟨1, RNJit.OpKind.atenK "add", [0, 1], [2]⟩] v = false ∧
        (fun _ => false : Nat → Bool) v = false) ∧
      res.childInputs.length = res.st.groupIns.length ∧
      (∀ v, RNJit.consumedB [⟨1, RNJit.OpKind.atenK "add", [0, 1], [2]⟩] v = true →
        RNJit.prodInB [⟨1, RNJit.OpKind.atenK "add", [0, 1], [2]⟩] v = false →
        (fun _ => false : Nat → Bool) v = true →
        ∃ c, c ∈ res.childNodes ∧ c.kind = RNJit.OpKind.constantK ∧
          res.st.valueMap.lookup v = some c.out0) ∧
      (∀ o, o ∈ res.st.groupOuts.map Prod.fst ↔
        RNJit.prodInB [⟨1, RNJit.OpKind.atenK "add", [0, 1], [2]⟩] o = true ∧
        RNJit.hasExternalUse
          (([⟨1, RNJit.OpKind.atenK "add", [0, 1], [2]⟩,
            ⟨2, RNJit.OpKind.atenK "relu", [2], [3]⟩] : List RNJit.FNode).filter
            (fun m => !(([⟨1, RNJit.OpKind.atenK "add", [0, 1], [2]⟩] : List RNJit.FNode).map
              (fun k => k.nid)).contains m.nid)) [3] o = true) ∧
      res.childOutputs.length = res.st.groupOuts.length ∧
      res.groupNode = ⟨10, RNJit.OpKind.placeholderK, res.st.groupIns,
        res.st.groupOuts.map Prod.snd⟩ ∧
      res.destroyed = (([⟨1, RNJit.OpKind.atenK "add", [0, 1], [2]⟩] : List RNJit.FNode).map
        (fun k => k.nid)).reverse :=
  claim_C4_mergeNodes_structure (fun _ => false) RNJit.OpKind.placeholderK
    [⟨1, RNJit.OpKind.atenK "add", [0, 1], [2]⟩, ⟨2, RNJit.OpKind.atenK "relu", [2], [3]⟩]
    [3] [⟨1, RNJit.OpKind.atenK "add", [0, 1], [2]⟩] 10 100
    (by decide)
    (by
      intro l1 m l2 heq v hv hp
      cases l1 with
      | nil =>
        rw [List.nil_append] at heq
        injection heq with h1 h2
        subst h1
        rcases (by simpa using hv : v = 0 ∨ v = 1) with h | h <;> subst h <;>
          exact absurd hp (by decide)
      | cons x l1' =>
        cases l1' with
        | nil => simp at heq
        | cons y l1'' => simp at heq)
    (by
      intro l1 m l2 heq o ho
      cases l1 with
      | nil =>
        rw [List.nil_append] at heq
        injection heq with h1 h2
        subst h1
        subst h2
        rcases (by simpa using ho : o = 2) with h
        subst h
        decide
      | cons x l1' =>
        cases l1' with
        | nil => simp at heq
        | cons y l1'' => simp at heq)
    (by
      intro m hm
      rcases List.mem_singleton.mp hm with h
      subst h
      decide)
    (by decide) (by decide) (by decide)
    (by decide)
